/-
Verification of the deductive-counting core of the clue_guessing repository
(`optimal_clue_guesser.py`).

The Python code is shallowly embedded: cards are natural numbers, Python sets
of cards become `Finset Nat`, the `HandInformation` class becomes a structure,
and every method is translated into an executable Lean function.  Python sets
have an unspecified iteration order; wherever the code iterates over a set in
a way that can influence the result (the cards of a constraint in
`satisfyConstraints`) the model takes the iteration order as an explicit
`List`, so theorems quantify over every possible order.  Where iteration order
provably cannot influence the modelled result (summations, set subtraction) a
fixed canonical order (`Finset.toList`, `Finset.sort`) is used.  Fallible
operations (Python exceptions) are modelled with `Option`/`Except`.  The
process-global memoization cache of `GameStateCounter` is threaded through the
functions as explicit state (an association list from keys to counts).
-/
import Mathlib

set_option maxHeartbeats 1000000

namespace ClueGuess

/-- Cards of the game.  The Python code uses strings; any countable card
universe is isomorphic, so cards are modelled as natural numbers. -/
abbrev Card := Nat

/-- Embedding of the Python class `HandInformation` (`optimal_clue_guesser.py`,
lines 187-389): the partial knowledge about one hand.  `constraint_list`
entries are "the hand holds at least one of these cards"; each constraint is a
Python set, modelled as the `List` of its cards in iteration order. -/
structure HandInformation where
  hand_size : Nat
  known_cards : Finset Card
  possible_cards : Finset Card
  constraint_list : List (List Card)
deriving DecidableEq

/-- `HandInformation.num_unknown_cards` (lines 228-233):
`hand_size - len(known_cards)` as a Python `int`, which may be negative. -/
def HandInformation.num_unknown_cards (h : HandInformation) : Int :=
  (h.hand_size : Int) - (h.known_cards.card : Int)

/-- `HandInformation.addKnownCard` (lines 235-242): add to `known_cards` and
discard from `possible_cards`. -/
def HandInformation.addKnownCard (h : HandInformation) (c : Card) : HandInformation :=
  { h with known_cards := insert c h.known_cards,
           possible_cards := h.possible_cards.erase c }

/-- `HandInformation.removePossibleCard` (lines 244-248). -/
def HandInformation.removePossibleCard (h : HandInformation) (c : Card) : HandInformation :=
  { h with possible_cards := h.possible_cards.erase c }

/-- `HandInformation.addConstraint` (lines 250-256): Python `list.append`. -/
def HandInformation.addConstraint (h : HandInformation) (c : List Card) : HandInformation :=
  { h with constraint_list := h.constraint_list ++ [c] }

/-- Remove a set of cards from a hand's possibilities (a loop of
`removePossibleCard` calls over a card set). -/
def subPossible (S : Finset Card) (g : HandInformation) : HandInformation :=
  { g with possible_cards := g.possible_cards \ S }

/-- The module-level `comb(N, k)` helper (lines 168-184).  It delegates to
`scipy.special.comb(N, k, exact=True)`, which returns `0` when `k < 0` or
`k > N`; for `0 ≤ k ≤ N` it is the binomial coefficient.  The lookup table is
pure memoization and does not change the value, so it is not modelled. -/
def comb (N : Nat) (k : Int) : Nat :=
  if k < 0 then 0 else N.choose k.toNat

/-- The value `comb(len(possible_cards), num_unknown_cards)` used by
`HandInformation.__lt__` (lines 368-376) to rank hands. -/
def combVal (h : HandInformation) : Nat :=
  comb h.possible_cards.card h.num_unknown_cards

/-- The constraint check of `getPossibleHands` (lines 274-278): every
constraint must share at least one card with the (full) hand. -/
def meetsConstraints (known : Finset Card) (cs : List (List Card)) : Bool :=
  cs.all (fun c => c.any (fun x => decide (x ∈ known)))

/-- `itertools.combinations(pool, n)`: all size-`n` selections of distinct
elements of the list `pool`, each selection as a card set.  Selections that
use the head come first, as in `itertools`. -/
def combinationsList : Nat → List Card → List (Finset Card)
  | 0, _ => [∅]
  | _ + 1, [] => []
  | n + 1, a :: l => (combinationsList n l).map (insert a) ++ combinationsList (n + 1) l

/-- A canonical duplicate-free enumeration of a card set, in ascending order.
Python iterates sets in unspecified order; all modelled results are provably
independent of the order chosen here. -/
def cardList (s : Finset Card) : List Card :=
  (List.range (s.sup id + 1)).filter (fun x => decide (x ∈ s))

/-- `itertools.combinations(self.possible_cards, self.num_unknown_cards)`:
Python iterates the set in unspecified order; the model fixes the ascending
order, which enumerates the same family of subsets. -/
def HandInformation.unknownChoices (h : HandInformation) : List (Finset Card) :=
  combinationsList h.num_unknown_cards.toNat (cardList h.possible_cards)

/-- `HandInformation.getPossibleHands` (lines 258-285): every way of drawing
`num_unknown_cards` further cards from `possible_cards` that satisfies all
constraints, each returned as a completed `HandInformation` with empty
`possible_cards` and no constraints. -/
def HandInformation.getPossibleHands (h : HandInformation) : List HandInformation :=
  (h.unknownChoices.filter
      (fun s => meetsConstraints (h.known_cards ∪ s) h.constraint_list)).map
    (fun s => ⟨h.hand_size, h.known_cards ∪ s, ∅, []⟩)

/-- `HandInformation.numPossibleHands` (lines 287-299): raises `ValueError`
(modelled `none`) when constraints remain, else `comb(|possible|, unknown)`. -/
def HandInformation.numPossibleHands (h : HandInformation) : Option Nat :=
  if h.constraint_list = [] then some (comb h.possible_cards.card h.num_unknown_cards)
  else none

/-- The `for card in constraint` loop of `satisfyConstraints` (lines 337-366).
`recurse` is the recursive call on the remaining constraints, `cards` is the
not-yet-processed suffix of the constraint (in the set's iteration order) and
`old` is the Python `old_cards` accumulator. -/
def branchCases (recurse : Finset Card → Finset Card → List HandInformation)
    (size : Nat) (known possible : Finset Card) :
    List Card → List Card → List HandInformation
  | [], _ => []
  | c :: cs, old =>
    if c ∉ known ∧ c ∉ possible then
      branchCases recurse size known possible cs old
    else if (size : Int) - (known.card : Int) = 0 then
      branchCases recurse size known possible cs old
    else if ∃ x ∈ old, x ∈ insert c known then
      branchCases recurse size known possible cs old
    else
      recurse (insert c known) (old.foldl Finset.erase (possible.erase c)) ++
        branchCases recurse size known possible cs (old ++ [c])

/-- `HandInformation.satisfyConstraints` (lines 301-366), written on exploded
state.  The Python method peels constraints from the end of
`constraint_list`, so this worker receives the constraints in reversed order
and peels from the head.  `known`/`possible` are the hand's current sets. -/
def satisfyConstraintsRev (size : Nat) :
    List (List Card) → Finset Card → Finset Card → List HandInformation
  | [], known, possible => [⟨size, known, possible, []⟩]
  | c :: rest, known, possible =>
    if ∃ x ∈ c, x ∈ known then
      satisfyConstraintsRev size rest known possible
    else
      branchCases (fun k p => satisfyConstraintsRev size rest k p) size known possible c []

/-- `HandInformation.satisfyConstraints` (lines 301-366): decompose a
constrained hand into constraint-free hands.  `constraint_list` is processed
from its last element (`constraint_list[-1]` + `pop`), hence the `reverse`. -/
def HandInformation.satisfyConstraints (h : HandInformation) : List HandInformation :=
  satisfyConstraintsRev h.hand_size h.constraint_list.reverse h.known_cards h.possible_cards

/-- The ordering `HandInformation.__lt__` induces for Python's `sorted`
(lines 368-376, 526-527): `a` may stay before `b` iff `not (b < a)`. -/
def handLE (a b : HandInformation) : Prop := ¬ combVal b < combVal a

instance : DecidableRel handLE := fun _ _ => instDecidableNot

/-- `sorted(hand_infos)` in `getCacheKey` (line 527).  Python's sort is stable
and uses only `__lt__`; stable insertion sort on `handLE` produces the same
list. -/
def sortedHands (l : List HandInformation) : List HandInformation :=
  l.insertionSort handLE

/-- `itertools.product([0, 1], repeat=k)` (lines 539-540) in enumeration
order: the first coordinate varies slowest. -/
def bitLists : Nat → List (List Nat)
  | 0 => [[]]
  | n + 1 => (bitLists n).map (fun t => 0 :: t) ++ (bitLists n).map (fun t => 1 :: t)

/-- The `element_superset` of `getCacheKey` (lines 532-536): union of all
`possible_cards`. -/
def supersetOf (l : List HandInformation) : Finset Card :=
  l.foldl (fun s h => s ∪ h.possible_cards) ∅

/-- One Venn-diagram region of `getCacheKey` (lines 541-547): starting from
the superset, subtract the i-th `possible_cards` where `t_i = 0` and intersect
where `t_i = 1`. -/
def atomOf (hands : List HandInformation) (superset : Finset Card) (t : List Nat) : Finset Card :=
  (t.zip hands).foldl
    (fun s p => if p.1 = 0 then s \ p.2.possible_cards else s ∩ p.2.possible_cards)
    superset

/-- `GameStateCounter.getCacheKey` (lines 495-549): the unknown-card counts of
the sorted hands followed by the cardinalities of all 2^k overlap regions.
The Python tuple mixes ints; modelled as `List Int`. -/
def getCacheKey (hand_infos : List HandInformation) : List Int :=
  let order := sortedHands hand_infos
  let superset := supersetOf order
  (order.map (fun h => h.num_unknown_cards)) ++
    (bitLists order.length).map (fun t => ((atomOf order superset t).card : Int))

/-- The in-memory cache of `GameStateCounter`: a Python dict from key tuples
to counts, modelled as an association list (later bindings shadow earlier
ones, matching dict update). -/
abbrev Cache := List (List Int × Nat)

/-- Dictionary lookup `self.cache[key]` / `key in self.cache`. -/
def cacheFind (cache : Cache) (k : List Int) : Option Nat :=
  (cache.find? (fun p => decide (p.1 = k))).map (fun p => p.2)

/-- One step of the `hand_to_iterate` selection (lines 586-590): the state is
(current index, best index so far, best value so far), where `none` models the
initial `float('inf')`. -/
def minCombStep (st : Nat × Nat × Option Nat) (h : HandInformation) :
    Nat × Nat × Option Nat :=
  match st with
  | (ix, _, none) => (ix + 1, ix, some (combVal h))
  | (ix, best, some v) =>
    if combVal h < v then (ix + 1, ix, some (combVal h))
    else (ix + 1, best, some v)

/-- The `hand_to_iterate` selection (lines 586-590): index of the first hand
with strictly fewest possible hands. -/
def minCombIdx (l : List HandInformation) : Nat :=
  (l.foldl minCombStep ((0 : Nat), (0 : Nat), (none : Option Nat))).2.1

/-- The `for hand in itertools.combinations(...)` loop of
`countPossibleStates` (lines 593-606): for each choice of the target hand,
rebuild the other hands with the chosen cards removed (fresh
`HandInformation`, hence empty constraints) and apply the recursive call
`step`, summing counts and threading the cache. -/
def countStatesLoop (step : Cache → List HandInformation → Option (Nat × Cache))
    (others : List HandInformation) :
    Cache → List (Finset Card) → Option (Nat × Cache)
  | cache, [] => some (0, cache)
  | cache, S :: restSubsets =>
    match step cache
        (others.map (fun info =>
          ⟨info.hand_size, info.known_cards, info.possible_cards \ S, []⟩)) with
    | none => none
    | some (c, ch) =>
      match countStatesLoop step others ch restSubsets with
      | none => none
      | some (c', ch') => some (c + c', ch')

/-- `GameStateCounter.countPossibleStates` (lines 551-611) with the cache
threaded explicitly and structural recursion on a depth bound (each recursive
call drops one hand, so `hand_infos.length + 1` units suffice; see
`countPossibleStates`).  `none` models a raised exception: `ValueError` when a
hand carries constraints, `IndexError` when `hand_infos[idx]` is out of range
(empty input that misses the cache), and the `ValueError` that
`itertools.combinations` raises for a negative draw count. -/
def countPossibleStatesFuel : Nat → Cache → List HandInformation → Option (Nat × Cache)
  | 0, _, _ => none
  | fuel + 1, cache, hand_infos =>
    if ∃ h ∈ hand_infos, h.constraint_list ≠ [] then none
    else if hand_infos.length = 1 then
      match hand_infos.head? with
      | some h => h.numPossibleHands.map (fun n => (n, cache))
      | none => none
    else
      match cacheFind cache (getCacheKey hand_infos) with
      | some v => some (v, cache)
      | none =>
        match hand_infos.get? (minCombIdx hand_infos) with
        | none => none
        | some target =>
          if target.num_unknown_cards < 0 then none
          else
            match countStatesLoop (countPossibleStatesFuel fuel)
                (hand_infos.eraseIdx (minCombIdx hand_infos)) cache
                target.unknownChoices with
            | none => none
            | some (cnt, ch) => some (cnt, (getCacheKey hand_infos, cnt) :: ch)

/-- `GameStateCounter.countPossibleStates` (lines 551-611): the recursion
depth is bounded by the number of hands, so `hand_infos.length + 1` units of
the structural bound reproduce the Python recursion exactly. -/
def countPossibleStates (cache : Cache) (hand_infos : List HandInformation) :
    Option (Nat × Cache) :=
  countPossibleStatesFuel (hand_infos.length + 1) cache hand_infos

/-- `itertools.product(*individual_constraints)` (line 406) in enumeration
order (first factor varies slowest). -/
def listProduct {α : Type} : List (List α) → List (List α)
  | [] => [[]]
  | l :: ls => (l.map (fun x => (listProduct ls).map (fun t => x :: t))).flatten

/-- The collision check of `satisfyAllConstraints` (lines 407-414): walk the
hands accumulating known cards, failing when a hand's known cards intersect
the accumulator. -/
def validSetAux (acc : Finset Card) : List HandInformation → Bool
  | [] => true
  | h :: t =>
    if ∃ x ∈ h.known_cards, x ∈ acc then false
    else validSetAux (acc ∪ h.known_cards) t

/-- Whether no two hands of the combination share a known card. -/
def validSet (l : List HandInformation) : Bool := validSetAux ∅ l

/-- The tightening step of `satisfyAllConstraints` (lines 420-429): each hand
loses every *other* hand's known cards from its possibilities.  The guard is
Python `==`, which is structural equality of hands. -/
def tighten (hand_set : List HandInformation) : List HandInformation :=
  hand_set.map (fun hand =>
    hand_set.foldl
      (fun nh other =>
        if other = hand then nh
        else { nh with possible_cards := nh.possible_cards \ other.known_cards })
      hand)

/-- `satisfyAllConstraints` (lines 392-433): resolve each player, cross the
branches, drop combinations with colliding known cards, tighten the rest. -/
def satisfyAllConstraints (player_hands : List HandInformation) : List (List HandInformation) :=
  (listProduct (player_hands.map (fun h => h.satisfyConstraints))).filterMap
    (fun hand_set => if validSet hand_set then some (tighten hand_set) else none)

/-- The inner loop of `countPlayerPossibilities` (lines 634-653) for one
candidate hand with known cards `handKnown`: skip combinations whose hands
share a known card with the candidate, otherwise remove the candidate's cards
from every hand and count, summing over all combinations. -/
def cppInner (cache : Cache) (handKnown : Finset Card) :
    List (List HandInformation) → Option (Nat × Cache)
  | [] => some (0, cache)
  | hl :: rest =>
    if ∃ h ∈ hl, ∃ x ∈ handKnown, x ∈ h.known_cards then
      cppInner cache handKnown rest
    else
      match countPossibleStates cache
          (hl.map (fun h => { h with possible_cards := h.possible_cards \ handKnown })) with
      | none => none
      | some (c, ch) =>
        match cppInner ch handKnown rest with
        | none => none
        | some (c', ch') => some (c + c', ch')

/-- The outer loop of `countPlayerPossibilities` (lines 632-653): one
dictionary entry per candidate hand of the counted player. -/
def cppOuter (cache : Cache) (hand_lists : List (List HandInformation)) :
    List HandInformation → Option (List (HandInformation × Nat) × Cache)
  | [] => some ([], cache)
  | cand :: rest =>
    match cppInner cache cand.known_cards hand_lists with
    | none => none
    | some (c, ch) =>
      match cppOuter ch hand_lists rest with
      | none => none
      | some (res, ch') => some ((cand, c) :: res, ch')

/-- `countPlayerPossibilities` (lines 617-655) with the global counter's cache
threaded explicitly.  The result pairs each candidate hand of
`player_to_count` with its count of consistent global states. -/
def countPlayerPossibilities (cache : Cache) (player_to_count : HandInformation)
    (other_players : List HandInformation) :
    Option (List (HandInformation × Nat) × Cache) :=
  cppOuter cache (satisfyAllConstraints other_players)
    player_to_count.getPossibleHands

/-- One comparison step of Python `max(..., key=...)`: strictly greater
counts replace the current best, so the first maximal entry wins. -/
def argmaxStep (best : Option (HandInformation × Nat)) (p : HandInformation × Nat) :
    Option (HandInformation × Nat) :=
  match best with
  | none => some p
  | some q => if p.2 > q.2 then some p else some q

/-- Python `max(envelope_counts, key=envelope_counts.get)` (line 137): the
first entry with maximal count, `none` on an empty dict (a raised
`ValueError`). -/
def argmaxEntry (counts : List (HandInformation × Nat)) : Option (HandInformation × Nat) :=
  counts.foldl argmaxStep none

/-- The extraction `[x for x in guess.known_cards if x in CATEGORY][0]`
(lines 139-141, 162-164): some card of the hand lying in the category;
`none` models the `IndexError` when there is none.  Set iteration order is
unspecified; the model takes the least such card, which is the unique one in
every well-formed envelope candidate. -/
def extractCard (cat : Finset Card) (g : HandInformation) : Option Card :=
  (cardList (g.known_cards ∩ cat)).head?

/-- `MaximumLikelihoodCluePlayer.makeGuess` (lines 133-142): recompute the
envelope counts, take the candidate with the highest count, and return its
person, weapon and room.  The fixed global card categories are parameters. -/
def makeGuess (people weapons rooms : Finset Card) (cache : Cache)
    (envelope_info : HandInformation) (hand_infos : List HandInformation) :
    Option (Card × Card × Card) :=
  match countPlayerPossibilities cache envelope_info hand_infos with
  | none => none
  | some (counts, _) =>
    match argmaxEntry counts with
    | none => none
    | some (g, _) =>
      match extractCard people g, extractCard weapons g, extractCard rooms g with
      | some p, some w, some r => some (p, w, r)
      | _, _, _ => none

/-- `MaximumLikelihoodCluePlayer.readyForAccusation` (lines 144-165): scan the
counts; when exactly one candidate has a nonzero count, the accusation names
its person, weapon and room, otherwise `self.accusation` is left untouched
(modelled `none`). -/
def readyForAccusation (people weapons rooms : Finset Card)
    (envelope_counts : List (HandInformation × Nat)) : Option (Card × Card × Card) :=
  match envelope_counts.filter (fun p => decide (0 < p.2)) with
  | [(g, _)] =>
    match extractCard people g, extractCard weapons g, extractCard rooms g with
    | some p, some w, some r => some (p, w, r)
    | _, _, _ => none
  | _ => none

/-- The maximal count among the candidates containing card `c`; the natural
card-level reading of "a card's envelope-consistency count" induced by the
candidate-to-count mapping. -/
def cardCount (counts : List (HandInformation × Nat)) (c : Card) : Nat :=
  ((counts.filter (fun p => decide (c ∈ p.1.known_cards))).map (fun p => p.2)).foldr max 0

/-- Exceptions relevant to `GameStateCounter.loadCache` (lines 463-478). -/
inductive PyException
  | fileNotFoundError
  | unpicklingError
deriving DecidableEq

/-- The state of the durable cache file on disk. -/
inductive CacheFileState
  | missing
  | corrupt
  | wellFormed (content : Cache)

/-- Semantics of `open(self.cache_path, 'rb')` followed by `pickle.load(f)`:
a missing file raises `FileNotFoundError`, a file that does not parse as a
pickle raises `pickle.UnpicklingError`, a well-formed pickle returns its
content. -/
def pickleLoadFile : CacheFileState → Except PyException Cache
  | .missing => .error .fileNotFoundError
  | .corrupt => .error .unpicklingError
  | .wellFormed c => .ok c

/-- `GameStateCounter.loadCache` (lines 463-478): `self.cache = {}` and
`self.cache_size_on_last_load = 0` first, then the `try` block whose `except`
clause catches *only* `FileNotFoundError`; any other exception propagates. -/
def loadCache (file : CacheFileState) : Except PyException (Cache × Nat) :=
  match pickleLoadFile file with
  | .ok c => .ok (c, c.length)
  | .error .fileNotFoundError => .ok ([], 0)
  | .error e => .error e

/-- Observable effects of `GameStateCounter.saveCache` (lines 480-493): which
debug message was logged and what was written to the file. -/
structure SaveEffect where
  logged_unchanged : Bool
  written : Option Cache
deriving DecidableEq

/-- `GameStateCounter.saveCache` (lines 480-493): the `if` body only logs (it
contains no `return`), after which the file is written unconditionally. -/
def saveCache (cache : Cache) (cache_size_on_last_load : Nat)
    (only_if_changed : Bool) : SaveEffect :=
  { logged_unchanged := only_if_changed && decide (cache.length = cache_size_on_last_load),
    written := some cache }

/-- Specification-side object: all simultaneous draws for a list of
constraint-free hands — one card set per hand, of the hand's unknown-slot
size, taken from its possible cards, pairwise disjoint.  This is the
mathematical meaning of what `countPossibleStates` counts. -/
def fillings : List HandInformation → Finset (List (Finset Card))
  | [] => {[]}
  | h :: rest =>
    (h.possible_cards.powersetCard h.num_unknown_cards.toNat).biUnion
      (fun S => (fillings (rest.map (subPossible S))).image (fun t => S :: t))
termination_by l => l.length
decreasing_by simp

/-- The number of simultaneous draws for a list of constraint-free hands. -/
def trueCount (l : List HandInformation) : Nat := (fillings l).card

/-- The full hands a partially known hand can be completed to while meeting
all of its constraints, as card sets. -/
def handCompletions (h : HandInformation) : Finset (Finset Card) :=
  (h.getPossibleHands.map (fun g => g.known_cards)).toFinset

/-- Specification-side object: the globally consistent assignments for a list
of hands — one full-hand completion per hand, constraints satisfied, no card
in two hands.  The conservation claim compares the counting pipeline's output
against the cardinality of this set. -/
def consistentTuples : List HandInformation → Finset (List (Finset Card))
  | [] => {[]}
  | h :: rest =>
    (handCompletions h).biUnion
      (fun H =>
        ((consistentTuples rest).filter (fun t => ∀ H' ∈ t, Disjoint H H')).image
          (fun t => H :: t))
termination_by l => l.length
decreasing_by simp

/-- A cache is sound when every stored entry is the true draw count of every
hand list that produces its key. -/
def CacheSound (cache : Cache) : Prop :=
  ∀ k v, cacheFind cache k = some v →
    ∀ l : List HandInformation, getCacheKey l = k → trueCount l = v

/-- The basic well-formedness invariant of a hand: no known card is still
possible, and the hand is not over-full. -/
def WFHand (h : HandInformation) : Prop :=
  Disjoint h.known_cards h.possible_cards ∧ h.known_cards.card ≤ h.hand_size

/-- Invariants of every hand produced by `satisfyConstraints` from a hand of
size `size` with known set `known` and possible set `possible`. -/
def ResolvedFrom (size : Nat) (known possible : Finset Card) (o : HandInformation) : Prop :=
  o.hand_size = size ∧ o.constraint_list = [] ∧
    Disjoint o.known_cards o.possible_cards ∧ o.known_cards.card ≤ size ∧
    known ⊆ o.known_cards ∧ o.known_cards ⊆ known ∪ possible ∧
    o.possible_cards ⊆ possible

/-- The shape `satisfyAllConstraints` guarantees for each returned
combination: constraint-free well-formed hands whose known cards avoid each
other's known and possible cards. -/
def TightList (l : List HandInformation) : Prop :=
  (∀ h ∈ l, h.constraint_list = [] ∧ Disjoint h.known_cards h.possible_cards) ∧
    l.Pairwise (fun a b =>
      Disjoint a.known_cards b.known_cards ∧ Disjoint a.known_cards b.possible_cards ∧
        Disjoint b.known_cards a.possible_cards)

/-- The 0/1 pattern recording which hands' possible sets contain a given
card; the Venn-diagram atom of `getCacheKey` a card falls in is indexed by
this list. -/
def tvec (hands : List HandInformation) (y : Card) : List Nat :=
  hands.map (fun h => if y ∈ h.possible_cards then 1 else 0)

/-! ## Basic membership lemmas for the combination enumerators -/

theorem mem_combinationsList {l : List Card} (hnd : l.Nodup) :
    ∀ {n : Nat} {S : Finset Card}, S ∈ combinationsList n l ↔ S ⊆ l.toFinset ∧ S.card = n := by
  induction l with
  | nil =>
    intro n S
    cases n with
    | zero =>
      simp only [combinationsList, List.mem_singleton, List.toFinset_nil]
      constructor
      · rintro rfl; exact ⟨Finset.Subset.refl _, Finset.card_empty⟩
      · rintro ⟨hsub, _⟩
        rw [Finset.subset_empty.mp hsub]
    | succ m =>
      simp only [combinationsList, List.not_mem_nil, List.toFinset_nil, false_iff]
      rintro ⟨hsub, hcard⟩
      rw [Finset.subset_empty.mp hsub] at hcard
      simp at hcard
  | cons a t ih =>
    intro n S
    have hat : a ∉ t := (List.nodup_cons.mp hnd).1
    have hnt : t.Nodup := (List.nodup_cons.mp hnd).2
    cases n with
    | zero =>
      simp only [combinationsList, List.mem_singleton]
      constructor
      · rintro rfl; simp
      · rintro ⟨_, hcard⟩
        rw [Finset.card_eq_zero.mp hcard]
    | succ m =>
      simp only [combinationsList, List.mem_append, List.mem_map, List.toFinset_cons]
      constructor
      · rintro (⟨T, hT, rfl⟩ | hS)
        · obtain ⟨hsub, hcard⟩ := (ih hnt).mp hT
          have haT : a ∉ T := fun hmem => hat (List.mem_toFinset.mp (hsub hmem))
          exact ⟨Finset.insert_subset_insert a hsub,
            by rw [Finset.card_insert_of_not_mem haT, hcard]⟩
        · obtain ⟨hsub, hcard⟩ := (ih hnt).mp hS
          exact ⟨hsub.trans (Finset.subset_insert _ _), hcard⟩
      · rintro ⟨hsub, hcard⟩
        by_cases haS : a ∈ S
        · left
          refine ⟨S.erase a, (ih hnt).mpr ⟨?_, ?_⟩, Finset.insert_erase haS⟩
          · intro x hx
            rcases Finset.mem_insert.mp (hsub (Finset.mem_of_mem_erase hx)) with h | h
            · exact absurd h (Finset.ne_of_mem_erase hx)
            · exact h
          · rw [Finset.card_erase_of_mem haS, hcard]
            omega
        · right
          refine (ih hnt).mpr ⟨?_, hcard⟩
          intro x hx
          rcases Finset.mem_insert.mp (hsub hx) with h | h
          · exact absurd (h ▸ hx) haS
          · exact h

theorem combinationsList_nodup {l : List Card} (hnd : l.Nodup) :
    ∀ n : Nat, (combinationsList n l).Nodup := by
  induction l with
  | nil =>
    intro n
    cases n with
    | zero => simp [combinationsList]
    | succ m => simp [combinationsList]
  | cons a t ih =>
    intro n
    have hat : a ∉ t := (List.nodup_cons.mp hnd).1
    have hnt : t.Nodup := (List.nodup_cons.mp hnd).2
    cases n with
    | zero => simp [combinationsList]
    | succ m =>
      refine List.Nodup.append ?_ (ih hnt (m + 1)) ?_
      · refine List.Nodup.map_on ?_ (ih hnt m)
        intro T₁ h₁ T₂ h₂ heq
        have ha₁ : a ∉ T₁ := fun hmem =>
          hat (List.mem_toFinset.mp (((mem_combinationsList hnt).mp h₁).1 hmem))
        have ha₂ : a ∉ T₂ := fun hmem =>
          hat (List.mem_toFinset.mp (((mem_combinationsList hnt).mp h₂).1 hmem))
        rw [← Finset.erase_insert ha₁, ← Finset.erase_insert ha₂, heq]
      · intro S hS hS'
        rcases List.mem_map.mp hS with ⟨T, _, rfl⟩
        have : a ∉ insert a T := fun hmem =>
          hat (List.mem_toFinset.mp (((mem_combinationsList hnt).mp hS').1 hmem))
        exact this (Finset.mem_insert_self a T)

theorem cardList_nodup (s : Finset Card) : (cardList s).Nodup :=
  List.Nodup.filter _ (List.nodup_range _)

theorem mem_cardList {s : Finset Card} {x : Card} : x ∈ cardList s ↔ x ∈ s := by
  unfold cardList
  rw [List.mem_filter]
  simp only [List.mem_range, decide_eq_true_eq]
  constructor
  · exact fun h => h.2
  · intro hx
    refine ⟨?_, hx⟩
    exact Nat.lt_succ_of_le (Finset.le_sup (f := id) hx)

theorem cardList_toFinset (s : Finset Card) : (cardList s).toFinset = s := by
  ext x
  rw [List.mem_toFinset, mem_cardList]

theorem mem_unknownChoices {h : HandInformation} {S : Finset Card} :
    S ∈ h.unknownChoices ↔
      S ⊆ h.possible_cards ∧ S.card = h.num_unknown_cards.toNat := by
  unfold HandInformation.unknownChoices
  rw [mem_combinationsList (cardList_nodup _), cardList_toFinset]

theorem unknownChoices_nodup (h : HandInformation) : h.unknownChoices.Nodup :=
  combinationsList_nodup (cardList_nodup _) _

theorem mem_getPossibleHands {h g : HandInformation} :
    g ∈ h.getPossibleHands ↔
      ∃ S ⊆ h.possible_cards, S.card = h.num_unknown_cards.toNat ∧
        meetsConstraints (h.known_cards ∪ S) h.constraint_list = true ∧
        g = ⟨h.hand_size, h.known_cards ∪ S, ∅, []⟩ := by
  unfold HandInformation.getPossibleHands
  simp only [List.mem_map, List.mem_filter, mem_unknownChoices]
  constructor
  · rintro ⟨S, ⟨⟨h1, h2⟩, h3⟩, rfl⟩; exact ⟨S, h1, h2, h3, rfl⟩
  · rintro ⟨S, h1, h2, h3, rfl⟩; exact ⟨S, ⟨⟨h1, h2⟩, h3⟩, rfl⟩

theorem toNat_num_unknown {h : HandInformation} (hsz : h.known_cards.card ≤ h.hand_size) :
    h.num_unknown_cards.toNat = h.hand_size - h.known_cards.card := by
  unfold HandInformation.num_unknown_cards
  omega

/-- For a well-formed hand, membership in `getPossibleHands` is equivalent to
being a completed hand: full size, between the known and the known-or-possible
cards, satisfying every constraint. -/
theorem mem_getPossibleHands_wf {h : HandInformation}
    (hdk : Disjoint h.known_cards h.possible_cards)
    (hsz : h.known_cards.card ≤ h.hand_size) {g : HandInformation} :
    g ∈ h.getPossibleHands ↔
      g.hand_size = h.hand_size ∧ g.possible_cards = ∅ ∧ g.constraint_list = [] ∧
      h.known_cards ⊆ g.known_cards ∧
      g.known_cards ⊆ h.known_cards ∪ h.possible_cards ∧
      g.known_cards.card = h.hand_size ∧
      meetsConstraints g.known_cards h.constraint_list = true := by
  rw [mem_getPossibleHands]
  constructor
  · rintro ⟨S, hS, hcard, hmeets, rfl⟩
    have hdkS : Disjoint h.known_cards S := hdk.mono_right hS
    refine ⟨rfl, rfl, rfl, Finset.subset_union_left, Finset.union_subset_union_right hS,
      ?_, hmeets⟩
    rw [Finset.card_union_of_disjoint hdkS, hcard, toNat_num_unknown hsz]
    omega
  · rintro ⟨hgs, hgp, hgc, hkg, hgk, hgcard, hmeets⟩
    refine ⟨g.known_cards \ h.known_cards, ?_, ?_, ?_, ?_⟩
    · intro x hx
      rcases Finset.mem_union.mp (hgk (Finset.mem_sdiff.mp hx).1) with h1 | h1
      · exact absurd h1 (Finset.mem_sdiff.mp hx).2
      · exact h1
    · rw [Finset.card_sdiff hkg, hgcard, toNat_num_unknown hsz]
    · rwa [Finset.union_sdiff_of_subset hkg]
    · cases g
      simp only at hgs hgp hgc hkg ⊢
      simp only [HandInformation.mk.injEq]
      exact ⟨hgs, (Finset.union_sdiff_of_subset hkg).symm, hgp, hgc⟩

/-! ## Constraint satisfaction lemmas -/

theorem meetsConstraints_iff {K : Finset Card} {cs : List (List Card)} :
    meetsConstraints K cs = true ↔ ∀ c ∈ cs, ∃ x ∈ c, x ∈ K := by
  simp [meetsConstraints, List.all_eq_true, List.any_eq_true]

theorem meetsConstraints_cons {K : Finset Card} {c : List Card} {cs : List (List Card)} :
    meetsConstraints K (c :: cs) = true ↔
      (∃ x ∈ c, x ∈ K) ∧ meetsConstraints K cs = true := by
  simp [meetsConstraints_iff]

theorem meetsConstraints_reverse {K : Finset Card} {cs : List (List Card)} :
    (meetsConstraints K cs.reverse = true) ↔ (meetsConstraints K cs = true) := by
  simp [meetsConstraints_iff]

theorem foldl_erase_eq_sdiff : ∀ (l : List Card) (s : Finset Card),
    l.foldl Finset.erase s = s \ l.toFinset := by
  intro l
  induction l with
  | nil => intro s; simp
  | cons a t ih =>
    intro s
    rw [List.foldl_cons, ih]
    ext x
    simp only [Finset.mem_sdiff, Finset.mem_erase, List.mem_toFinset, List.toFinset_cons,
      Finset.mem_insert]
    tauto

/-- Constraint lists figure in `getPossibleHands` only through the
satisfaction check, so the membership only depends on which constraints are
present. -/
theorem mem_getPossibleHands_congr_constraints {size : Nat} {K P : Finset Card}
    {cs cs' : List (List Card)}
    (hcs : ∀ X : Finset Card, meetsConstraints X cs = true ↔ meetsConstraints X cs' = true)
    {g : HandInformation} :
    g ∈ HandInformation.getPossibleHands ⟨size, K, P, cs⟩ ↔
      g ∈ HandInformation.getPossibleHands ⟨size, K, P, cs'⟩ := by
  rw [mem_getPossibleHands, mem_getPossibleHands]
  constructor
  · rintro ⟨S, h1, h2, h3, rfl⟩; exact ⟨S, h1, h2, (hcs _).mp h3, rfl⟩
  · rintro ⟨S, h1, h2, h3, rfl⟩; exact ⟨S, h1, h2, (hcs _).mpr h3, rfl⟩

/-- Dropping a constraint already satisfied by the known cards leaves the
completion list membership unchanged. -/
theorem mem_getPossibleHands_drop_satisfied {size : Nat} {K P : Finset Card}
    {c : List Card} {cs : List (List Card)} (hsat : ∃ x ∈ c, x ∈ K)
    {g : HandInformation} :
    g ∈ HandInformation.getPossibleHands ⟨size, K, P, c :: cs⟩ ↔
      g ∈ HandInformation.getPossibleHands ⟨size, K, P, cs⟩ := by
  rw [mem_getPossibleHands, mem_getPossibleHands]
  constructor
  · rintro ⟨S, h1, h2, h3, rfl⟩
    exact ⟨S, h1, h2, (meetsConstraints_cons.mp h3).2, rfl⟩
  · rintro ⟨S, h1, h2, h3, rfl⟩
    refine ⟨S, h1, h2, meetsConstraints_cons.mpr ⟨?_, h3⟩, rfl⟩
    obtain ⟨x, hxc, hxK⟩ := hsat
    exact ⟨x, hxc, Finset.mem_union_left _ hxK⟩

/-- The completion sets of the hand obtained by making a constraint card `c`
known and excluding the previously branched cards `old`: exactly the
completions of the original hand that contain `c` and avoid `old`. -/
theorem gph_insert_shift {size : Nat} {K P : Finset Card} {cs : List (List Card)}
    {c : Card} {old : List Card}
    (hdk : Disjoint K P) (hsz : K.card ≤ size)
    (hcP : c ∈ P) (hcK : c ∉ K) (hKlt : K.card < size)
    (holdK : ∀ x ∈ old, x ∉ K) (hcold : c ∉ old) (g : HandInformation) :
    g ∈ HandInformation.getPossibleHands ⟨size, insert c K, (P.erase c) \ old.toFinset, cs⟩ ↔
      (g ∈ HandInformation.getPossibleHands ⟨size, K, P, cs⟩ ∧ c ∈ g.known_cards ∧
        ∀ x ∈ old, x ∉ g.known_cards) := by
  have hdk' : Disjoint (insert c K) ((P.erase c) \ old.toFinset) := by
    rw [Finset.disjoint_left]
    intro x hx hx'
    have hxP : x ∈ P.erase c := (Finset.mem_sdiff.mp hx').1
    rcases Finset.mem_insert.mp hx with rfl | hxK
    · exact (Finset.not_mem_erase x P) hxP
    · exact (Finset.disjoint_left.mp hdk hxK) (Finset.mem_of_mem_erase hxP)
  have hsz' : (insert c K).card ≤ size := by
    rw [Finset.card_insert_of_not_mem hcK]; omega
  rw [mem_getPossibleHands_wf hdk' hsz', mem_getPossibleHands_wf hdk hsz]
  simp only
  constructor
  · rintro ⟨h1, h2, h3, h4, h5, h6, h7⟩
    have hcg : c ∈ g.known_cards := h4 (Finset.mem_insert_self c K)
    refine ⟨⟨h1, h2, h3, ?_, ?_, h6, h7⟩, hcg, ?_⟩
    · exact fun x hx => h4 (Finset.mem_insert_of_mem hx)
    · intro x hx
      rcases Finset.mem_union.mp (h5 hx) with h | h
      · rcases Finset.mem_insert.mp h with rfl | h
        · exact Finset.mem_union_right _ hcP
        · exact Finset.mem_union_left _ h
      · exact Finset.mem_union_right _ (Finset.mem_of_mem_erase (Finset.mem_sdiff.mp h).1)
    · intro x hxold hxg
      rcases Finset.mem_union.mp (h5 hxg) with h | h
      · rcases Finset.mem_insert.mp h with rfl | h
        · exact hcold hxold
        · exact holdK x hxold h
      · exact (Finset.mem_sdiff.mp h).2 (List.mem_toFinset.mpr hxold)
  · rintro ⟨⟨h1, h2, h3, h4, h5, h6, h7⟩, hcg, hold⟩
    refine ⟨h1, h2, h3, ?_, ?_, h6, h7⟩
    · intro x hx
      rcases Finset.mem_insert.mp hx with rfl | hx
      · exact hcg
      · exact h4 hx
    · intro x hxg
      rcases Finset.mem_union.mp (h5 hxg) with h | h
      · exact Finset.mem_union_left _ (Finset.mem_insert_of_mem h)
      · by_cases hxc : x = c
        · exact Finset.mem_union_left _ (hxc ▸ Finset.mem_insert_self c K)
        · refine Finset.mem_union_right _ (Finset.mem_sdiff.mpr ⟨?_, ?_⟩)
          · exact Finset.mem_erase.mpr ⟨hxc, h⟩
          · exact fun hmem => hold x (List.mem_toFinset.mp hmem) hxg

/-- The specification of the branching loop of `satisfyConstraints`: assuming
the recursive call `recurse` correctly partitions the completion space of the
remaining constraints, the loop returns resolved hands whose completion sets
are pairwise disjoint and united are exactly the completions (for the
remaining constraints) that contain some card of the unprocessed constraint
suffix and avoid all previously branched cards. -/
theorem branchCases_spec (size : Nat) (rest : List (List Card))
    (recurse : Finset Card → Finset Card → List HandInformation)
    (hrec : ∀ K P : Finset Card, Disjoint K P → K.card ≤ size →
      (∀ o ∈ recurse K P, ResolvedFrom size K P o) ∧
      (recurse K P).Pairwise
        (fun o₁ o₂ => ∀ g ∈ o₁.getPossibleHands, g ∉ o₂.getPossibleHands) ∧
      (∀ g : HandInformation, (∃ o ∈ recurse K P, g ∈ o.getPossibleHands) ↔
        g ∈ HandInformation.getPossibleHands ⟨size, K, P, rest⟩))
    (known possible : Finset Card) (hdk : Disjoint known possible)
    (hsz : known.card ≤ size) :
    ∀ (cards old : List Card), (∀ x ∈ cards, x ∉ known) → (∀ x ∈ old, x ∉ known) →
      (∀ o ∈ branchCases recurse size known possible cards old,
        ResolvedFrom size known possible o) ∧
      (branchCases recurse size known possible cards old).Pairwise
        (fun o₁ o₂ => ∀ g ∈ o₁.getPossibleHands, g ∉ o₂.getPossibleHands) ∧
      (∀ g : HandInformation,
        (∃ o ∈ branchCases recurse size known possible cards old, g ∈ o.getPossibleHands) ↔
          (g ∈ HandInformation.getPossibleHands ⟨size, known, possible, rest⟩ ∧
            (∃ d ∈ cards, d ∈ g.known_cards) ∧ ∀ x ∈ old, x ∉ g.known_cards)) := by
  intro cards
  induction cards with
  | nil =>
    intro old _ _
    refine ⟨?_, ?_, ?_⟩
    · intro o ho; rw [branchCases] at ho; exact absurd ho (List.not_mem_nil o)
    · rw [branchCases]; exact List.Pairwise.nil
    · intro g
      rw [branchCases]
      simp
  | cons c cs ih =>
    intro old hc hold
    have hcK : c ∉ known := hc c (by simp)
    have hcs : ∀ x ∈ cs, x ∉ known := fun x hx => hc x (by simp [hx])
    by_cases h1 : c ∉ known ∧ c ∉ possible
    · -- the card cannot be added at all: no completion contains it
      have heq : branchCases recurse size known possible (c :: cs) old =
          branchCases recurse size known possible cs old := by
        rw [branchCases, if_pos h1]
      rw [heq]
      obtain ⟨A, B, C⟩ := ih old hcs hold
      refine ⟨A, B, fun g => (C g).trans ?_⟩
      constructor
      · rintro ⟨hg, ⟨d, hd, hdg⟩, h3⟩
        exact ⟨hg, ⟨d, by simp [hd], hdg⟩, h3⟩
      · rintro ⟨hg, ⟨d, hd, hdg⟩, h3⟩
        refine ⟨hg, ⟨d, ?_, hdg⟩, h3⟩
        rcases List.mem_cons.mp hd with rfl | hd
        · exfalso
          obtain ⟨-, -, -, -, hsub, -, -⟩ := (mem_getPossibleHands_wf hdk hsz).mp hg
          have hsub' : g.known_cards ⊆ known ∪ possible := hsub
          rcases Finset.mem_union.mp (hsub' hdg) with h | h
          · exact h1.1 h
          · exact h1.2 h
        · exact hd
    · by_cases h2 : (size : Int) - (known.card : Int) = 0
      · -- the hand is already full and the constraint is unsatisfied
        have hfull : known.card = size := by omega
        have heq : branchCases recurse size known possible (c :: cs) old =
            branchCases recurse size known possible cs old := by
          rw [branchCases, if_neg h1, if_pos h2]
        rw [heq]
        obtain ⟨A, B, C⟩ := ih old hcs hold
        refine ⟨A, B, fun g => (C g).trans ?_⟩
        constructor
        · rintro ⟨hg, ⟨d, hd, hdg⟩, h3⟩
          exact ⟨hg, ⟨d, by simp [hd], hdg⟩, h3⟩
        · rintro ⟨hg, ⟨d, hd, hdg⟩, h3⟩
          refine ⟨hg, ⟨d, ?_, hdg⟩, h3⟩
          rcases List.mem_cons.mp hd with rfl | hd
          · exfalso
            obtain ⟨-, -, -, hKsub, -, hcard, -⟩ := (mem_getPossibleHands_wf hdk hsz).mp hg
            have hKsub' : known ⊆ g.known_cards := hKsub
            have hcard' : g.known_cards.card = size := hcard
            have : g.known_cards = known :=
              (Finset.eq_of_subset_of_card_le hKsub' (by omega)).symm
            exact hcK (this ▸ hdg)
          · exact hd
      · by_cases h3 : ∃ x ∈ old, x ∈ insert c known
        · -- a duplicate constraint card: already branched on
          have hcold : c ∈ old := by
            obtain ⟨x, hxold, hxin⟩ := h3
            rcases Finset.mem_insert.mp hxin with rfl | hxK
            · exact hxold
            · exact absurd hxK (hold x hxold)
          have heq : branchCases recurse size known possible (c :: cs) old =
              branchCases recurse size known possible cs old := by
            rw [branchCases, if_neg h1, if_neg h2, if_pos h3]
          rw [heq]
          obtain ⟨A, B, C⟩ := ih old hcs hold
          refine ⟨A, B, fun g => (C g).trans ?_⟩
          constructor
          · rintro ⟨hg, ⟨d, hd, hdg⟩, hfree⟩
            exact ⟨hg, ⟨d, by simp [hd], hdg⟩, hfree⟩
          · rintro ⟨hg, ⟨d, hd, hdg⟩, hfree⟩
            refine ⟨hg, ⟨d, ?_, hdg⟩, hfree⟩
            rcases List.mem_cons.mp hd with rfl | hd
            · exact absurd hdg (hfree d hcold)
            · exact hd
        · -- the real branch: make `c` known, exclude `old`, recurse
          have hcP : c ∈ possible := by
            rcases not_and_or.mp h1 with h | h
            · exact absurd (not_not.mp h) hcK
            · exact not_not.mp h
          have hKlt : known.card < size := by omega
          have hcold : c ∉ old := fun hmem =>
            h3 ⟨c, hmem, Finset.mem_insert_self c known⟩
          have heq : branchCases recurse size known possible (c :: cs) old =
              recurse (insert c known) (old.foldl Finset.erase (possible.erase c)) ++
                branchCases recurse size known possible cs (old ++ [c]) := by
            rw [branchCases, if_neg h1, if_neg h2, if_neg h3]
          rw [heq, foldl_erase_eq_sdiff]
          have hdk' : Disjoint (insert c known) ((possible.erase c) \ old.toFinset) := by
            rw [Finset.disjoint_left]
            intro x hx hx'
            have hxP : x ∈ possible.erase c := (Finset.mem_sdiff.mp hx').1
            rcases Finset.mem_insert.mp hx with rfl | hxK
            · exact (Finset.not_mem_erase x possible) hxP
            · exact (Finset.disjoint_left.mp hdk hxK) (Finset.mem_of_mem_erase hxP)
          have hsz' : (insert c known).card ≤ size := by
            rw [Finset.card_insert_of_not_mem hcK]; omega
          obtain ⟨A', B', C'⟩ := hrec (insert c known) ((possible.erase c) \ old.toFinset)
            hdk' hsz'
          have hold' : ∀ x ∈ old ++ [c], x ∉ known := by
            intro x hx
            rcases List.mem_append.mp hx with h | h
            · exact hold x h
            · rw [List.mem_singleton.mp h]; exact hcK
          obtain ⟨A, B, C⟩ := ih (old ++ [c]) hcs hold'
          -- the two halves have disjoint completion spaces: `c` in vs. out
          have hmemL : ∀ g : HandInformation,
              (∃ o ∈ recurse (insert c known) ((possible.erase c) \ old.toFinset),
                g ∈ o.getPossibleHands) ↔
              (g ∈ HandInformation.getPossibleHands ⟨size, known, possible, rest⟩ ∧
                c ∈ g.known_cards ∧ ∀ x ∈ old, x ∉ g.known_cards) := by
            intro g
            rw [C' g]
            exact gph_insert_shift hdk hsz hcP hcK hKlt hold hcold g
          refine ⟨?_, ?_, ?_⟩
          · intro o ho
            rcases List.mem_append.mp ho with h | h
            · obtain ⟨r1, r2, r3, r4, r5, r6, r7⟩ := A' o h
              refine ⟨r1, r2, r3, r4, ?_, ?_, ?_⟩
              · exact (Finset.subset_insert c known).trans r5
              · refine r6.trans ?_
                intro x hx
                rcases Finset.mem_union.mp hx with h' | h'
                · rcases Finset.mem_insert.mp h' with rfl | h'
                  · exact Finset.mem_union_right _ hcP
                  · exact Finset.mem_union_left _ h'
                · exact Finset.mem_union_right _
                    (Finset.mem_of_mem_erase (Finset.mem_sdiff.mp h').1)
              · refine r7.trans ?_
                intro x hx
                exact Finset.mem_of_mem_erase (Finset.mem_sdiff.mp hx).1
            · exact A o h
          · rw [List.pairwise_append]
            refine ⟨B', B, ?_⟩
            intro o₁ h₁ o₂ h₂ g hg₁ hg₂
            have hL := (hmemL g).mp ⟨o₁, h₁, hg₁⟩
            have hR := (C g).mp ⟨o₂, h₂, hg₂⟩
            exact hR.2.2 c (by simp) hL.2.1
          · intro g
            constructor
            · rintro ⟨o, ho, hg⟩
              rcases List.mem_append.mp ho with h | h
              · obtain ⟨hgr, hcg, hfree⟩ := (hmemL g).mp ⟨o, h, hg⟩
                exact ⟨hgr, ⟨c, by simp, hcg⟩, hfree⟩
              · obtain ⟨hgr, ⟨d, hd, hdg⟩, hfree⟩ := (C g).mp ⟨o, h, hg⟩
                refine ⟨hgr, ⟨d, by simp [hd], hdg⟩, ?_⟩
                intro x hx
                exact hfree x (List.mem_append.mpr (Or.inl hx))
            · rintro ⟨hgr, ⟨d, hd, hdg⟩, hfree⟩
              by_cases hcg : c ∈ g.known_cards
              · obtain ⟨o, ho, hg⟩ := (hmemL g).mpr ⟨hgr, hcg, hfree⟩
                exact ⟨o, List.mem_append.mpr (Or.inl ho), hg⟩
              · have hd' : d ∈ cs := by
                  rcases List.mem_cons.mp hd with rfl | h
                  · exact absurd hdg hcg
                  · exact h
                have hfree' : ∀ x ∈ old ++ [c], x ∉ g.known_cards := by
                  intro x hx
                  rcases List.mem_append.mp hx with h | h
                  · exact hfree x h
                  · rw [List.mem_singleton.mp h]; exact hcg
                obtain ⟨o, ho, hg⟩ := (C g).mpr ⟨hgr, ⟨d, hd', hdg⟩, hfree'⟩
                exact ⟨o, List.mem_append.mpr (Or.inr ho), hg⟩

/-- The specification of `satisfyConstraintsRev`: resolved hands with
pairwise disjoint completion sets covering exactly the constrained
completions. -/
theorem satisfyRev_spec (size : Nat) :
    ∀ (cs : List (List Card)) (known possible : Finset Card),
      Disjoint known possible → known.card ≤ size →
      (∀ o ∈ satisfyConstraintsRev size cs known possible,
        ResolvedFrom size known possible o) ∧
      (satisfyConstraintsRev size cs known possible).Pairwise
        (fun o₁ o₂ => ∀ g ∈ o₁.getPossibleHands, g ∉ o₂.getPossibleHands) ∧
      (∀ g : HandInformation,
        (∃ o ∈ satisfyConstraintsRev size cs known possible, g ∈ o.getPossibleHands) ↔
          g ∈ HandInformation.getPossibleHands ⟨size, known, possible, cs⟩) := by
  intro cs
  induction cs with
  | nil =>
    intro K P hdk hsz
    refine ⟨?_, ?_, ?_⟩
    · intro o ho
      rw [satisfyConstraintsRev, List.mem_singleton] at ho
      subst ho
      exact ⟨rfl, rfl, hdk, hsz, Finset.Subset.refl _, Finset.subset_union_left,
        Finset.Subset.refl _⟩
    · rw [satisfyConstraintsRev]
      exact List.pairwise_singleton _ _
    · intro g
      rw [satisfyConstraintsRev]
      simp
  | cons c rest ih =>
    intro K P hdk hsz
    by_cases hsat : ∃ x ∈ c, x ∈ K
    · have heq : satisfyConstraintsRev size (c :: rest) K P =
          satisfyConstraintsRev size rest K P := by
        rw [satisfyConstraintsRev, if_pos hsat]
      rw [heq]
      obtain ⟨A, B, C⟩ := ih K P hdk hsz
      exact ⟨A, B, fun g =>
        (C g).trans (mem_getPossibleHands_drop_satisfied hsat).symm⟩
    · have heq : satisfyConstraintsRev size (c :: rest) K P =
          branchCases (fun k p => satisfyConstraintsRev size rest k p) size K P c [] := by
        rw [satisfyConstraintsRev, if_neg hsat]
      rw [heq]
      have hcK : ∀ x ∈ c, x ∉ K := by
        intro x hx hxK
        exact hsat ⟨x, hx, hxK⟩
      obtain ⟨A, B, C⟩ := branchCases_spec size rest
        (fun k p => satisfyConstraintsRev size rest k p)
        (fun K' P' h1 h2 => ih K' P' h1 h2) K P hdk hsz c [] hcK (by simp)
      refine ⟨A, B, ?_⟩
      intro g
      rw [C g]
      rw [mem_getPossibleHands, mem_getPossibleHands]
      constructor
      · rintro ⟨⟨S, h1, h2, h3, rfl⟩, ⟨d, hd, hdg⟩, -⟩
        exact ⟨S, h1, h2, meetsConstraints_cons.mpr ⟨⟨d, hd, hdg⟩, h3⟩, rfl⟩
      · rintro ⟨S, h1, h2, h3, rfl⟩
        obtain ⟨hdc, hrest⟩ := meetsConstraints_cons.mp h3
        exact ⟨⟨S, h1, h2, hrest, rfl⟩, hdc, by simp⟩

/-- C1: for every satisfiable well-formed hand, `satisfyConstraints` returns
constraint-free hands whose completion sets (as enumerated by
`getPossibleHands`) are pairwise disjoint and united are exactly the
completions of the original hand that satisfy every constraint in its
`constraint_list`. -/
theorem satisfyConstraints_partitions (h : HandInformation)
    (hwf : WFHand h) (hsat : h.getPossibleHands ≠ []) :
    (∀ o ∈ h.satisfyConstraints, o.constraint_list = []) ∧
    (h.satisfyConstraints.Pairwise
      (fun o₁ o₂ => ∀ g ∈ o₁.getPossibleHands, g ∉ o₂.getPossibleHands)) ∧
    (∀ g : HandInformation,
      (∃ o ∈ h.satisfyConstraints, g ∈ o.getPossibleHands) ↔ g ∈ h.getPossibleHands) := by
  obtain ⟨hdk, hsz⟩ := hwf
  obtain ⟨A, B, C⟩ := satisfyRev_spec h.hand_size h.constraint_list.reverse
    h.known_cards h.possible_cards hdk hsz
  refine ⟨fun o ho => (A o ho).2.1, B, ?_⟩
  intro g
  rw [HandInformation.satisfyConstraints] at *
  rw [C g]
  have heta : (⟨h.hand_size, h.known_cards, h.possible_cards, h.constraint_list⟩ :
      HandInformation) = h := rfl
  rw [mem_getPossibleHands_congr_constraints
    (fun X => @meetsConstraints_reverse X h.constraint_list), heta]

theorem satisfyConstraints_partitions_witness :
    WFHand ⟨2, ∅, {1, 2, 3}, [[1, 2]]⟩ ∧
    (⟨2, ∅, {1, 2, 3}, [[1, 2]]⟩ : HandInformation).getPossibleHands ≠ [] ∧
    ((∀ o ∈ (⟨2, ∅, {1, 2, 3}, [[1, 2]]⟩ : HandInformation).satisfyConstraints,
        o.constraint_list = []) ∧
      ((⟨2, ∅, {1, 2, 3}, [[1, 2]]⟩ : HandInformation).satisfyConstraints.Pairwise
        (fun o₁ o₂ => ∀ g ∈ o₁.getPossibleHands, g ∉ o₂.getPossibleHands)) ∧
      (∀ g : HandInformation,
        (∃ o ∈ (⟨2, ∅, {1, 2, 3}, [[1, 2]]⟩ : HandInformation).satisfyConstraints,
            g ∈ o.getPossibleHands) ↔
          g ∈ (⟨2, ∅, {1, 2, 3}, [[1, 2]]⟩ : HandInformation).getPossibleHands)) :=
  ⟨⟨by decide, by decide⟩, by decide,
    satisfyConstraints_partitions _ ⟨by decide, by decide⟩ (by decide)⟩

/-- C5 amended: `getCacheKey` is permutation-invariant provided no two hands
of the list share the same number of possible completions (`comb` value); the
stable sort then has no ties and produces the same ordering for every
permutation.  (With ties, the counterexample shows the key depends on the
input order.) -/
theorem getCacheKey_perm_invariant (l₁ l₂ : List HandInformation)
    (hcf : ∀ h ∈ l₁, h.constraint_list = [])
    (hperm : l₁.Perm l₂)
    (hdist : l₁.Pairwise (fun a b => combVal a ≠ combVal b)) :
    getCacheKey l₁ = getCacheKey l₂ := by
  haveI htot : IsTotal HandInformation handLE := ⟨fun a b => by unfold handLE; omega⟩
  haveI htrans : IsTrans HandInformation handLE :=
    ⟨fun a b c hab hbc => by unfold handLE at *; omega⟩
  haveI hanti : IsAntisymm HandInformation (fun a b => combVal a < combVal b) :=
    ⟨fun a b h1 h2 => absurd h1 (by omega)⟩
  suffices hs : sortedHands l₁ = sortedHands l₂ by
    unfold getCacheKey
    rw [hs]
  have hp₁ : (sortedHands l₁).Perm l₁ := List.perm_insertionSort handLE l₁
  have hp₂ : (sortedHands l₂).Perm l₂ := List.perm_insertionSort handLE l₂
  have hsorted₁ : (sortedHands l₁).Sorted handLE := List.sorted_insertionSort handLE l₁
  have hsorted₂ : (sortedHands l₂).Sorted handLE := List.sorted_insertionSort handLE l₂
  have hdist₁ : (sortedHands l₁).Pairwise (fun a b => combVal a ≠ combVal b) :=
    (hp₁.pairwise_iff (fun h => Ne.symm h)).mpr hdist
  have hdist₂ : (sortedHands l₂).Pairwise (fun a b => combVal a ≠ combVal b) :=
    (hp₂.pairwise_iff (fun h => Ne.symm h)).mpr ((hperm.pairwise_iff (fun h => Ne.symm h)).mp hdist)
  have hstrict₁ : (sortedHands l₁).Sorted (fun a b => combVal a < combVal b) :=
    (hsorted₁.and hdist₁).imp (fun h => by unfold handLE at h; omega)
  have hstrict₂ : (sortedHands l₂).Sorted (fun a b => combVal a < combVal b) :=
    (hsorted₂.and hdist₂).imp (fun h => by unfold handLE at h; omega)
  exact List.eq_of_perm_of_sorted (hp₁.trans (hperm.trans hp₂.symm)) hstrict₁ hstrict₂

theorem getCacheKey_perm_invariant_witness :
    (∀ h ∈ ([⟨1, ∅, {1, 2}, []⟩, ⟨1, ∅, {3, 4, 5}, []⟩] : List HandInformation),
      h.constraint_list = []) ∧
    ([⟨1, ∅, {1, 2}, []⟩, ⟨1, ∅, {3, 4, 5}, []⟩] : List HandInformation).Perm
      [⟨1, ∅, {3, 4, 5}, []⟩, ⟨1, ∅, {1, 2}, []⟩] ∧
    ([⟨1, ∅, {1, 2}, []⟩, ⟨1, ∅, {3, 4, 5}, []⟩] : List HandInformation).Pairwise
      (fun a b => combVal a ≠ combVal b) ∧
    getCacheKey [⟨1, ∅, {1, 2}, []⟩, ⟨1, ∅, {3, 4, 5}, []⟩] =
      getCacheKey [⟨1, ∅, {3, 4, 5}, []⟩, ⟨1, ∅, {1, 2}, []⟩] :=
  ⟨by decide, List.Perm.swap _ _ _, by decide,
    getCacheKey_perm_invariant _ _ (by decide) (List.Perm.swap _ _ _) (by decide)⟩

/-! ## Error behaviour of the state counter -/

theorem foldl_minCombStep_lt :
    ∀ (l : List HandInformation) (ix best v : Nat), best < ix →
      (l.foldl minCombStep (ix, best, some v)).2.1 < ix + l.length := by
  intro l
  induction l with
  | nil => intro ix best v h; simpa using h
  | cons a t ih =>
    intro ix best v h
    rw [List.foldl_cons]
    show (t.foldl minCombStep
      (if combVal a < v then (ix + 1, ix, some (combVal a))
       else (ix + 1, best, some v))).2.1 < ix + (a :: t).length
    by_cases hlt : combVal a < v
    · rw [if_pos hlt]
      have h2 := ih (ix + 1) ix (combVal a) (by omega)
      simp only [List.length_cons]
      omega
    · rw [if_neg hlt]
      have h2 := ih (ix + 1) best v (by omega)
      simp only [List.length_cons]
      omega

theorem minCombIdx_lt {l : List HandInformation} (hne : l ≠ []) :
    minCombIdx l < l.length := by
  match l with
  | a :: t =>
    unfold minCombIdx
    rw [List.foldl_cons]
    show (t.foldl minCombStep (1, 0, some (combVal a))).2.1 < (a :: t).length
    have h2 := foldl_minCombStep_lt t 1 0 (combVal a) (by omega)
    simp only [List.length_cons]
    omega

theorem countStatesLoop_isSome
    (step : Cache → List HandInformation → Option (Nat × Cache))
    (others : List HandInformation)
    (hstep : ∀ (cache : Cache) (S : Finset Card), ∃ out, step cache
        (others.map (fun info =>
          ⟨info.hand_size, info.known_cards, info.possible_cards \ S, []⟩)) = some out) :
    ∀ (subsets : List (Finset Card)) (cache : Cache),
      ∃ out, countStatesLoop step others cache subsets = some out := by
  intro subsets
  induction subsets with
  | nil => intro cache; exact ⟨(0, cache), rfl⟩
  | cons S rest ih =>
    intro cache
    obtain ⟨⟨c, ch⟩, hout⟩ := hstep cache S
    obtain ⟨⟨c', ch'⟩, hout'⟩ := ih ch
    exact ⟨(c + c', ch'), by simp only [countStatesLoop, hout, hout']⟩

theorem countPossibleStates_some_of_constraint_free :
    ∀ (n : Nat) (l : List HandInformation), l.length ≤ n → ∀ cache : Cache, l ≠ [] →
      (∀ h ∈ l, h.constraint_list = []) → (∀ h ∈ l, 0 ≤ h.num_unknown_cards) →
      ∃ out, countPossibleStates cache l = some out := by
  intro n
  induction n with
  | zero =>
    intro l hlen _ hne
    cases l with
    | nil => exact absurd rfl hne
    | cons a t => simp at hlen
  | succ n ih =>
    intro l hlen cache hne hcf hwf
    have hc : ¬ ∃ h ∈ l, h.constraint_list ≠ [] :=
      fun ⟨h, hh, hcon⟩ => hcon (hcf h hh)
    unfold countPossibleStates
    rw [countPossibleStatesFuel, if_neg hc]
    by_cases hlen1 : l.length = 1
    · rw [if_pos hlen1]
      obtain ⟨a, rfl⟩ := List.length_eq_one.mp hlen1
      exact ⟨(comb a.possible_cards.card a.num_unknown_cards, cache),
        by simp [HandInformation.numPossibleHands, hcf a (List.mem_singleton_self a)]⟩
    · rw [if_neg hlen1]
      cases hfind : cacheFind cache (getCacheKey l) with
      | some v => exact ⟨(v, cache), rfl⟩
      | none =>
        have hidxlt := minCombIdx_lt hne
        have hget : l.get? (minCombIdx l) = some (l.get ⟨minCombIdx l, hidxlt⟩) :=
          List.get?_eq_get hidxlt
        simp only [hget]
        have htmem : l.get ⟨minCombIdx l, hidxlt⟩ ∈ l := List.get_mem l _ hidxlt
        rw [if_neg (not_lt.mpr (hwf _ htmem))]
        have hlen2 : 2 ≤ l.length := by
          cases l with
          | nil => exact absurd rfl hne
          | cons a t => cases t with
            | nil => simp at hlen1
            | cons b u => simp
        have hothers : (l.eraseIdx (minCombIdx l)).length = l.length - 1 := by
          rw [List.length_eraseIdx]
          simp [hidxlt]
        have hsub : l.eraseIdx (minCombIdx l) ⊆ l := (List.eraseIdx_sublist l _).subset
        have hstep : ∀ (cache' : Cache) (S : Finset Card),
            ∃ out, countPossibleStatesFuel l.length cache'
              ((l.eraseIdx (minCombIdx l)).map (fun info =>
                ⟨info.hand_size, info.known_cards, info.possible_cards \ S, []⟩)) =
              some out := by
          intro cache' S
          have hmaplen : ((l.eraseIdx (minCombIdx l)).map (fun info =>
              (⟨info.hand_size, info.known_cards, info.possible_cards \ S, []⟩ :
                HandInformation))).length = l.length - 1 := by
            rw [List.length_map, hothers]
          have hfuel : l.length = ((l.eraseIdx (minCombIdx l)).map (fun info =>
              (⟨info.hand_size, info.known_cards, info.possible_cards \ S, []⟩ :
                HandInformation))).length + 1 := by omega
          rw [hfuel]
          refine ih _ (by omega) cache' ?_ ?_ ?_
          · intro hnil
            rw [hnil] at hmaplen
            simp at hmaplen
            omega
          · intro h hh
            obtain ⟨info, _, rfl⟩ := List.mem_map.mp hh
            rfl
          · intro h hh
            obtain ⟨info, hinfo, rfl⟩ := List.mem_map.mp hh
            exact hwf info (hsub hinfo)
        obtain ⟨⟨cnt, ch⟩, hloop⟩ :=
          countStatesLoop_isSome (countPossibleStatesFuel l.length)
            (l.eraseIdx (minCombIdx l)) hstep
            (l.get ⟨minCombIdx l, hidxlt⟩).unknownChoices cache
        simp only [hloop]
        exact ⟨(cnt, (getCacheKey l, cnt) :: ch), rfl⟩

/-- C4 amended: for a non-empty input in which every hand satisfies
`len(known_cards) ≤ hand_size`, `countPossibleStates` raises if and only if a
hand still carries constraints; otherwise it returns a (nonnegative) count.
(Without that invariant the counterexample shows a constraint-free over-full
hand also raises, through `itertools.combinations` with a negative count.) -/
theorem countPossibleStates_error_iff (cache : Cache) (l : List HandInformation)
    (hne : l ≠ []) (hwf : ∀ h ∈ l, 0 ≤ h.num_unknown_cards) :
    countPossibleStates cache l = none ↔ ∃ h ∈ l, h.constraint_list ≠ [] := by
  constructor
  · intro hnone
    by_contra hcon
    have hcf : ∀ h ∈ l, h.constraint_list = [] := by
      intro h hh
      by_contra hcc
      exact hcon ⟨h, hh, hcc⟩
    obtain ⟨out, hout⟩ :=
      countPossibleStates_some_of_constraint_free l.length l le_rfl cache hne hcf hwf
    rw [hout] at hnone
    cases hnone
  · rintro ⟨h, hh, hcon⟩
    unfold countPossibleStates
    rw [countPossibleStatesFuel, if_pos ⟨h, hh, hcon⟩]

theorem countPossibleStates_error_iff_witness :
    (([⟨1, ∅, {1}, [[1]]⟩, ⟨1, ∅, {2}, []⟩] : List HandInformation) ≠ []) ∧
    (∀ h ∈ ([⟨1, ∅, {1}, [[1]]⟩, ⟨1, ∅, {2}, []⟩] : List HandInformation),
      0 ≤ h.num_unknown_cards) ∧
    (countPossibleStates [] [⟨1, ∅, {1}, [[1]]⟩, ⟨1, ∅, {2}, []⟩] = none ↔
      ∃ h ∈ ([⟨1, ∅, {1}, [[1]]⟩, ⟨1, ∅, {2}, []⟩] : List HandInformation),
        h.constraint_list ≠ []) :=
  ⟨by decide, by decide, countPossibleStates_error_iff [] _ (by decide) (by decide)⟩

/-! ## Claim theorems: cache persistence and simple hand operations -/

/-- C9: `saveCache` with `only_if_changed=True` always writes the cache to the
file; the unchanged-cache condition controls only the debug log message, never
the write. -/
theorem saveCache_always_writes (cache : Cache) (n : Nat) :
    (saveCache cache n true).written = some cache ∧
    ((saveCache cache n true).logged_unchanged = true ↔ cache.length = n) := by
  constructor
  · rfl
  · simp [saveCache]

/-- C6 counterexample: loading a present but corrupt cache file propagates the
unpickling exception (only `FileNotFoundError` is caught), so loading is not
exception-free for every file state. -/
theorem loadCache_corrupt_raises :
    loadCache CacheFileState.corrupt = Except.error PyException.unpicklingError := rfl

/-- C6 amended: a missing cache file is non-fatal and yields the empty cache;
a well-formed file loads its content; a corrupt file raises. -/
theorem loadCache_cases :
    loadCache CacheFileState.missing = Except.ok ([], 0) ∧
    (∀ c : Cache, loadCache (CacheFileState.wellFormed c) = Except.ok (c, c.length)) ∧
    loadCache CacheFileState.corrupt = Except.error PyException.unpicklingError :=
  ⟨rfl, fun _ => rfl, rfl⟩

/-- C10 counterexample: adding an already-known card to a full hand leaves
`num_unknown_cards` at zero, not negative, so the negativity consequence fails
for arbitrary cards. -/
theorem addKnownCard_full_hand_cex :
    ((⟨1, {1}, {2}, []⟩ : HandInformation).known_cards.card =
      (⟨1, {1}, {2}, []⟩ : HandInformation).hand_size) ∧
    ¬ ((HandInformation.addKnownCard ⟨1, {1}, {2}, []⟩ 1).num_unknown_cards < 0) := by
  decide

/-- C10 amended: `addKnownCard` is total and unconditional — it unions the
card into `known_cards` and subtracts it from `possible_cards` — and when the
hand is already full and the card is new, `num_unknown_cards` becomes
negative; no operation enforces `known_cards.card ≤ hand_size`. -/
theorem addKnownCard_total (h : HandInformation) (c : Card) :
    (h.addKnownCard c).known_cards = h.known_cards ∪ {c} ∧
    (h.addKnownCard c).possible_cards = h.possible_cards \ {c} ∧
    (h.known_cards.card = h.hand_size → c ∉ h.known_cards →
      (h.addKnownCard c).num_unknown_cards < 0) := by
  refine ⟨?_, ?_, ?_⟩
  · rw [Finset.union_comm]
    simp [HandInformation.addKnownCard, Finset.insert_eq]
  · simp [HandInformation.addKnownCard, Finset.erase_eq]
  · intro hfull hnew
    have : (h.addKnownCard c).known_cards.card = h.known_cards.card + 1 := by
      simp [HandInformation.addKnownCard, Finset.card_insert_of_not_mem hnew]
    have hsize : (h.addKnownCard c).hand_size = h.hand_size := rfl
    unfold HandInformation.num_unknown_cards
    rw [this, hsize, hfull]
    omega

theorem addKnownCard_total_witness :
    ((⟨1, {1}, {2}, []⟩ : HandInformation).known_cards.card =
        (⟨1, {1}, {2}, []⟩ : HandInformation).hand_size) ∧
    (2 : Card) ∉ (⟨1, {1}, {2}, []⟩ : HandInformation).known_cards ∧
    ((⟨1, {1}, {2}, []⟩ : HandInformation).addKnownCard 2).num_unknown_cards < 0 :=
  ⟨by decide, by decide,
    (addKnownCard_total ⟨1, {1}, {2}, []⟩ 2).2.2 (by decide) (by decide)⟩

/-- C5 counterexample: two constraint-free hands whose `comb` values tie but
whose unknown counts differ; swapping them permutes the list yet changes the
cache key, because Python's stable sort keeps tied elements in input order. -/
theorem getCacheKey_perm_cex :
    ([⟨2, ∅, {1,2,3}, []⟩, ⟨1, ∅, {1,2,3}, []⟩] : List HandInformation).Perm
        [⟨1, ∅, {1,2,3}, []⟩, ⟨2, ∅, {1,2,3}, []⟩] ∧
    (∀ h ∈ ([⟨1, ∅, {1,2,3}, []⟩, ⟨2, ∅, {1,2,3}, []⟩] : List HandInformation),
      h.constraint_list = []) ∧
    getCacheKey [⟨2, ∅, {1,2,3}, []⟩, ⟨1, ∅, {1,2,3}, []⟩] ≠
      getCacheKey [⟨1, ∅, {1,2,3}, []⟩, ⟨2, ∅, {1,2,3}, []⟩] := by
  refine ⟨List.Perm.swap _ _ _, by decide, by decide⟩

/-- C4 counterexample: a non-empty list of constraint-free hands on which
`countPossibleStates` still raises — an over-full hand has a negative unknown
count and `itertools.combinations` raises `ValueError` for a negative draw
count. -/
theorem countPossibleStates_constraint_free_raises :
    (∀ h ∈ ([⟨1, {1,2}, ∅, []⟩, ⟨1, ∅, ∅, []⟩] : List HandInformation),
      h.constraint_list = []) ∧
    countPossibleStates [] [⟨1, {1,2}, ∅, []⟩, ⟨1, ∅, ∅, []⟩] = none := by
  refine ⟨by decide, by decide⟩

/-- C3: two constraint-free hands of size three drawing from the pools
`{1..6}` and `{3..8}` admit exactly 92 joint states. -/
theorem countPossibleStates_overlap_92 :
    (countPossibleStates [] [⟨3, ∅, {1,2,3,4,5,6}, []⟩, ⟨3, ∅, {3,4,5,6,7,8}, []⟩]).map
        Prod.fst = some 92 := by
  decide

/-! ## Strategy layer: best guess and accusation -/

theorem argmaxEntry_aux :
    ∀ (counts : List (HandInformation × Nat)) (b p : HandInformation × Nat),
      counts.foldl argmaxStep (some b) = some p →
      (p = b ∨ p ∈ counts) ∧ b.2 ≤ p.2 ∧ ∀ q ∈ counts, q.2 ≤ p.2 := by
  intro counts
  induction counts with
  | nil =>
    intro b p h
    simp only [List.foldl_nil, Option.some.injEq] at h
    exact ⟨Or.inl h.symm, by rw [h], by simp⟩
  | cons a t ih =>
    intro b p h
    rw [List.foldl_cons] at h
    by_cases hgt : a.2 > b.2
    · have hstep : argmaxStep (some b) a = some a := by
        show (if a.2 > b.2 then some a else some b) = some a
        rw [if_pos hgt]
      rw [hstep] at h
      obtain ⟨h1, h2, h3⟩ := ih a p h
      refine ⟨Or.inr ?_, by omega, ?_⟩
      · rcases h1 with rfl | h1
        · exact List.mem_cons_self _ _
        · exact List.mem_cons_of_mem _ h1
      · intro q hq
        rcases List.mem_cons.mp hq with rfl | hq
        · omega
        · exact h3 q hq
    · have hstep : argmaxStep (some b) a = some b := by
        show (if a.2 > b.2 then some a else some b) = some b
        rw [if_neg hgt]
      rw [hstep] at h
      obtain ⟨h1, h2, h3⟩ := ih b p h
      refine ⟨?_, h2, ?_⟩
      · rcases h1 with rfl | h1
        · exact Or.inl rfl
        · exact Or.inr (List.mem_cons_of_mem _ h1)
      · intro q hq
        rcases List.mem_cons.mp hq with rfl | hq
        · omega
        · exact h3 q hq

theorem argmaxEntry_spec {counts : List (HandInformation × Nat)}
    {p : HandInformation × Nat} (h : argmaxEntry counts = some p) :
    p ∈ counts ∧ ∀ q ∈ counts, q.2 ≤ p.2 := by
  cases counts with
  | nil => cases h
  | cons a t =>
    unfold argmaxEntry at h
    rw [List.foldl_cons] at h
    have hstep : argmaxStep none a = some a := rfl
    rw [hstep] at h
    obtain ⟨h1, h2, h3⟩ := argmaxEntry_aux t a p h
    refine ⟨?_, ?_⟩
    · rcases h1 with rfl | h1
      · exact List.mem_cons_self _ _
      · exact List.mem_cons_of_mem _ h1
    · intro q hq
      rcases List.mem_cons.mp hq with rfl | hq
      · exact h2
      · exact h3 q hq

theorem extractCard_mem {cat : Finset Card} {g : HandInformation} {p : Card}
    (h : extractCard cat g = some p) : p ∈ g.known_cards ∧ p ∈ cat := by
  unfold extractCard at h
  have hm : p ∈ cardList (g.known_cards ∩ cat) :=
    List.mem_of_mem_head? (Option.mem_def.mpr h)
  have := mem_cardList.mp hm
  exact ⟨(Finset.mem_inter.mp this).1, (Finset.mem_inter.mp this).2⟩

theorem le_foldr_max {l : List Nat} {x : Nat} (hx : x ∈ l) : x ≤ l.foldr max 0 := by
  induction l with
  | nil => cases hx
  | cons a t ih =>
    rw [List.foldr_cons]
    rcases List.mem_cons.mp hx with rfl | hx
    · exact Nat.le_max_left _ _
    · exact (ih hx).trans (Nat.le_max_right _ _)

theorem foldr_max_le {l : List Nat} {n : Nat} (h : ∀ x ∈ l, x ≤ n) :
    l.foldr max 0 ≤ n := by
  induction l with
  | nil => simp
  | cons a t ih =>
    rw [List.foldr_cons]
    exact Nat.max_le.mpr ⟨h a (List.mem_cons_self _ _), ih (fun x hx => h x (List.mem_cons_of_mem _ hx))⟩

theorem le_cardCount {counts : List (HandInformation × Nat)} {c : Card}
    {g : HandInformation} {n : Nat} (hmem : (g, n) ∈ counts) (hc : c ∈ g.known_cards) :
    n ≤ cardCount counts c := by
  unfold cardCount
  refine le_foldr_max (List.mem_map.mpr ⟨(g, n), ?_, rfl⟩)
  exact List.mem_filter.mpr ⟨hmem, by simpa using hc⟩

theorem cardCount_le {counts : List (HandInformation × Nat)} {c : Card} {n : Nat}
    (h : ∀ q ∈ counts, q.2 ≤ n) : cardCount counts c ≤ n := by
  unfold cardCount
  refine foldr_max_le ?_
  intro x hx
  obtain ⟨q, hq, rfl⟩ := List.mem_map.mp hx
  exact h q (List.mem_filter.mp hq).1

/-- C7: the guess returned by `makeGuess` consists, in each category, of a
candidate card with the highest envelope-consistency count, where a card's
count is the largest count the `countPlayerPossibilities` mapping assigns to
a candidate hand containing it. -/
theorem makeGuess_maximal (people weapons rooms : Finset Card) (cache : Cache)
    (envelope_info : HandInformation) (hand_infos : List HandInformation)
    (p w r : Card)
    (hres : makeGuess people weapons rooms cache envelope_info hand_infos = some (p, w, r)) :
    ∃ counts cache',
      countPlayerPossibilities cache envelope_info hand_infos = some (counts, cache') ∧
      p ∈ people ∧ w ∈ weapons ∧ r ∈ rooms ∧
      (∀ c ∈ people, cardCount counts c ≤ cardCount counts p) ∧
      (∀ c ∈ weapons, cardCount counts c ≤ cardCount counts w) ∧
      (∀ c ∈ rooms, cardCount counts c ≤ cardCount counts r) := by
  unfold makeGuess at hres
  cases hcpp : countPlayerPossibilities cache envelope_info hand_infos with
  | none => rw [hcpp] at hres; cases hres
  | some pc =>
    obtain ⟨counts, cache'⟩ := pc
    rw [hcpp] at hres
    dsimp only at hres
    cases hmax : argmaxEntry counts with
    | none => rw [hmax] at hres; cases hres
    | some gn =>
      obtain ⟨g, n⟩ := gn
      rw [hmax] at hres
      dsimp only at hres
      cases hp : extractCard people g with
      | none => rw [hp] at hres; cases hres
      | some p' =>
        cases hw : extractCard weapons g with
        | none => rw [hp, hw] at hres; cases hres
        | some w' =>
          cases hr : extractCard rooms g with
          | none => rw [hp, hw, hr] at hres; cases hres
          | some r' =>
            rw [hp, hw, hr] at hres
            dsimp only at hres
            obtain ⟨rfl, rfl, rfl⟩ : p' = p ∧ w' = w ∧ r' = r := by
              refine ⟨?_, ?_, ?_⟩ <;> · injection hres with h'; injection h' <;> simp_all
            obtain ⟨hmem, hle⟩ := argmaxEntry_spec hmax
            obtain ⟨hpg, hpc⟩ := extractCard_mem hp
            obtain ⟨hwg, hwc⟩ := extractCard_mem hw
            obtain ⟨hrg, hrc⟩ := extractCard_mem hr
            refine ⟨counts, cache', rfl, hpc, hwc, hrc, ?_, ?_, ?_⟩
            · exact fun c _ => (cardCount_le hle).trans (le_cardCount hmem hpg)
            · exact fun c _ => (cardCount_le hle).trans (le_cardCount hmem hwg)
            · exact fun c _ => (cardCount_le hle).trans (le_cardCount hmem hrg)

theorem makeGuess_maximal_witness :
    makeGuess {0, 1} {2} {3} [] (⟨3, ∅, {0, 1, 2, 3}, [[0, 1], [2], [3]]⟩ : HandInformation)
      [⟨1, ∅, {0, 1, 2, 3}, []⟩] = some (0, 2, 3) ∧
    (∃ counts cache',
      countPlayerPossibilities [] (⟨3, ∅, {0, 1, 2, 3}, [[0, 1], [2], [3]]⟩ : HandInformation)
        [⟨1, ∅, {0, 1, 2, 3}, []⟩] = some (counts, cache') ∧
      (0 : Card) ∈ ({0, 1} : Finset Card) ∧ (2 : Card) ∈ ({2} : Finset Card) ∧
      (3 : Card) ∈ ({3} : Finset Card) ∧
      (∀ c ∈ ({0, 1} : Finset Card), cardCount counts c ≤ cardCount counts 0) ∧
      (∀ c ∈ ({2} : Finset Card), cardCount counts c ≤ cardCount counts 2) ∧
      (∀ c ∈ ({3} : Finset Card), cardCount counts c ≤ cardCount counts 3)) :=
  ⟨by decide, makeGuess_maximal _ _ _ _ _ _ 0 2 3 (by decide)⟩

theorem cardList_singleton (a : Card) : cardList {a} = [a] := by
  unfold cardList
  have hsup : ({a} : Finset Card).sup id = a := by simp
  rw [hsup]
  have hgen : ∀ n : Nat, (List.range n).filter (fun x => decide (x ∈ ({a} : Finset Card))) =
      if a < n then [a] else [] := by
    intro n
    induction n with
    | zero => simp
    | succ m ih =>
      rw [List.range_succ, List.filter_append, ih]
      by_cases ham : a < m
      · rw [if_pos ham, if_pos (Nat.lt_succ_of_lt ham)]
        have hm : (List.filter (fun x => decide (x ∈ ({a} : Finset Card))) [m]) = [] := by
          simp only [List.filter_cons, List.filter_nil]
          rw [decide_eq_false (Finset.not_mem_singleton.mpr (Nat.ne_of_lt ham).symm)]
          simp
        rw [hm, List.append_nil]
      · rw [if_neg ham]
        by_cases hm : a = m
        · subst hm
          rw [if_pos (Nat.lt_succ_self a)]
          simp
        · rw [if_neg (fun h => (Nat.lt_succ_iff_lt_or_eq.mp h).elim ham hm)]
          simp only [List.filter_cons, List.filter_nil]
          rw [decide_eq_false (Finset.not_mem_singleton.mpr (fun h => hm h.symm))]
          simp
  rw [hgen, if_pos (Nat.lt_succ_self a)]

/-- C8: `readyForAccusation` produces a non-`None` accusation iff exactly one
candidate in the envelope-counts mapping has a count greater than zero, and
the accusation then names exactly the person, weapon and room cards of that
unique candidate (assuming each candidate holds one card per category, as
every envelope candidate does). -/
theorem readyForAccusation_iff (people weapons rooms : Finset Card)
    (envelope_counts : List (HandInformation × Nat))
    (hone : ∀ q ∈ envelope_counts, (q.1.known_cards ∩ people).card = 1 ∧
      (q.1.known_cards ∩ weapons).card = 1 ∧ (q.1.known_cards ∩ rooms).card = 1) :
    ((readyForAccusation people weapons rooms envelope_counts).isSome ↔
      (envelope_counts.filter (fun q => decide (0 < q.2))).length = 1) ∧
    (∀ p w r, readyForAccusation people weapons rooms envelope_counts = some (p, w, r) →
      ∃ g n, envelope_counts.filter (fun q => decide (0 < q.2)) = [(g, n)] ∧ 0 < n ∧
        g.known_cards ∩ people = {p} ∧ g.known_cards ∩ weapons = {w} ∧
        g.known_cards ∩ rooms = {r}) := by
  unfold readyForAccusation
  cases hf : envelope_counts.filter (fun q => decide (0 < q.2)) with
  | nil =>
    refine ⟨by simp, ?_⟩
    intro p w r hsome
    cases hsome
  | cons q t =>
    obtain ⟨g, n⟩ := q
    cases t with
    | nil =>
      have hmemf : (g, n) ∈ envelope_counts.filter (fun q => decide (0 < q.2)) := by
        rw [hf]
        exact List.mem_singleton_self _
      have hmem := (List.mem_filter.mp hmemf).1
      have hn : 0 < n := by simpa using (List.mem_filter.mp hmemf).2
      obtain ⟨h1, h2, h3⟩ := hone (g, n) hmem
      obtain ⟨a, ha⟩ := Finset.card_eq_one.mp h1
      obtain ⟨b, hb⟩ := Finset.card_eq_one.mp h2
      obtain ⟨c, hc⟩ := Finset.card_eq_one.mp h3
      have hea : extractCard people g = some a := by
        unfold extractCard
        rw [ha, cardList_singleton]
        rfl
      have heb : extractCard weapons g = some b := by
        unfold extractCard
        rw [hb, cardList_singleton]
        rfl
      have hec : extractCard rooms g = some c := by
        unfold extractCard
        rw [hc, cardList_singleton]
        rfl
      refine ⟨by simp [hea, heb, hec], ?_⟩
      intro p w r hsome
      dsimp only at hsome
      rw [hea, heb, hec] at hsome
      dsimp only at hsome
      obtain ⟨rfl, rfl, rfl⟩ : a = p ∧ b = w ∧ c = r := by
        refine ⟨?_, ?_, ?_⟩ <;> · injection hsome with h'; simp_all
      exact ⟨g, n, rfl, hn, ha, hb, hc⟩
    | cons q' t' =>
      refine ⟨by simp, ?_⟩
      intro p w r hsome
      cases hsome

theorem readyForAccusation_iff_witness :
    (∀ q ∈ ([(⟨3, {0, 2, 3}, ∅, []⟩, 0), (⟨3, {1, 2, 3}, ∅, []⟩, 4)] :
        List (HandInformation × Nat)),
      (q.1.known_cards ∩ ({0, 1} : Finset Card)).card = 1 ∧
      (q.1.known_cards ∩ ({2} : Finset Card)).card = 1 ∧
      (q.1.known_cards ∩ ({3} : Finset Card)).card = 1) ∧
    (((readyForAccusation {0, 1} {2} {3}
        [(⟨3, {0, 2, 3}, ∅, []⟩, 0), (⟨3, {1, 2, 3}, ∅, []⟩, 4)]).isSome ↔
      (([(⟨3, {0, 2, 3}, ∅, []⟩, 0), (⟨3, {1, 2, 3}, ∅, []⟩, 4)] :
          List (HandInformation × Nat)).filter (fun q => decide (0 < q.2))).length = 1) ∧
    (∀ p w r, readyForAccusation {0, 1} {2} {3}
        [(⟨3, {0, 2, 3}, ∅, []⟩, 0), (⟨3, {1, 2, 3}, ∅, []⟩, 4)] = some (p, w, r) →
      ∃ g n, ([(⟨3, {0, 2, 3}, ∅, []⟩, 0), (⟨3, {1, 2, 3}, ∅, []⟩, 4)] :
          List (HandInformation × Nat)).filter (fun q => decide (0 < q.2)) = [(g, n)] ∧
        0 < n ∧ g.known_cards ∩ ({0, 1} : Finset Card) = {p} ∧
        g.known_cards ∩ ({2} : Finset Card) = {w} ∧
        g.known_cards ∩ ({3} : Finset Card) = {r})) :=
  ⟨by decide, readyForAccusation_iff _ _ _ _ (by decide)⟩

/-! ## The semantic draw count: basic properties -/

theorem forall₂_mem_left {α β : Type} {R : α → β → Prop} :
    ∀ {l₁ : List α} {l₂ : List β}, List.Forall₂ R l₁ l₂ → ∀ {a}, a ∈ l₁ → ∃ b ∈ l₂, R a b := by
  intro l₁ l₂ hf
  induction hf with
  | nil => intro a ha; cases ha
  | @cons a' b' t₁ t₂ hR htail ih =>
    intro a ha
    rcases List.mem_cons.mp ha with rfl | ha
    · exact ⟨b', List.mem_cons_self _ _, hR⟩
    · obtain ⟨b, hb, hRb⟩ := ih ha
      exact ⟨b, List.mem_cons_of_mem _ hb, hRb⟩

theorem forall₂_sdiff_of_disjoint {S : Finset Card} :
    ∀ {t' : List (Finset Card)} {rest : List HandInformation},
      List.Forall₂ (fun S' h => S' ⊆ h.possible_cards ∧ S'.card = h.num_unknown_cards.toNat)
        t' rest →
      (∀ a ∈ t', Disjoint S a) →
      List.Forall₂ (fun S' h => S' ⊆ h.possible_cards ∧ S'.card = h.num_unknown_cards.toNat)
        t' (rest.map (subPossible S)) := by
  intro t' rest hf
  induction hf with
  | nil => intro _; exact List.Forall₂.nil
  | @cons S' h' u₁ u₂ hR htail ih =>
    intro hd
    rw [List.map_cons]
    refine List.Forall₂.cons ⟨?_, hR.2⟩ (ih (fun a ha => hd a (List.mem_cons_of_mem _ ha)))
    show S' ⊆ h'.possible_cards \ S
    rw [Finset.subset_sdiff]
    exact ⟨hR.1, (hd S' (List.mem_cons_self _ _)).symm⟩

theorem mem_fillings :
    ∀ (n : Nat) (l : List HandInformation), l.length ≤ n → ∀ (t : List (Finset Card)),
      (t ∈ fillings l ↔
        (List.Forall₂ (fun S h => S ⊆ h.possible_cards ∧ S.card = h.num_unknown_cards.toNat)
            t l ∧
          t.Pairwise Disjoint)) := by
  intro n
  induction n with
  | zero =>
    intro l hl t
    cases l with
    | nil =>
      rw [fillings]
      simp only [Finset.mem_singleton, List.forall₂_nil_right_iff]
      constructor
      · rintro rfl; exact ⟨rfl, List.Pairwise.nil⟩
      · rintro ⟨rfl, -⟩; rfl
    | cons h rest => simp at hl
  | succ n ih =>
    intro l hl t
    cases l with
    | nil =>
      rw [fillings]
      simp only [Finset.mem_singleton, List.forall₂_nil_right_iff]
      constructor
      · rintro rfl; exact ⟨rfl, List.Pairwise.nil⟩
      · rintro ⟨rfl, -⟩; rfl
    | cons h rest =>
      rw [fillings]
      simp only [Finset.mem_biUnion, Finset.mem_image, Finset.mem_powersetCard]
      constructor
      · rintro ⟨S, ⟨hSP, hScard⟩, t', ht', rfl⟩
        obtain ⟨hf, hp⟩ := (ih (rest.map (subPossible S))
          (by rw [List.length_map]; simpa using hl) t').mp ht'
        rw [List.forall₂_map_right_iff] at hf
        refine ⟨List.Forall₂.cons ⟨hSP, hScard⟩ (hf.imp ?_), ?_⟩
        · rintro S' h' ⟨h1, h2⟩
          exact ⟨h1.trans (Finset.sdiff_subset), h2⟩
        · rw [List.pairwise_cons]
          refine ⟨?_, hp⟩
          intro S' hS'
          obtain ⟨h', -, hsub, -⟩ := forall₂_mem_left hf hS'
          have : S' ⊆ h'.possible_cards \ S := hsub
          exact Finset.disjoint_right.mpr
            (fun a haS' => (Finset.mem_sdiff.mp (this haS')).2)
      · rintro ⟨hf, hp⟩
        cases t with
        | nil => cases hf
        | cons S t' =>
          cases hf with
          | cons hhead htail =>
            obtain ⟨hd, hp'⟩ := List.pairwise_cons.mp hp
            refine ⟨S, ⟨hhead.1, hhead.2⟩, t', ?_, rfl⟩
            exact (ih (rest.map (subPossible S))
              (by rw [List.length_map]; simpa using hl) t').mpr
              ⟨forall₂_sdiff_of_disjoint htail hd, hp'⟩

theorem mem_fillings' {l : List HandInformation} {t : List (Finset Card)} :
    t ∈ fillings l ↔
      (List.Forall₂ (fun S h => S ⊆ h.possible_cards ∧ S.card = h.num_unknown_cards.toNat)
          t l ∧
        t.Pairwise Disjoint) :=
  mem_fillings l.length l le_rfl t

theorem trueCount_nil : trueCount [] = 1 := by
  unfold trueCount
  rw [fillings]
  rfl

theorem trueCount_cons (h : HandInformation) (rest : List HandInformation) :
    trueCount (h :: rest) =
      ∑ S in h.possible_cards.powersetCard h.num_unknown_cards.toNat,
        trueCount (rest.map (subPossible S)) := by
  unfold trueCount
  rw [fillings, Finset.card_biUnion]
  · exact Finset.sum_congr rfl (fun S _ =>
      Finset.card_image_of_injective _ (fun t₁ t₂ ht => by injection ht))
  · intro S₁ h₁ S₂ h₂ hne
    rw [Finset.disjoint_left]
    rintro t ht1 ht2
    obtain ⟨t₁, -, rfl⟩ := Finset.mem_image.mp ht1
    obtain ⟨t₂, -, heq⟩ := Finset.mem_image.mp ht2
    injection heq with heq1 heq2
    exact hne heq1.symm

theorem trueCount_singleton (h : HandInformation) :
    trueCount [h] = (h.possible_cards.card).choose h.num_unknown_cards.toNat := by
  rw [trueCount_cons]
  have : ∀ S : Finset Card, trueCount (([] : List HandInformation).map (subPossible S)) = 1 :=
    fun S => trueCount_nil
  simp only [List.map_nil, trueCount_nil]
  rw [Finset.sum_const, smul_eq_mul, mul_one, Finset.card_powersetCard]

theorem forall₂_fill_congr :
    ∀ {l₁ l₂ : List HandInformation},
      List.Forall₂ (fun a b => a.possible_cards = b.possible_cards ∧
        a.num_unknown_cards = b.num_unknown_cards) l₁ l₂ →
      ∀ t : List (Finset Card),
        (List.Forall₂ (fun S h => S ⊆ h.possible_cards ∧ S.card = h.num_unknown_cards.toNat)
            t l₁ ↔
          List.Forall₂ (fun S h => S ⊆ h.possible_cards ∧ S.card = h.num_unknown_cards.toNat)
            t l₂) := by
  intro l₁ l₂ hf
  induction hf with
  | nil => intro t; exact Iff.rfl
  | @cons b₁ b₂ t₁ t₂ hE htail ih =>
    intro t
    cases t with
    | nil =>
      exact iff_of_false (fun h => by cases h) (fun h => by cases h)
    | cons S t' =>
      constructor
      · intro h
        cases h with
        | cons hh ht =>
          exact List.Forall₂.cons ⟨hE.1 ▸ hh.1, hE.2 ▸ hh.2⟩ ((ih t').mp ht)
      · intro h
        cases h with
        | cons hh ht =>
          exact List.Forall₂.cons ⟨hE.1.symm ▸ hh.1, hE.2.symm ▸ hh.2⟩ ((ih t').mpr ht)

/-- The draw count only depends on each hand's possible cards and unknown
count (in particular not on its constraints or known cards). -/
theorem trueCount_congr {l₁ l₂ : List HandInformation}
    (hf : List.Forall₂ (fun a b => a.possible_cards = b.possible_cards ∧
      a.num_unknown_cards = b.num_unknown_cards) l₁ l₂) :
    trueCount l₁ = trueCount l₂ := by
  unfold trueCount
  congr 1
  ext t
  rw [mem_fillings', mem_fillings']
  rw [forall₂_fill_congr hf t]

theorem pc_sdiff_eq_filter (Q S : Finset Card) (n : Nat) :
    (Q \ S).powersetCard n = (Q.powersetCard n).filter (fun T => Disjoint T S) := by
  ext T
  simp only [Finset.mem_powersetCard, Finset.mem_filter, Finset.subset_sdiff]
  tauto

theorem sum_powersetCard_comm (P Q : Finset Card) (m n : Nat)
    (F : Finset Card → Finset Card → Nat) :
    ∑ S in P.powersetCard m, ∑ T in (Q \ S).powersetCard n, F S T =
    ∑ T in Q.powersetCard n, ∑ S in (P \ T).powersetCard m, F S T := by
  calc
    ∑ S in P.powersetCard m, ∑ T in (Q \ S).powersetCard n, F S T =
        ∑ S in P.powersetCard m, ∑ T in Q.powersetCard n,
          if Disjoint T S then F S T else 0 := by
      refine Finset.sum_congr rfl fun S _ => ?_
      rw [pc_sdiff_eq_filter, Finset.sum_filter]
    _ = ∑ T in Q.powersetCard n, ∑ S in P.powersetCard m,
          if Disjoint T S then F S T else 0 := Finset.sum_comm
    _ = ∑ T in Q.powersetCard n, ∑ S in (P \ T).powersetCard m, F S T := by
      refine Finset.sum_congr rfl fun T _ => ?_
      rw [pc_sdiff_eq_filter, Finset.sum_filter]
      exact Finset.sum_congr rfl fun S _ => if_congr disjoint_comm rfl rfl

theorem subPossible_subPossible (S T : Finset Card) (g : HandInformation) :
    subPossible T (subPossible S g) = subPossible (S ∪ T) g := by
  unfold subPossible
  simp only [HandInformation.mk.injEq, and_true, true_and]
  ext x
  simp only [Finset.mem_sdiff, Finset.mem_union]
  tauto

theorem map_subPossible_subPossible (S T : Finset Card) (l : List HandInformation) :
    (l.map (subPossible S)).map (subPossible T) = l.map (subPossible (S ∪ T)) := by
  rw [List.map_map]
  exact List.map_congr_left (fun g _ => subPossible_subPossible S T g)

theorem trueCount_move_front :
    ∀ (n : Nat) (pre : List HandInformation), pre.length ≤ n →
      ∀ (x : HandInformation) (post : List HandInformation),
        trueCount (pre ++ x :: post) = trueCount (x :: (pre ++ post)) := by
  intro n
  induction n with
  | zero =>
    intro pre hl x post
    cases pre with
    | nil => rfl
    | cons a pre' => simp at hl
  | succ n ih =>
    intro pre hl x post
    cases pre with
    | nil => rfl
    | cons a pre' =>
      rw [List.cons_append, trueCount_cons]
      have hstep : ∀ S : Finset Card,
          trueCount ((pre' ++ x :: post).map (subPossible S)) =
          ∑ T in (x.possible_cards \ S).powersetCard x.num_unknown_cards.toNat,
            trueCount ((pre' ++ post).map (subPossible (S ∪ T))) := by
        intro S
        rw [List.map_append, List.map_cons,
          ih (pre'.map (subPossible S)) (by rw [List.length_map]; simpa using hl)
            (subPossible S x) (post.map (subPossible S)),
          ← List.map_append, trueCount_cons]
        refine Finset.sum_congr rfl fun T _ => ?_
        rw [map_subPossible_subPossible]
      rw [Finset.sum_congr rfl (fun S _ => hstep S), sum_powersetCard_comm]
      symm
      rw [trueCount_cons]
      refine Finset.sum_congr rfl fun T _ => ?_
      rw [List.cons_append, List.map_cons, trueCount_cons]
      refine Finset.sum_congr rfl fun S _ => ?_
      rw [map_subPossible_subPossible, Finset.union_comm]

theorem trueCount_perm :
    ∀ (n : Nat) (l₁ l₂ : List HandInformation), l₁.length ≤ n → l₁.Perm l₂ →
      trueCount l₁ = trueCount l₂ := by
  intro n
  induction n with
  | zero =>
    intro l₁ l₂ hl hp
    cases l₁ with
    | nil =>
      have h2 : l₂ = [] := List.length_eq_zero.mp (hp.length_eq.symm ▸ rfl)
      rw [h2]
    | cons a t => simp at hl
  | succ n ih =>
    intro l₁ l₂ hl hp
    cases l₁ with
    | nil =>
      have h2 : l₂ = [] := List.length_eq_zero.mp (hp.length_eq.symm ▸ rfl)
      rw [h2]
    | cons x t₁ =>
      have hx : x ∈ l₂ := hp.subset (List.mem_cons_self x t₁)
      obtain ⟨pre, post, rfl⟩ := List.append_of_mem hx
      rw [trueCount_move_front pre.length pre le_rfl x post]
      have hperm' : t₁.Perm (pre ++ post) := (hp.trans List.perm_middle).cons_inv
      rw [trueCount_cons, trueCount_cons]
      refine Finset.sum_congr rfl fun S _ => ?_
      exact ih (t₁.map (subPossible S)) ((pre ++ post).map (subPossible S))
        (by rw [List.length_map]; simpa using hl) (hperm'.map _)

theorem trueCount_perm' {l₁ l₂ : List HandInformation} (hp : l₁.Perm l₂) :
    trueCount l₁ = trueCount l₂ :=
  trueCount_perm l₁.length l₁ l₂ le_rfl hp

/-! ## Relabeling invariance of the draw count -/

theorem mem_foldl_union :
    ∀ (l : List HandInformation) (acc : Finset Card) (x : Card),
      x ∈ l.foldl (fun s h => s ∪ h.possible_cards) acc ↔
        x ∈ acc ∨ ∃ h ∈ l, x ∈ h.possible_cards := by
  intro l
  induction l with
  | nil => intro acc x; simp
  | cons a t ih =>
    intro acc x
    rw [List.foldl_cons, ih]
    simp only [Finset.mem_union, List.mem_cons]
    constructor
    · rintro (⟨h | h⟩ | ⟨h', hh', hx⟩)
      · exact Or.inl h
      · exact Or.inr ⟨a, Or.inl rfl, h⟩
      · exact Or.inr ⟨h', Or.inr hh', hx⟩
    · rintro (h | ⟨h', rfl | hh', hx⟩)
      · exact Or.inl (Or.inl h)
      · exact Or.inl (Or.inr hx)
      · exact Or.inr ⟨h', hh', hx⟩

theorem mem_supersetOf {l : List HandInformation} {x : Card} :
    x ∈ supersetOf l ↔ ∃ h ∈ l, x ∈ h.possible_cards := by
  unfold supersetOf
  rw [mem_foldl_union]
  simp

theorem powersetCard_image_injOn {P : Finset Card} {φ : Card → Card}
    (hinj : Set.InjOn φ ↑P) (n : Nat) :
    (P.image φ).powersetCard n = (P.powersetCard n).image (fun S => S.image φ) := by
  classical
  ext T
  simp only [Finset.mem_powersetCard, Finset.mem_image]
  constructor
  · rintro ⟨hsub, hcard⟩
    have hdp : DecidablePred (fun x : Card => φ x ∈ T) := fun x => Finset.decidableMem _ _
    have himg : (P.filter (fun x => φ x ∈ T)).image φ = T := by
      ext y
      simp only [Finset.mem_image, Finset.mem_filter]
      constructor
      · rintro ⟨x, ⟨-, hx⟩, rfl⟩; exact hx
      · intro hy
        obtain ⟨x, hxP, rfl⟩ := Finset.mem_image.mp (hsub hy)
        exact ⟨x, ⟨hxP, hy⟩, rfl⟩
    refine ⟨P.filter (fun x => φ x ∈ T), ⟨Finset.filter_subset _ _, ?_⟩, himg⟩
    have hc2 := Finset.card_image_of_injOn
      (hinj.mono (fun x hx => (Finset.mem_filter.mp hx).1) :
        Set.InjOn φ ↑(P.filter (fun x => φ x ∈ T)))
    rw [himg] at hc2
    exact hc2 ▸ hcard
  · rintro ⟨S, ⟨hsub, hcard⟩, rfl⟩
    refine ⟨Finset.image_subset_image hsub, ?_⟩
    rw [Finset.card_image_of_injOn (hinj.mono (by exact_mod_cast hsub)), hcard]

theorem sum_powersetCard_image {P : Finset Card} {φ : Card → Card}
    (hinj : Set.InjOn φ ↑P) (n : Nat) (F : Finset Card → Nat) :
    ∑ T in (P.image φ).powersetCard n, F T =
      ∑ S in P.powersetCard n, F (S.image φ) := by
  rw [powersetCard_image_injOn hinj n]
  refine Finset.sum_image ?_
  intro S hS T hT heq
  have hSsub : S ⊆ P := (Finset.mem_powersetCard.mp hS).1
  have hTsub : T ⊆ P := (Finset.mem_powersetCard.mp hT).1
  ext x
  constructor
  · intro hx
    have : φ x ∈ T.image φ := heq ▸ Finset.mem_image_of_mem φ hx
    obtain ⟨y, hy, hxy⟩ := Finset.mem_image.mp this
    rw [hinj (hTsub hy) (hSsub hx) hxy] at hy
    exact hy
  · intro hx
    have : φ x ∈ S.image φ := heq.symm ▸ Finset.mem_image_of_mem φ hx
    obtain ⟨y, hy, hxy⟩ := Finset.mem_image.mp this
    rw [hinj (hSsub hy) (hTsub hx) hxy] at hy
    exact hy

theorem image_sdiff_injOn {Q S : Finset Card} {φ : Card → Card}
    (hinj : Set.InjOn φ ↑(Q ∪ S)) :
    (Q.image φ) \ (S.image φ) = (Q \ S).image φ := by
  ext y
  simp only [Finset.mem_sdiff, Finset.mem_image]
  constructor
  · rintro ⟨⟨x, hxQ, rfl⟩, hnot⟩
    exact ⟨x, ⟨hxQ, fun hxS => hnot ⟨x, hxS, rfl⟩⟩, rfl⟩
  · rintro ⟨x, ⟨hxQ, hxS⟩, rfl⟩
    refine ⟨⟨x, hxQ, rfl⟩, ?_⟩
    rintro ⟨z, hzS, hz⟩
    have hzx : z = x :=
      hinj (Finset.mem_union_right _ hzS) (Finset.mem_union_left _ hxQ) hz
    exact hxS (hzx ▸ hzS)

theorem trueCount_relabel :
    ∀ (n : Nat) (l : List HandInformation), l.length ≤ n → ∀ (φ : Card → Card),
      Set.InjOn φ ↑(supersetOf l) →
      trueCount (l.map (fun h =>
        { h with possible_cards := h.possible_cards.image φ })) = trueCount l := by
  intro n
  induction n with
  | zero =>
    intro l hl φ _
    cases l with
    | nil => rfl
    | cons a t => simp at hl
  | succ n ih =>
    intro l hl φ hinj
    cases l with
    | nil => rfl
    | cons h rest =>
      have hsubsup : ∀ g ∈ h :: rest, ↑g.possible_cards ⊆ (↑(supersetOf (h :: rest)) : Set Card) := by
        intro g hg x hx
        exact mem_supersetOf.mpr ⟨g, hg, hx⟩
      rw [List.map_cons, trueCount_cons]
      have hP : (↑h.possible_cards : Set Card) ⊆ ↑(supersetOf (h :: rest)) :=
        hsubsup h (List.mem_cons_self _ _)
      rw [show ({ h with possible_cards := h.possible_cards.image φ} :
        HandInformation).possible_cards = h.possible_cards.image φ from rfl]
      rw [show ({ h with possible_cards := h.possible_cards.image φ} :
        HandInformation).num_unknown_cards = h.num_unknown_cards from rfl]
      rw [sum_powersetCard_image (hinj.mono hP)]
      rw [trueCount_cons]
      refine Finset.sum_congr rfl fun S hS => ?_
      have hSP : S ⊆ h.possible_cards := (Finset.mem_powersetCard.mp hS).1
      have hmapeq : (rest.map (fun g =>
          { g with possible_cards := g.possible_cards.image φ })).map
            (subPossible (S.image φ)) =
          (rest.map (subPossible S)).map (fun g =>
            { g with possible_cards := g.possible_cards.image φ }) := by
        rw [List.map_map, List.map_map]
        refine List.map_congr_left (fun g hg => ?_)
        show subPossible (S.image φ) { g with possible_cards := g.possible_cards.image φ } =
          { subPossible S g with
            possible_cards := (subPossible S g).possible_cards.image φ }
        unfold subPossible
        simp only [HandInformation.mk.injEq, and_true, true_and]
        refine image_sdiff_injOn (hinj.mono ?_)
        intro x hx
        rcases Finset.mem_union.mp hx with hx | hx
        · exact hsubsup g (List.mem_cons_of_mem _ hg) hx
        · exact hP (hSP hx)
      rw [hmapeq]
      refine ih (rest.map (subPossible S)) (by rw [List.length_map]; simpa using hl) φ
        (hinj.mono ?_)
      intro x hx
      obtain ⟨g, hg, hxg⟩ := mem_supersetOf.mp hx
      obtain ⟨g', hg', rfl⟩ := List.mem_map.mp hg
      have : x ∈ g'.possible_cards := (Finset.mem_sdiff.mp hxg).1
      exact hsubsup g' (List.mem_cons_of_mem _ hg') this

/-! ## The cache key determines the draw count -/

theorem get_map_pos {α β : Type} (f : α → β) :
    ∀ (l : List α) (i : Nat) (h : i < (l.map f).length) (h' : i < l.length),
      (l.map f).get ⟨i, h⟩ = f (l.get ⟨i, h'⟩) := by
  intro l
  induction l with
  | nil => intro i h h'; simp at h'
  | cons a t ih =>
    intro i h h'
    cases i with
    | zero => rfl
    | succ j => exact ih j (by simpa using h) (by simpa using h')

theorem mem_zip_self {α : Type} : ∀ {l : List α} {p : α × α}, p ∈ l.zip l → p.1 = p.2 := by
  intro l
  induction l with
  | nil =>
    intro p hp
    rw [List.zip_nil_left] at hp
    exact absurd hp (List.not_mem_nil p)
  | cons a t ih =>
    intro p hp
    rw [List.zip_cons_cons] at hp
    rcases List.mem_cons.mp hp with rfl | hp
    · rfl
    · exact ih hp

theorem zip_get_mem {α β : Type} :
    ∀ (l₁ : List α) (l₂ : List β) (i : Nat) (h₁ : i < l₁.length) (h₂ : i < l₂.length),
      (l₁.get ⟨i, h₁⟩, l₂.get ⟨i, h₂⟩) ∈ l₁.zip l₂ := by
  intro l₁
  induction l₁ with
  | nil => intro l₂ i h₁ h₂; simp at h₁
  | cons a t ih =>
    intro l₂ i h₁ h₂
    cases l₂ with
    | nil => simp at h₂
    | cons b s =>
      cases i with
      | zero =>
        rw [List.zip_cons_cons]
        exact List.mem_cons_self _ _
      | succ j =>
        rw [List.zip_cons_cons]
        exact List.mem_cons_of_mem _
          (ih s j (Nat.lt_of_succ_lt_succ h₁) (Nat.lt_of_succ_lt_succ h₂))

theorem mem_atom_foldl :
    ∀ (t : List Nat) (hands : List HandInformation) (acc : Finset Card) (y : Card),
      (y ∈ (t.zip hands).foldl
          (fun s p => if p.1 = 0 then s \ p.2.possible_cards else s ∩ p.2.possible_cards)
          acc ↔
        (y ∈ acc ∧ ∀ p ∈ t.zip hands,
          (p.1 = 0 → y ∉ p.2.possible_cards) ∧ (p.1 ≠ 0 → y ∈ p.2.possible_cards))) := by
  intro t
  induction t with
  | nil =>
    intro hands acc y
    rw [List.zip_nil_left]
    simp
  | cons b t' ih =>
    intro hands acc y
    cases hands with
    | nil =>
      rw [List.zip_nil_right]
      simp
    | cons h hs =>
      have hstep : (if ((b : Nat), h).1 = 0 then acc \ ((b, h).2).possible_cards
            else acc ∩ ((b, h).2).possible_cards) =
          if b = 0 then acc \ h.possible_cards else acc ∩ h.possible_cards := rfl
      rw [List.zip_cons_cons, List.foldl_cons, hstep, ih, List.forall_mem_cons]
      by_cases hb : b = 0
      · rw [if_pos hb]
        constructor
        · rintro ⟨hacc, hrest⟩
          have hm := Finset.mem_sdiff.mp hacc
          exact ⟨hm.1, ⟨fun _ => hm.2, fun hne => absurd hb hne⟩, hrest⟩
        · rintro ⟨hacc, hhead, hrest⟩
          exact ⟨Finset.mem_sdiff.mpr ⟨hacc, hhead.1 hb⟩, hrest⟩
      · rw [if_neg hb]
        constructor
        · rintro ⟨hacc, hrest⟩
          have hm := Finset.mem_inter.mp hacc
          exact ⟨hm.1, ⟨fun h0 => absurd h0 hb, fun _ => hm.2⟩, hrest⟩
        · rintro ⟨hacc, hhead, hrest⟩
          exact ⟨Finset.mem_inter.mpr ⟨hacc, hhead.2 hb⟩, hrest⟩

theorem mem_atomOf {hands : List HandInformation} {superset : Finset Card} {t : List Nat}
    {y : Card} :
    y ∈ atomOf hands superset t ↔
      (y ∈ superset ∧ ∀ p ∈ t.zip hands,
        (p.1 = 0 → y ∉ p.2.possible_cards) ∧ (p.1 ≠ 0 → y ∈ p.2.possible_cards)) :=
  mem_atom_foldl t hands superset y

theorem mem_bitLists (n : Nat) (t : List Nat) :
    t ∈ bitLists n ↔ (t.length = n ∧ ∀ b ∈ t, b = 0 ∨ b = 1) := by
  induction n generalizing t with
  | zero =>
    rw [bitLists]
    simp only [List.mem_singleton]
    constructor
    · rintro rfl
      exact ⟨rfl, fun b hb => absurd hb (List.not_mem_nil b)⟩
    · rintro ⟨hl, -⟩
      exact List.length_eq_zero.mp hl
  | succ n ih =>
    rw [bitLists]
    simp only [List.mem_append, List.mem_map]
    constructor
    · rintro (⟨t', ht', rfl⟩ | ⟨t', ht', rfl⟩)
      · obtain ⟨hl, hb⟩ := (ih t').mp ht'
        refine ⟨by simp [hl], ?_⟩
        intro b hb'
        rcases List.mem_cons.mp hb' with rfl | hb'
        · exact Or.inl rfl
        · exact hb b hb'
      · obtain ⟨hl, hb⟩ := (ih t').mp ht'
        refine ⟨by simp [hl], ?_⟩
        intro b hb'
        rcases List.mem_cons.mp hb' with rfl | hb'
        · exact Or.inr rfl
        · exact hb b hb'
    · rintro ⟨hl, hb⟩
      cases t with
      | nil => simp at hl
      | cons b t' =>
        have hl' : t'.length = n := by simpa using hl
        have hbt' : ∀ c ∈ t', c = 0 ∨ c = 1 := fun c hc => hb c (List.mem_cons_of_mem _ hc)
        rcases hb b (List.mem_cons_self _ _) with rfl | rfl
        · exact Or.inl ⟨t', (ih t').mpr ⟨hl', hbt'⟩, rfl⟩
        · exact Or.inr ⟨t', (ih t').mpr ⟨hl', hbt'⟩, rfl⟩

theorem length_bitLists : ∀ (n : Nat), (bitLists n).length = 2 ^ n := by
  intro n
  induction n with
  | zero => rfl
  | succ n ih =>
    rw [bitLists, List.length_append, List.length_map, List.length_map, ih, pow_succ]
    omega

theorem tvec_mem_bitLists {hands : List HandInformation} {y : Card} :
    tvec hands y ∈ bitLists hands.length := by
  rw [mem_bitLists]
  constructor
  · exact List.length_map _ _
  · intro b hb
    have hb' : b ∈ hands.map (fun h => if y ∈ h.possible_cards then (1 : Nat) else 0) := hb
    obtain ⟨h, -, rfl⟩ := List.mem_map.mp hb'
    by_cases hy : y ∈ h.possible_cards
    · exact Or.inr (if_pos hy)
    · exact Or.inl (if_neg hy)

theorem mem_atom_tvec {hands : List HandInformation} {superset : Finset Card} {y : Card}
    (hy : y ∈ superset) : y ∈ atomOf hands superset (tvec hands y) := by
  rw [mem_atomOf]
  refine ⟨hy, ?_⟩
  intro p hp
  have hp' : p ∈ (hands.map (fun h =>
      if y ∈ h.possible_cards then (1 : Nat) else 0)).zip hands := hp
  rw [List.zip_map_left] at hp'
  obtain ⟨q, hq, rfl⟩ := List.mem_map.mp hp'
  have hqq : q.1 = q.2 := mem_zip_self hq
  constructor
  · intro h0
    by_cases hmem : y ∈ q.1.possible_cards
    · exact absurd ((if_pos hmem).symm.trans h0) one_ne_zero
    · show y ∉ q.2.possible_cards
      rw [← hqq]
      exact hmem
  · intro hne
    show y ∈ q.2.possible_cards
    rw [← hqq]
    by_cases hmem : y ∈ q.1.possible_cards
    · exact hmem
    · exact absurd (if_neg hmem) hne

theorem tvec_unique :
    ∀ {t : List Nat} {hands : List HandInformation} {y : Card},
      t.length = hands.length → (∀ b ∈ t, b = 0 ∨ b = 1) →
      (∀ p ∈ t.zip hands,
        (p.1 = 0 → y ∉ p.2.possible_cards) ∧ (p.1 ≠ 0 → y ∈ p.2.possible_cards)) →
      t = tvec hands y := by
  intro t
  induction t with
  | nil =>
    intro hands y hlen _ _
    cases hands with
    | nil => rfl
    | cons h hs => simp at hlen
  | cons b t' ih =>
    intro hands y hlen hbits hall
    cases hands with
    | nil => simp at hlen
    | cons h hs =>
      have hhead := hall (b, h) (by rw [List.zip_cons_cons]; exact List.mem_cons_self _ _)
      have htail : t' = tvec hs y := ih (by simpa using hlen)
        (fun c hc => hbits c (List.mem_cons_of_mem _ hc))
        (fun p hp => hall p (by rw [List.zip_cons_cons]; exact List.mem_cons_of_mem _ hp))
      have hcons : tvec (h :: hs) y =
          (if y ∈ h.possible_cards then (1 : Nat) else 0) :: tvec hs y := rfl
      rw [hcons, htail]
      rcases hbits b (List.mem_cons_self _ _) with rfl | rfl
      · rw [if_neg (hhead.1 rfl)]
      · rw [if_pos (hhead.2 one_ne_zero)]

theorem atom_disjoint {hands : List HandInformation} {superset : Finset Card}
    {t₁ t₂ : List Nat} (h₁ : t₁ ∈ bitLists hands.length) (h₂ : t₂ ∈ bitLists hands.length)
    (hne : t₁ ≠ t₂) :
    Disjoint (atomOf hands superset t₁) (atomOf hands superset t₂) := by
  rw [Finset.disjoint_left]
  intro y hy₁ hy₂
  obtain ⟨hl₁, hb₁⟩ := (mem_bitLists _ _).mp h₁
  obtain ⟨hl₂, hb₂⟩ := (mem_bitLists _ _).mp h₂
  have e₁ : t₁ = tvec hands y := tvec_unique hl₁ hb₁ (mem_atomOf.mp hy₁).2
  have e₂ : t₂ = tvec hands y := tvec_unique hl₂ hb₂ (mem_atomOf.mp hy₂).2
  exact hne (e₁.trans e₂.symm)

theorem equivOfCardEq_val_inj {s₁ t₁ s₂ t₂ : Finset Card} (hs : s₁ = s₂) (ht : t₁ = t₂)
    (h₁ : s₁.card = t₁.card) (h₂ : s₂.card = t₂.card) (a : {x // x ∈ s₁}) (b : {x // x ∈ s₂})
    (heq : (Finset.equivOfCardEq h₁ a).1 = (Finset.equivOfCardEq h₂ b).1) : a.1 = b.1 := by
  subst hs
  subst ht
  have hpe : h₁ = h₂ := rfl
  subst hpe
  have hb : Finset.equivOfCardEq h₁ a = Finset.equivOfCardEq h₁ b := Subtype.ext heq
  exact congrArg Subtype.val ((Finset.equivOfCardEq h₁).injective hb)

theorem exists_atom_map (k : Nat) (A₁ A₂ : List Nat → Finset Card)
    (hcard : ∀ t ∈ bitLists k, (A₁ t).card = (A₂ t).card)
    (hdisj₁ : ∀ t₁ ∈ bitLists k, ∀ t₂ ∈ bitLists k, t₁ ≠ t₂ → Disjoint (A₁ t₁) (A₁ t₂))
    (hdisj₂ : ∀ t₁ ∈ bitLists k, ∀ t₂ ∈ bitLists k, t₁ ≠ t₂ → Disjoint (A₂ t₁) (A₂ t₂)) :
    ∃ φ : Card → Card,
      (∀ t ∈ bitLists k, ∀ y ∈ A₁ t, φ y ∈ A₂ t) ∧
      (∀ t₁ ∈ bitLists k, ∀ t₂ ∈ bitLists k, ∀ y₁ ∈ A₁ t₁, ∀ y₂ ∈ A₁ t₂,
        φ y₁ = φ y₂ → y₁ = y₂) := by
  classical
  refine ⟨fun y =>
    if hy : ∃ t, t ∈ bitLists k ∧ y ∈ A₁ t then
      (Finset.equivOfCardEq (hcard hy.choose hy.choose_spec.1) ⟨y, hy.choose_spec.2⟩).1
    else y, ?_, ?_⟩
  · intro t ht y hy
    have hex : ∃ t', t' ∈ bitLists k ∧ y ∈ A₁ t' := ⟨t, ht, hy⟩
    simp only [dif_pos hex]
    have hchoose : hex.choose = t := by
      by_contra hne
      exact Finset.disjoint_left.mp
        (hdisj₁ hex.choose hex.choose_spec.1 t ht hne) hex.choose_spec.2 hy
    rw [← hchoose]
    exact (Finset.equivOfCardEq (hcard hex.choose hex.choose_spec.1)
      ⟨y, hex.choose_spec.2⟩).2
  · intro t₁ ht₁ t₂ ht₂ y₁ hy₁ y₂ hy₂ heq
    have hex₁ : ∃ t, t ∈ bitLists k ∧ y₁ ∈ A₁ t := ⟨t₁, ht₁, hy₁⟩
    have hex₂ : ∃ t, t ∈ bitLists k ∧ y₂ ∈ A₁ t := ⟨t₂, ht₂, hy₂⟩
    simp only [dif_pos hex₁, dif_pos hex₂] at heq
    have hm₁ := (Finset.equivOfCardEq (hcard hex₁.choose hex₁.choose_spec.1)
      ⟨y₁, hex₁.choose_spec.2⟩).2
    have hm₂ := (Finset.equivOfCardEq (hcard hex₂.choose hex₂.choose_spec.1)
      ⟨y₂, hex₂.choose_spec.2⟩).2
    have hch : hex₁.choose = hex₂.choose := by
      by_contra hne
      exact Finset.disjoint_left.mp
        (hdisj₂ hex₁.choose hex₁.choose_spec.1 hex₂.choose hex₂.choose_spec.1 hne)
        hm₁ (by rw [heq]; exact hm₂)
    exact equivOfCardEq_val_inj (congrArg A₁ hch) (congrArg A₂ hch)
      (hcard hex₁.choose hex₁.choose_spec.1) (hcard hex₂.choose hex₂.choose_spec.1)
      ⟨y₁, hex₁.choose_spec.2⟩ ⟨y₂, hex₂.choose_spec.2⟩ heq

theorem getCacheKey_parts {l : List HandInformation} :
    getCacheKey l = ((sortedHands l).map (fun h => h.num_unknown_cards)) ++
      (bitLists (sortedHands l).length).map
        (fun t => ((atomOf (sortedHands l) (supersetOf (sortedHands l)) t).card : Int)) := rfl

theorem key_length {l : List HandInformation} :
    (getCacheKey l).length = (sortedHands l).length + 2 ^ (sortedHands l).length := by
  rw [getCacheKey_parts, List.length_append, List.length_map, List.length_map,
    length_bitLists]

theorem sorted_length_of_key_eq {l₁ l₂ : List HandInformation}
    (h : getCacheKey l₁ = getCacheKey l₂) :
    (sortedHands l₁).length = (sortedHands l₂).length := by
  have hlen := congrArg List.length h
  rw [key_length, key_length] at hlen
  by_contra hne
  rcases Nat.lt_or_ge (sortedHands l₁).length (sortedHands l₂).length with hlt | hge
  · have := Nat.pow_lt_pow_right (by norm_num : 1 < 2) hlt
    omega
  · have hlt : (sortedHands l₂).length < (sortedHands l₁).length :=
      lt_of_le_of_ne hge (fun e => hne e.symm)
    have := Nat.pow_lt_pow_right (by norm_num : 1 < 2) hlt
    omega

theorem forall₂_of_map_eq {α β γ : Type} {f : α → γ} {g : β → γ} :
    ∀ {l₁ : List α} {l₂ : List β}, l₁.map f = l₂.map g →
      List.Forall₂ (fun a b => f a = g b) l₁ l₂ := by
  intro l₁
  induction l₁ with
  | nil =>
    intro l₂ h
    cases l₂ with
    | nil => exact List.Forall₂.nil
    | cons b s => simp at h
  | cons a t ih =>
    intro l₂ h
    cases l₂ with
    | nil => simp at h
    | cons b s =>
      rw [List.map_cons, List.map_cons] at h
      injection h with h1 h2
      exact List.Forall₂.cons h1 (ih h2)

theorem key_eq_destruct {l₁ l₂ : List HandInformation} (h : getCacheKey l₁ = getCacheKey l₂) :
    ((sortedHands l₁).map (fun g => g.num_unknown_cards) =
      (sortedHands l₂).map (fun g => g.num_unknown_cards)) ∧
    ∀ t ∈ bitLists (sortedHands l₁).length,
      (atomOf (sortedHands l₁) (supersetOf (sortedHands l₁)) t).card =
      (atomOf (sortedHands l₂) (supersetOf (sortedHands l₂)) t).card := by
  have hk := sorted_length_of_key_eq h
  rw [getCacheKey_parts, getCacheKey_parts] at h
  have hlen : ((sortedHands l₁).map (fun g => g.num_unknown_cards)).length =
      ((sortedHands l₂).map (fun g => g.num_unknown_cards)).length := by
    rw [List.length_map, List.length_map, hk]
  obtain ⟨h1, h2⟩ := List.append_inj h hlen
  refine ⟨h1, ?_⟩
  intro t ht
  rw [hk] at h2 ht
  have := List.map_inj_left.mp h2 t ht
  exact_mod_cast this

theorem atom_map_possible_subset {s₁ s₂ : List HandInformation} {φ : Card → Card}
    (hk : s₁.length = s₂.length)
    (hmap : ∀ t ∈ bitLists s₁.length,
      ∀ y ∈ atomOf s₁ (supersetOf s₁) t, φ y ∈ atomOf s₂ (supersetOf s₂) t)
    (i : Nat) (h₁ : i < s₁.length) (h₂ : i < s₂.length) :
    ((s₁.get ⟨i, h₁⟩).possible_cards).image φ ⊆ (s₂.get ⟨i, h₂⟩).possible_cards := by
  intro z hz
  obtain ⟨y, hy, rfl⟩ := Finset.mem_image.mp hz
  have hysup : y ∈ supersetOf s₁ :=
    mem_supersetOf.mpr ⟨s₁.get ⟨i, h₁⟩, List.get_mem s₁ i h₁, hy⟩
  have ht : tvec s₁ y ∈ bitLists s₁.length := tvec_mem_bitLists
  have hyA : y ∈ atomOf s₁ (supersetOf s₁) (tvec s₁ y) := mem_atom_tvec hysup
  have hφA : φ y ∈ atomOf s₂ (supersetOf s₂) (tvec s₁ y) := hmap _ ht _ hyA
  have hti : i < (tvec s₁ y).length := by
    have : (tvec s₁ y).length = s₁.length := List.length_map _ _
    omega
  have hpair := (mem_atomOf.mp hφA).2 ((tvec s₁ y).get ⟨i, hti⟩, s₂.get ⟨i, h₂⟩)
    (zip_get_mem _ _ i hti h₂)
  have hget : (tvec s₁ y).get ⟨i, hti⟩ =
      (if y ∈ (s₁.get ⟨i, h₁⟩).possible_cards then (1 : Nat) else 0) :=
    get_map_pos (fun h : HandInformation => if y ∈ h.possible_cards then (1 : Nat) else 0)
      s₁ i hti h₁
  have hne : (tvec s₁ y).get ⟨i, hti⟩ ≠ 0 := by
    rw [hget, if_pos hy]
    exact one_ne_zero
  exact hpair.2 hne

/-- Hand lists with equal cache keys have equal draw counts: the key records
the unknown counts positionally and the cardinality of every overlap region
of the possible sets, which determines the possible-card structure up to an
injective relabeling of cards, and the draw count is invariant under sorting
and relabeling. -/
theorem trueCount_eq_of_key_eq {l₁ l₂ : List HandInformation}
    (hkey : getCacheKey l₁ = getCacheKey l₂) : trueCount l₁ = trueCount l₂ := by
  classical
  obtain ⟨hu, hatom⟩ := key_eq_destruct hkey
  have hk := sorted_length_of_key_eq hkey
  obtain ⟨φ, hφmap, hφinj⟩ := exists_atom_map (sortedHands l₁).length
    (atomOf (sortedHands l₁) (supersetOf (sortedHands l₁)))
    (atomOf (sortedHands l₂) (supersetOf (sortedHands l₂)))
    hatom
    (fun t₁ h₁ t₂ h₂ hne => atom_disjoint h₁ h₂ hne)
    (fun t₁ h₁ t₂ h₂ hne => atom_disjoint (hk ▸ h₁) (hk ▸ h₂) hne)
  obtain ⟨ψ, hψmap, hψinj⟩ := exists_atom_map (sortedHands l₁).length
    (atomOf (sortedHands l₂) (supersetOf (sortedHands l₂)))
    (atomOf (sortedHands l₁) (supersetOf (sortedHands l₁)))
    (fun t ht => (hatom t ht).symm)
    (fun t₁ h₁ t₂ h₂ hne => atom_disjoint (hk ▸ h₁) (hk ▸ h₂) hne)
    (fun t₁ h₁ t₂ h₂ hne => atom_disjoint h₁ h₂ hne)
  have hsub₁sup : ∀ (i : Nat) (h : i < (sortedHands l₁).length),
      (↑(((sortedHands l₁).get ⟨i, h⟩).possible_cards) : Set Card) ⊆
        ↑(supersetOf (sortedHands l₁)) := by
    intro i h x hx
    exact mem_supersetOf.mpr ⟨(sortedHands l₁).get ⟨i, h⟩, List.get_mem _ i h, hx⟩
  have hsub₂sup : ∀ (i : Nat) (h : i < (sortedHands l₂).length),
      (↑(((sortedHands l₂).get ⟨i, h⟩).possible_cards) : Set Card) ⊆
        ↑(supersetOf (sortedHands l₂)) := by
    intro i h x hx
    exact mem_supersetOf.mpr ⟨(sortedHands l₂).get ⟨i, h⟩, List.get_mem _ i h, hx⟩
  have hinjφ : Set.InjOn φ ↑(supersetOf (sortedHands l₁)) := by
    intro y₁ hy₁ y₂ hy₂ heq
    exact hφinj (tvec (sortedHands l₁) y₁) tvec_mem_bitLists
      (tvec (sortedHands l₁) y₂) tvec_mem_bitLists
      y₁ (mem_atom_tvec (Finset.mem_coe.mp hy₁))
      y₂ (mem_atom_tvec (Finset.mem_coe.mp hy₂)) heq
  have hinjψ : Set.InjOn ψ ↑(supersetOf (sortedHands l₂)) := by
    intro y₁ hy₁ y₂ hy₂ heq
    have h1 : tvec (sortedHands l₂) y₁ ∈ bitLists (sortedHands l₁).length := by
      rw [hk]
      exact tvec_mem_bitLists
    have h2 : tvec (sortedHands l₂) y₂ ∈ bitLists (sortedHands l₁).length := by
      rw [hk]
      exact tvec_mem_bitLists
    exact hψinj (tvec (sortedHands l₂) y₁) h1 (tvec (sortedHands l₂) y₂) h2
      y₁ (mem_atom_tvec (Finset.mem_coe.mp hy₁))
      y₂ (mem_atom_tvec (Finset.mem_coe.mp hy₂)) heq
  have himg : ∀ (i : Nat) (hi₁ : i < (sortedHands l₁).length)
      (hi₂ : i < (sortedHands l₂).length),
      (((sortedHands l₁).get ⟨i, hi₁⟩).possible_cards).image φ =
        ((sortedHands l₂).get ⟨i, hi₂⟩).possible_cards := by
    intro i hi₁ hi₂
    have hsubφ := atom_map_possible_subset hk hφmap i hi₁ hi₂
    have hψmap' : ∀ t ∈ bitLists (sortedHands l₂).length,
        ∀ y ∈ atomOf (sortedHands l₂) (supersetOf (sortedHands l₂)) t,
          ψ y ∈ atomOf (sortedHands l₁) (supersetOf (sortedHands l₁)) t := by
      intro t ht y hy
      rw [← hk] at ht
      exact hψmap t ht y hy
    have hsubψ := atom_map_possible_subset hk.symm hψmap' i hi₂ hi₁
    have hcφ : ((((sortedHands l₁).get ⟨i, hi₁⟩).possible_cards).image φ).card =
        (((sortedHands l₁).get ⟨i, hi₁⟩).possible_cards).card :=
      Finset.card_image_of_injOn (hinjφ.mono (hsub₁sup i hi₁))
    have hcψ : ((((sortedHands l₂).get ⟨i, hi₂⟩).possible_cards).image ψ).card =
        (((sortedHands l₂).get ⟨i, hi₂⟩).possible_cards).card :=
      Finset.card_image_of_injOn (hinjψ.mono (hsub₂sup i hi₂))
    have hle₂ : (((sortedHands l₂).get ⟨i, hi₂⟩).possible_cards).card ≤
        (((sortedHands l₁).get ⟨i, hi₁⟩).possible_cards).card := by
      rw [← hcψ]
      exact Finset.card_le_card hsubψ
    refine Finset.eq_of_subset_of_card_le hsubφ ?_
    rw [hcφ]
    exact hle₂
  have hperm₁ : trueCount l₁ = trueCount (sortedHands l₁) :=
    trueCount_perm' (List.perm_insertionSort handLE l₁).symm
  have hperm₂ : trueCount l₂ = trueCount (sortedHands l₂) :=
    trueCount_perm' (List.perm_insertionSort handLE l₂).symm
  have hrel : trueCount ((sortedHands l₁).map (fun h =>
      { h with possible_cards := h.possible_cards.image φ })) =
      trueCount (sortedHands l₁) :=
    trueCount_relabel (sortedHands l₁).length (sortedHands l₁) le_rfl φ hinjφ
  have hufor := forall₂_of_map_eq hu
  rw [List.forall₂_iff_get] at hufor
  have hcongr : List.Forall₂ (fun a b => a.possible_cards = b.possible_cards ∧
      a.num_unknown_cards = b.num_unknown_cards)
      ((sortedHands l₁).map (fun h => { h with possible_cards := h.possible_cards.image φ }))
      (sortedHands l₂) := by
    rw [List.forall₂_iff_get]
    refine ⟨by rw [List.length_map]; exact hk, ?_⟩
    intro i hi₁ hi₂
    have hi₁' : i < (sortedHands l₁).length := by
      rw [List.length_map] at hi₁
      exact hi₁
    have hget := get_map_pos
      (fun h => { h with possible_cards := h.possible_cards.image φ })
      (sortedHands l₁) i hi₁ hi₁'
    refine ⟨?_, ?_⟩
    · rw [hget]
      exact himg i hi₁' hi₂
    · rw [hget]
      exact hufor.2 i hi₁' hi₂
  rw [hperm₁, hperm₂, ← hrel]
  exact trueCount_congr hcongr

/-! ## `countPossibleStates` computes the draw count and keeps the cache sound -/

theorem cons_get_eraseIdx_perm {α : Type} :
    ∀ (l : List α) (i : Nat) (h : i < l.length),
      (l.get ⟨i, h⟩ :: l.eraseIdx i).Perm l := by
  intro l
  induction l with
  | nil => intro i h; simp at h
  | cons a t ih =>
    intro i h
    cases i with
    | zero => exact List.Perm.refl _
    | succ j =>
      have hj : j < t.length := Nat.lt_of_succ_lt_succ h
      exact (List.Perm.swap a (t.get ⟨j, hj⟩) (t.eraseIdx j)).trans ((ih j hj).cons a)

theorem countStatesLoop_sum
    (step : Cache → List HandInformation → Option (Nat × Cache))
    (others : List HandInformation)
    (f : Finset Card → Nat)
    (P : Cache → Prop)
    (hstep : ∀ cache, P cache → ∀ S : Finset Card,
      ∃ cache', step cache (others.map (fun info =>
        ⟨info.hand_size, info.known_cards, info.possible_cards \ S, []⟩)) =
        some (f S, cache') ∧ P cache') :
    ∀ (subsets : List (Finset Card)) (cache : Cache), P cache →
      ∃ cache', countStatesLoop step others cache subsets =
        some ((subsets.map f).sum, cache') ∧ P cache' := by
  intro subsets
  induction subsets with
  | nil => intro cache hP; exact ⟨cache, rfl, hP⟩
  | cons S rest ih =>
    intro cache hP
    obtain ⟨ch, hout, hPch⟩ := hstep cache hP S
    obtain ⟨ch', hout', hPch'⟩ := ih ch hPch
    refine ⟨ch', ?_, hPch'⟩
    simp only [countStatesLoop, hout, hout', List.map_cons, List.sum_cons]

theorem cacheSound_cons {cache : Cache} {l : List HandInformation}
    (hs : CacheSound cache) :
    CacheSound ((getCacheKey l, trueCount l) :: cache) := by
  intro k v hfind l' hkey
  by_cases hk : getCacheKey l = k
  · have hhead : cacheFind ((getCacheKey l, trueCount l) :: cache) k = some (trueCount l) := by
      unfold cacheFind
      rw [List.find?_cons_of_pos _ (by simpa using hk)]
      rfl
    rw [hhead] at hfind
    injection hfind with hv
    rw [← hv]
    exact trueCount_eq_of_key_eq (hkey.trans hk.symm)
  · have htail : cacheFind ((getCacheKey l, trueCount l) :: cache) k = cacheFind cache k := by
      unfold cacheFind
      rw [List.find?_cons_of_neg _ (by simpa using hk)]
    rw [htail] at hfind
    exact hs k v hfind l' hkey

theorem countPossibleStates_trueCount :
    ∀ (n : Nat) (l : List HandInformation), l.length ≤ n → ∀ cache : Cache,
      CacheSound cache → l ≠ [] →
      (∀ h ∈ l, h.constraint_list = []) → (∀ h ∈ l, 0 ≤ h.num_unknown_cards) →
      ∃ cache', countPossibleStates cache l = some (trueCount l, cache') ∧
        CacheSound cache' := by
  intro n
  induction n with
  | zero =>
    intro l hlen _ _ hne
    cases l with
    | nil => exact absurd rfl hne
    | cons a t => simp at hlen
  | succ n ih =>
    intro l hlen cache hsound hne hcf hwf
    have hc : ¬ ∃ h ∈ l, h.constraint_list ≠ [] :=
      fun ⟨h, hh, hcon⟩ => hcon (hcf h hh)
    unfold countPossibleStates
    rw [countPossibleStatesFuel, if_neg hc]
    by_cases hlen1 : l.length = 1
    · rw [if_pos hlen1]
      obtain ⟨a, rfl⟩ := List.length_eq_one.mp hlen1
      refine ⟨cache, ?_, hsound⟩
      have hcomb : comb a.possible_cards.card a.num_unknown_cards = trueCount [a] := by
        rw [trueCount_singleton]
        unfold comb
        rw [if_neg (not_lt.mpr (hwf a (List.mem_singleton_self a)))]
      simp [HandInformation.numPossibleHands, hcf a (List.mem_singleton_self a), hcomb]
    · rw [if_neg hlen1]
      cases hfind : cacheFind cache (getCacheKey l) with
      | some v =>
        refine ⟨cache, ?_, hsound⟩
        rw [hsound (getCacheKey l) v hfind l rfl]
      | none =>
        have hidxlt := minCombIdx_lt hne
        have hget : l.get? (minCombIdx l) = some (l.get ⟨minCombIdx l, hidxlt⟩) :=
          List.get?_eq_get hidxlt
        simp only [hget]
        have htmem : l.get ⟨minCombIdx l, hidxlt⟩ ∈ l := List.get_mem l _ hidxlt
        rw [if_neg (not_lt.mpr (hwf _ htmem))]
        have hlen2 : 2 ≤ l.length := by
          cases l with
          | nil => exact absurd rfl hne
          | cons a t => cases t with
            | nil => simp at hlen1
            | cons b u => simp
        have hothers : (l.eraseIdx (minCombIdx l)).length = l.length - 1 := by
          rw [List.length_eraseIdx]
          simp [hidxlt]
        have hsub : l.eraseIdx (minCombIdx l) ⊆ l := (List.eraseIdx_sublist l _).subset
        have hstep : ∀ (cache' : Cache), CacheSound cache' → ∀ (S : Finset Card),
            ∃ cache'', countPossibleStatesFuel l.length cache'
              ((l.eraseIdx (minCombIdx l)).map (fun info =>
                ⟨info.hand_size, info.known_cards, info.possible_cards \ S, []⟩)) =
              some (trueCount ((l.eraseIdx (minCombIdx l)).map (fun info =>
                ⟨info.hand_size, info.known_cards, info.possible_cards \ S, []⟩)), cache'') ∧
              CacheSound cache'' := by
          intro cache' hsound' S
          have hmaplen : ((l.eraseIdx (minCombIdx l)).map (fun info =>
              (⟨info.hand_size, info.known_cards, info.possible_cards \ S, []⟩ :
                HandInformation))).length = l.length - 1 := by
            rw [List.length_map, hothers]
          have hfuel : l.length = ((l.eraseIdx (minCombIdx l)).map (fun info =>
              (⟨info.hand_size, info.known_cards, info.possible_cards \ S, []⟩ :
                HandInformation))).length + 1 := by omega
          rw [hfuel]
          refine ih _ (by omega) cache' hsound' ?_ ?_ ?_
          · intro hnil
            rw [hnil] at hmaplen
            simp at hmaplen
            omega
          · intro h hh
            obtain ⟨info, _, rfl⟩ := List.mem_map.mp hh
            rfl
          · intro h hh
            obtain ⟨info, hinfo, rfl⟩ := List.mem_map.mp hh
            exact hwf info (hsub hinfo)
        obtain ⟨ch, hloop, hch⟩ := countStatesLoop_sum (countPossibleStatesFuel l.length)
          (l.eraseIdx (minCombIdx l))
          (fun S => trueCount ((l.eraseIdx (minCombIdx l)).map (fun info =>
            ⟨info.hand_size, info.known_cards, info.possible_cards \ S, []⟩)))
          CacheSound hstep (l.get ⟨minCombIdx l, hidxlt⟩).unknownChoices cache hsound
        simp only [hloop]
        have hperm : ((l.get ⟨minCombIdx l, hidxlt⟩) :: l.eraseIdx (minCombIdx l)).Perm l :=
          cons_get_eraseIdx_perm l (minCombIdx l) hidxlt
        have huc : (l.get ⟨minCombIdx l, hidxlt⟩).unknownChoices.toFinset =
            (l.get ⟨minCombIdx l, hidxlt⟩).possible_cards.powersetCard
              (l.get ⟨minCombIdx l, hidxlt⟩).num_unknown_cards.toNat := by
          ext S
          rw [List.mem_toFinset, mem_unknownChoices, Finset.mem_powersetCard]
        have htc : trueCount l =
            (((l.get ⟨minCombIdx l, hidxlt⟩).unknownChoices).map
              (fun S => trueCount ((l.eraseIdx (minCombIdx l)).map (fun info =>
                ⟨info.hand_size, info.known_cards, info.possible_cards \ S, []⟩)))).sum := by
          rw [← trueCount_perm' hperm, trueCount_cons,
            ← List.sum_toFinset _ (unknownChoices_nodup _), huc]
          refine Finset.sum_congr rfl fun S hS => ?_
          refine trueCount_congr ?_
          rw [List.forall₂_map_left_iff, List.forall₂_map_right_iff, List.forall₂_same]
          intro g hg
          exact ⟨rfl, rfl⟩
        refine ⟨(getCacheKey l, trueCount l) :: ch, ?_, cacheSound_cons hch⟩
        rw [htc]

/-! ## Consistent tuples, hand completions and combination enumeration -/

theorem forall₂_mem_right {α β : Type} {R : α → β → Prop} :
    ∀ {l₁ : List α} {l₂ : List β}, List.Forall₂ R l₁ l₂ → ∀ {b}, b ∈ l₂ → ∃ a ∈ l₁, R a b := by
  intro l₁ l₂ hf
  induction hf with
  | nil => intro b hb; cases hb
  | @cons a' b' t₁ t₂ hR htail ih =>
    intro b hb
    rcases List.mem_cons.mp hb with rfl | hb
    · exact ⟨a', List.mem_cons_self _ _, hR⟩
    · obtain ⟨a, ha, hRa⟩ := ih hb
      exact ⟨a, List.mem_cons_of_mem _ ha, hRa⟩

theorem forall₂_and_right {α β : Type} {R : α → β → Prop} {Φ : β → Prop} :
    ∀ {l₁ : List α} {l₂ : List β}, List.Forall₂ R l₁ l₂ → (∀ b ∈ l₂, Φ b) →
      List.Forall₂ (fun a b => R a b ∧ Φ b) l₁ l₂ := by
  intro l₁ l₂ hf
  induction hf with
  | nil => intro _; exact List.Forall₂.nil
  | @cons a' b' t₁ t₂ hR htail ih =>
    intro hΦ
    exact List.Forall₂.cons ⟨hR, hΦ b' (List.mem_cons_self _ _)⟩
      (ih (fun b hb => hΦ b (List.mem_cons_of_mem _ hb)))

theorem forall₂_exists {α β γ : Type} {T : β → γ → Prop} {R : α → γ → Prop} :
    ∀ {t : List α} {l : List β},
      List.Forall₂ (fun a b => ∃ c, T b c ∧ R a c) t l →
      ∃ cs : List γ, List.Forall₂ T l cs ∧ List.Forall₂ R t cs := by
  intro t l hf
  induction hf with
  | nil => exact ⟨[], List.Forall₂.nil, List.Forall₂.nil⟩
  | @cons a b t' l' hR htail ih =>
    obtain ⟨c, hT, hRc⟩ := hR
    obtain ⟨cs, hTs, hRs⟩ := ih
    exact ⟨c :: cs, List.Forall₂.cons hT hTs, List.Forall₂.cons hRc hRs⟩

theorem pairwise_of_forall₂ {α γ : Type} {R : α → γ → Prop} {S : α → α → Prop}
    {Q : γ → γ → Prop} :
    ∀ {t : List α} {c : List γ}, List.Forall₂ R t c → t.Pairwise S →
      (∀ a₁ c₁ a₂ c₂, R a₁ c₁ → R a₂ c₂ → S a₁ a₂ → Q c₁ c₂) →
      c.Pairwise Q := by
  intro t c hf
  induction hf with
  | nil => intro _ _; exact List.Pairwise.nil
  | @cons a b t' c' hR htail ih =>
    intro hp himp
    obtain ⟨hd, hp'⟩ := List.pairwise_cons.mp hp
    rw [List.pairwise_cons]
    refine ⟨?_, ih hp' himp⟩
    intro c₂ hc₂
    obtain ⟨a₂, ha₂, hR₂⟩ := forall₂_mem_right htail hc₂
    exact himp a b a₂ c₂ hR hR₂ (hd a₂ ha₂)

theorem forall₂_mem_zip {α β : Type} {R : α → β → Prop} :
    ∀ {l₁ : List α} {l₂ : List β} {p : α × β},
      List.Forall₂ R l₁ l₂ → p ∈ l₁.zip l₂ → R p.1 p.2 := by
  intro l₁ l₂ p hf
  induction hf with
  | nil =>
    intro hp
    rw [List.zip_nil_left] at hp
    exact absurd hp (List.not_mem_nil p)
  | @cons a b t₁ t₂ hR htail ih =>
    intro hp
    rw [List.zip_cons_cons] at hp
    rcases List.mem_cons.mp hp with rfl | hp
    · exact hR
    · exact ih hp

theorem forall₂_zip_map {α β γ : Type} {R : α → β → Prop} {Q : γ → β → Prop}
    (f : α × β → γ) :
    ∀ {t : List α} {hl : List β}, List.Forall₂ R t hl →
      (∀ a b, R a b → Q (f (a, b)) b) →
      List.Forall₂ Q ((t.zip hl).map f) hl := by
  intro t hl hf
  induction hf with
  | nil => intro _; exact List.Forall₂.nil
  | @cons a b t' hl' hR htail ih =>
    intro himp
    rw [List.zip_cons_cons, List.map_cons]
    exact List.Forall₂.cons (himp a b hR) (ih himp)

theorem pairwise_zip_map_subset {β : Type} (f : Finset Card × β → Finset Card)
    (hsub : ∀ p, f p ⊆ p.1) :
    ∀ {t : List (Finset Card)} {hl : List β}, t.Pairwise Disjoint →
      ((t.zip hl).map f).Pairwise Disjoint := by
  intro t
  induction t with
  | nil => intro hl _; rw [List.zip_nil_left]; exact List.Pairwise.nil
  | cons H t' ih =>
    intro hl hp
    cases hl with
    | nil => rw [List.zip_nil_right]; exact List.Pairwise.nil
    | cons h hs =>
      obtain ⟨hd, hp'⟩ := List.pairwise_cons.mp hp
      rw [List.zip_cons_cons, List.map_cons, List.pairwise_cons]
      refine ⟨?_, ih hp'⟩
      intro x hx
      obtain ⟨p, hpmem, rfl⟩ := List.mem_map.mp hx
      have hp1 : p.1 ∈ t' := (List.of_mem_zip hpmem).1
      exact Finset.disjoint_of_subset_left (hsub (H, h))
        (Finset.disjoint_of_subset_right (hsub p) (hd p.1 hp1))

theorem mem_consistentTuples :
    ∀ (l : List HandInformation) (t : List (Finset Card)),
      t ∈ consistentTuples l ↔
        (List.Forall₂ (fun H h => H ∈ handCompletions h) t l ∧ t.Pairwise Disjoint) := by
  intro l
  induction l with
  | nil =>
    intro t
    rw [consistentTuples]
    simp only [Finset.mem_singleton, List.forall₂_nil_right_iff]
    constructor
    · rintro rfl; exact ⟨rfl, List.Pairwise.nil⟩
    · rintro ⟨rfl, -⟩; rfl
  | cons h rest ih =>
    intro t
    rw [consistentTuples]
    simp only [Finset.mem_biUnion, Finset.mem_image, Finset.mem_filter]
    constructor
    · rintro ⟨H, hH, t', ⟨ht', hdisj⟩, rfl⟩
      obtain ⟨hf, hp⟩ := (ih t').mp ht'
      refine ⟨List.Forall₂.cons hH hf, ?_⟩
      rw [List.pairwise_cons]
      exact ⟨hdisj, hp⟩
    · rintro ⟨hf, hp⟩
      cases t with
      | nil => cases hf
      | cons H t' =>
        cases hf with
        | cons hH hf' =>
          obtain ⟨hd, hp'⟩ := List.pairwise_cons.mp hp
          exact ⟨H, hH, t', ⟨(ih t').mpr ⟨hf', hp'⟩, hd⟩, rfl⟩

theorem mem_handCompletions {h : HandInformation} {H : Finset Card}
    (hcf : h.constraint_list = []) :
    H ∈ handCompletions h ↔
      ∃ S, S ⊆ h.possible_cards ∧ S.card = h.num_unknown_cards.toNat ∧
        H = h.known_cards ∪ S := by
  unfold handCompletions
  rw [List.mem_toFinset]
  constructor
  · intro hH
    obtain ⟨g, hg, rfl⟩ := List.mem_map.mp hH
    obtain ⟨S, hsub, hcard, hmeets, rfl⟩ := mem_getPossibleHands.mp hg
    exact ⟨S, hsub, hcard, rfl⟩
  · rintro ⟨S, hsub, hcard, rfl⟩
    refine List.mem_map.mpr ⟨⟨h.hand_size, h.known_cards ∪ S, ∅, []⟩, ?_, rfl⟩
    exact mem_getPossibleHands.mpr ⟨S, hsub, hcard, by rw [hcf]; rfl, rfl⟩

theorem validSetAux_iff :
    ∀ (l : List HandInformation) (acc : Finset Card),
      validSetAux acc l = true ↔
        ((∀ h ∈ l, Disjoint acc h.known_cards) ∧
          l.Pairwise (fun a b => Disjoint a.known_cards b.known_cards)) := by
  intro l
  induction l with
  | nil => intro acc; simp [validSetAux]
  | cons h t ih =>
    intro acc
    rw [validSetAux]
    by_cases hcol : ∃ x ∈ h.known_cards, x ∈ acc
    · rw [if_pos hcol]
      constructor
      · intro hf; exact (Bool.false_ne_true hf).elim
      · rintro ⟨hd, -⟩
        obtain ⟨x, hx, hxacc⟩ := hcol
        exact absurd hx (Finset.disjoint_left.mp (hd h (List.mem_cons_self _ _)) hxacc)
    · rw [if_neg hcol, ih]
      constructor
      · rintro ⟨hall, hp⟩
        have hdh : Disjoint acc h.known_cards := by
          rw [Finset.disjoint_right]
          intro x hx hxacc
          exact hcol ⟨x, hx, hxacc⟩
        refine ⟨?_, ?_⟩
        · intro h' hh'
          rcases List.mem_cons.mp hh' with rfl | hh'
          · exact hdh
          · exact (hall h' hh').mono_left Finset.subset_union_left
        · rw [List.pairwise_cons]
          exact ⟨fun h' hh' => (hall h' hh').mono_left Finset.subset_union_right, hp⟩
      · rintro ⟨hall, hp⟩
        obtain ⟨hd, hp'⟩ := List.pairwise_cons.mp hp
        refine ⟨?_, hp'⟩
        intro h' hh'
        rw [Finset.disjoint_union_left]
        exact ⟨hall h' (List.mem_cons_of_mem _ hh'), hd h' hh'⟩

theorem validSet_iff {l : List HandInformation} :
    validSet l = true ↔ l.Pairwise (fun a b => Disjoint a.known_cards b.known_cards) := by
  unfold validSet
  rw [validSetAux_iff]
  constructor
  · rintro ⟨-, hp⟩; exact hp
  · intro hp
    exact ⟨fun h _ => Finset.disjoint_left.mpr
      (fun a ha => absurd ha (Finset.not_mem_empty a)), hp⟩

theorem mem_listProduct {α : Type} :
    ∀ {L : List (List α)} {c : List α},
      c ∈ listProduct L ↔ List.Forall₂ (fun x l => x ∈ l) c L := by
  intro L
  induction L with
  | nil =>
    intro c
    rw [listProduct]
    simp only [List.mem_singleton]
    constructor
    · rintro rfl; exact List.Forall₂.nil
    · intro hf; cases hf; rfl
  | cons l ls ih =>
    intro c
    rw [listProduct, List.mem_flatten]
    constructor
    · rintro ⟨block, hblock, hc⟩
      obtain ⟨x, hx, rfl⟩ := List.mem_map.mp hblock
      obtain ⟨c', hc', rfl⟩ := List.mem_map.mp hc
      exact List.Forall₂.cons hx (ih.mp hc')
    · intro hf
      cases hf with
      | @cons x _ c' _ hx hf' =>
        exact ⟨(listProduct ls).map (fun t => x :: t),
          List.mem_map.mpr ⟨x, hx, rfl⟩, List.mem_map.mpr ⟨c', ih.mpr hf', rfl⟩⟩

theorem foldl_tighten_spec (hand : HandInformation) :
    ∀ (l : List HandInformation) (nh : HandInformation),
      ((l.foldl (fun nh other => if other = hand then nh
          else { nh with possible_cards := nh.possible_cards \ other.known_cards })
          nh).hand_size = nh.hand_size ∧
        (l.foldl (fun nh other => if other = hand then nh
          else { nh with possible_cards := nh.possible_cards \ other.known_cards })
          nh).known_cards = nh.known_cards ∧
        (l.foldl (fun nh other => if other = hand then nh
          else { nh with possible_cards := nh.possible_cards \ other.known_cards })
          nh).constraint_list = nh.constraint_list) ∧
      ∀ x : Card, x ∈ (l.foldl (fun nh other => if other = hand then nh
          else { nh with possible_cards := nh.possible_cards \ other.known_cards })
          nh).possible_cards ↔
        (x ∈ nh.possible_cards ∧ ∀ o ∈ l, ¬ o = hand → x ∉ o.known_cards) := by
  intro l
  induction l with
  | nil => intro nh; exact ⟨⟨rfl, rfl, rfl⟩, fun x => by simp⟩
  | cons o t ih =>
    intro nh
    rw [List.foldl_cons]
    by_cases ho : o = hand
    · rw [if_pos ho]
      obtain ⟨hstru, hmem⟩ := ih nh
      refine ⟨hstru, ?_⟩
      intro x
      rw [hmem x]
      constructor
      · rintro ⟨hx, hall⟩
        refine ⟨hx, ?_⟩
        intro o' ho' hne
        rcases List.mem_cons.mp ho' with rfl | ho'
        · exact absurd ho hne
        · exact hall o' ho' hne
      · rintro ⟨hx, hall⟩
        exact ⟨hx, fun o' ho' hne => hall o' (List.mem_cons_of_mem _ ho') hne⟩
    · rw [if_neg ho]
      obtain ⟨hstru, hmem⟩ := ih { nh with possible_cards := nh.possible_cards \ o.known_cards }
      refine ⟨hstru, ?_⟩
      intro x
      rw [hmem x]
      constructor
      · rintro ⟨hx, hall⟩
        have hx' := Finset.mem_sdiff.mp hx
        refine ⟨hx'.1, ?_⟩
        intro o' ho' hne
        rcases List.mem_cons.mp ho' with rfl | ho'
        · exact hx'.2
        · exact hall o' ho' hne
      · rintro ⟨hx, hall⟩
        exact ⟨Finset.mem_sdiff.mpr ⟨hx, hall o (List.mem_cons_self _ _) ho⟩,
          fun o' ho' hne => hall o' (List.mem_cons_of_mem _ ho') hne⟩

/-! ## Bridging consistent tuples and draw counts for tight hand lists -/

theorem forall₂_and_left {α β : Type} {R : α → β → Prop} {Φ : α → Prop} :
    ∀ {l₁ : List α} {l₂ : List β}, List.Forall₂ R l₁ l₂ → (∀ a ∈ l₁, Φ a) →
      List.Forall₂ (fun a b => R a b ∧ Φ a) l₁ l₂ := by
  intro l₁ l₂ hf
  induction hf with
  | nil => intro _; exact List.Forall₂.nil
  | @cons a' b' t₁ t₂ hR htail ih =>
    intro hΦ
    exact List.Forall₂.cons ⟨hR, hΦ a' (List.mem_cons_self _ _)⟩
      (ih (fun a ha => hΦ a (List.mem_cons_of_mem _ ha)))

theorem pairwise_union_of_tight :
    ∀ {s : List (Finset Card)} {hl : List HandInformation},
      List.Forall₂ (fun S h => S ⊆ h.possible_cards) s hl →
      s.Pairwise Disjoint →
      hl.Pairwise (fun a b => Disjoint a.known_cards b.known_cards ∧
        Disjoint a.known_cards b.possible_cards ∧ Disjoint b.known_cards a.possible_cards) →
      ((s.zip hl).map (fun p => p.2.known_cards ∪ p.1)).Pairwise Disjoint := by
  intro s hl hf
  induction hf with
  | nil => intro _ _; exact List.Pairwise.nil
  | @cons S h s' hl' hR htail ih =>
    intro hp hq
    obtain ⟨hd, hp'⟩ := List.pairwise_cons.mp hp
    obtain ⟨hdq, hq'⟩ := List.pairwise_cons.mp hq
    rw [List.zip_cons_cons, List.map_cons, List.pairwise_cons]
    refine ⟨?_, ih hp' hq'⟩
    intro x hx
    obtain ⟨p, hpmem, rfl⟩ := List.mem_map.mp hx
    have hmem := List.of_mem_zip hpmem
    have hsubp : p.1 ⊆ p.2.possible_cards := forall₂_mem_zip htail hpmem
    have htq := hdq p.2 hmem.2
    rw [Finset.disjoint_union_left]
    constructor
    · rw [Finset.disjoint_union_right]
      exact ⟨htq.1, htq.2.1.mono_right hsubp⟩
    · rw [Finset.disjoint_union_right]
      exact ⟨(htq.2.2.mono_right hR).symm, hd p.1 hmem.1⟩

theorem addKnown_stripKnown :
    ∀ {t : List (Finset Card)} {hl : List HandInformation},
      List.Forall₂ (fun H h => h.known_cards ⊆ H) t hl →
      (((t.zip hl).map (fun p => p.1 \ p.2.known_cards)).zip hl).map
        (fun p => p.2.known_cards ∪ p.1) = t := by
  intro t hl hf
  induction hf with
  | nil => rfl
  | @cons H h t' hl' hR htail ih =>
    rw [List.zip_cons_cons, List.map_cons, List.zip_cons_cons, List.map_cons, ih]
    congr 1
    exact Finset.union_sdiff_of_subset hR

theorem stripKnown_addKnown :
    ∀ {s : List (Finset Card)} {hl : List HandInformation},
      List.Forall₂ (fun S h => Disjoint h.known_cards S) s hl →
      (((s.zip hl).map (fun p => p.2.known_cards ∪ p.1)).zip hl).map
        (fun p => p.1 \ p.2.known_cards) = s := by
  intro s hl hf
  induction hf with
  | nil => rfl
  | @cons S h s' hl' hR htail ih =>
    rw [List.zip_cons_cons, List.map_cons, List.zip_cons_cons, List.map_cons, ih]
    congr 1
    exact Finset.union_sdiff_cancel_left hR

/-- For a tight hand list (constraint-free, well-formed, mutually
known-avoiding hands), the globally consistent assignments correspond
bijectively to the simultaneous draws: strip each component of its hand's
known cards. -/
theorem card_consistentTuples {hl : List HandInformation} (htl : TightList hl) :
    (consistentTuples hl).card = trueCount hl := by
  classical
  obtain ⟨hone, hpair⟩ := htl
  unfold trueCount
  refine Finset.card_bij' (fun t _ => (t.zip hl).map (fun p => p.1 \ p.2.known_cards))
    (fun s _ => (s.zip hl).map (fun p => p.2.known_cards ∪ p.1)) ?_ ?_ ?_ ?_
  · intro t ht
    obtain ⟨hf, hp⟩ := (mem_consistentTuples hl t).mp ht
    rw [mem_fillings']
    constructor
    · refine forall₂_zip_map _ (forall₂_and_right hf hone) ?_
      rintro H h ⟨hHc, hcf, hdk⟩
      obtain ⟨S, hsub, hcard, rfl⟩ := (mem_handCompletions hcf).mp hHc
      rw [Finset.union_sdiff_cancel_left (hdk.mono_right hsub)]
      exact ⟨hsub, hcard⟩
    · exact pairwise_zip_map_subset _ (fun p => Finset.sdiff_subset) hp
  · intro s hs
    obtain ⟨hf, hp⟩ := mem_fillings'.mp hs
    rw [mem_consistentTuples]
    constructor
    · refine forall₂_zip_map _ (forall₂_and_right hf hone) ?_
      rintro S h ⟨⟨hsub, hcard⟩, hcf, hdk⟩
      exact (mem_handCompletions hcf).mpr ⟨S, hsub, hcard, rfl⟩
    · exact pairwise_union_of_tight (hf.imp (fun a b hab => hab.1)) hp hpair
  · intro t ht
    obtain ⟨hf, hp⟩ := (mem_consistentTuples hl t).mp ht
    refine addKnown_stripKnown ((forall₂_and_right hf hone).imp ?_)
    rintro H h ⟨hHc, hcf, hdk⟩
    obtain ⟨S, hsub, hcard, rfl⟩ := (mem_handCompletions hcf).mp hHc
    exact Finset.subset_union_left
  · intro s hs
    obtain ⟨hf, hp⟩ := mem_fillings'.mp hs
    refine stripKnown_addKnown ((forall₂_and_right hf hone).imp ?_)
    rintro S h ⟨⟨hsub, hcard⟩, hcf, hdk⟩
    exact hdk.mono_right hsub

theorem tightList_map_sub {hl : List HandInformation} (htl : TightList hl)
    (A : Finset Card) :
    TightList (hl.map (fun h => { h with possible_cards := h.possible_cards \ A })) := by
  obtain ⟨hone, hpair⟩ := htl
  constructor
  · intro h' hh'
    obtain ⟨h, hh, rfl⟩ := List.mem_map.mp hh'
    exact ⟨(hone h hh).1, ((hone h hh).2).mono_right Finset.sdiff_subset⟩
  · refine List.Pairwise.map _ ?_ hpair
    rintro a b ⟨h1, h2, h3⟩
    exact ⟨h1, h2.mono_right Finset.sdiff_subset, h3.mono_right Finset.sdiff_subset⟩

/-- Filtering the consistent tuples of a tight list by disjointness from a
card set whose cards avoid every hand's known cards is the same as removing
those cards from every hand's possibilities. -/
theorem consistentTuples_filter_disjoint {hl : List HandInformation} {A : Finset Card}
    (hone : ∀ h ∈ hl, h.constraint_list = [] ∧ Disjoint h.known_cards h.possible_cards)
    (hnc : ∀ h ∈ hl, Disjoint A h.known_cards) :
    (consistentTuples hl).filter (fun t => ∀ H' ∈ t, Disjoint A H') =
      consistentTuples (hl.map (fun h =>
        { h with possible_cards := h.possible_cards \ A })) := by
  ext t
  rw [Finset.mem_filter, mem_consistentTuples, mem_consistentTuples,
    List.forall₂_map_right_iff]
  constructor
  · rintro ⟨⟨hf, hp⟩, hall⟩
    refine ⟨?_, hp⟩
    refine (forall₂_and_right (forall₂_and_left hf hall) hone).imp ?_
    rintro H' h ⟨⟨hHc, hdisj⟩, hcf, hdk⟩
    have hcf' : ({ h with possible_cards := h.possible_cards \ A } :
        HandInformation).constraint_list = [] := hcf
    rw [mem_handCompletions hcf']
    obtain ⟨S, hsub, hcard, rfl⟩ := (mem_handCompletions hcf).mp hHc
    refine ⟨S, ?_, hcard, rfl⟩
    intro x hx
    exact Finset.mem_sdiff.mpr ⟨hsub hx,
      Finset.disjoint_right.mp hdisj (Finset.mem_union_right _ hx)⟩
  · rintro ⟨hf, hp⟩
    have hf' := forall₂_and_right hf (fun h hh =>
      (⟨hone h hh, hnc h hh⟩ :
        (h.constraint_list = [] ∧ Disjoint h.known_cards h.possible_cards) ∧
          Disjoint A h.known_cards))
    have himp : List.Forall₂ (fun H' h => (H' ∈ handCompletions h) ∧ Disjoint A H') t hl := by
      refine hf'.imp ?_
      rintro H' h ⟨hHc, ⟨hcf, hdk⟩, hAk⟩
      have hcf' : ({ h with possible_cards := h.possible_cards \ A } :
          HandInformation).constraint_list = [] := hcf
      obtain ⟨S, hsub, hcard, rfl⟩ := (mem_handCompletions hcf').mp hHc
      have hsubP : S ⊆ h.possible_cards := fun x hx => (Finset.mem_sdiff.mp (hsub hx)).1
      have hSA : Disjoint A S := by
        rw [Finset.disjoint_right]
        intro x hx
        exact (Finset.mem_sdiff.mp (hsub hx)).2
      constructor
      · exact (mem_handCompletions hcf).mpr ⟨S, hsubP, hcard, rfl⟩
      · rw [Finset.disjoint_union_right]
        exact ⟨hAk, hSA⟩
    refine ⟨⟨himp.imp (fun a b hab => hab.1), hp⟩, ?_⟩
    intro H' hH'
    obtain ⟨h, hh, hR⟩ := forall₂_mem_left himp hH'
    exact hR.2

/-- When the subtracted card set collides with some hand's known cards, no
consistent tuple of the list survives the disjointness filter. -/
theorem consistentTuples_filter_collide {hl : List HandInformation} {A : Finset Card}
    (hone : ∀ h ∈ hl, h.constraint_list = [] ∧ Disjoint h.known_cards h.possible_cards)
    (hcol : ∃ h ∈ hl, ∃ x ∈ A, x ∈ h.known_cards) :
    (consistentTuples hl).filter (fun t => ∀ H' ∈ t, Disjoint A H') = ∅ := by
  ext t
  simp only [Finset.mem_filter, Finset.not_mem_empty, iff_false, not_and]
  intro ht hall
  obtain ⟨h, hh, x, hxA, hxk⟩ := hcol
  obtain ⟨hf, hp⟩ := (mem_consistentTuples hl t).mp ht
  obtain ⟨H', hH', hHc⟩ := forall₂_mem_right hf hh
  obtain ⟨S, hsub, hcard, rfl⟩ := (mem_handCompletions (hone h hh).1).mp hHc
  exact absurd (Finset.mem_union_left _ hxk)
    (Finset.disjoint_left.mp (hall _ hH') hxA)

/-! ## `satisfyAllConstraints` partitions the consistent tuples -/

theorem forall₂_swap {α β : Type} {R : α → β → Prop} :
    ∀ {l₁ : List α} {l₂ : List β}, List.Forall₂ R l₁ l₂ →
      List.Forall₂ (fun b a => R a b) l₂ l₁ := by
  intro l₁ l₂ h
  induction h with
  | nil => exact List.Forall₂.nil
  | @cons a b t₁ t₂ hR htail ih => exact List.Forall₂.cons hR ih

theorem forall₂_comp {α β γ : Type} {R : α → β → Prop} {T : β → γ → Prop} :
    ∀ {l₁ : List α} {l₂ : List β} {l₃ : List γ},
      List.Forall₂ R l₁ l₂ → List.Forall₂ T l₂ l₃ →
      List.Forall₂ (fun a c => ∃ b, R a b ∧ T b c) l₁ l₃ := by
  intro l₁ l₂ l₃ h₁
  induction h₁ generalizing l₃ with
  | nil =>
    intro h₂
    cases h₂
    exact List.Forall₂.nil
  | @cons a b t₁ t₂ hR htail ih =>
    intro h₂
    cases h₂ with
    | @cons _ c _ l₃' hT htail₂ => exact List.Forall₂.cons ⟨b, hR, hT⟩ (ih htail₂)

theorem pairwise_get_ne {t : List (Finset Card)} (hp : t.Pairwise Disjoint)
    {i j : Nat} (hi : i < t.length) (hj : j < t.length) (hne : i ≠ j) :
    Disjoint (t.get ⟨i, hi⟩) (t.get ⟨j, hj⟩) := by
  rcases Nat.lt_or_ge i j with h | h
  · exact List.pairwise_iff_get.mp hp ⟨i, hi⟩ ⟨j, hj⟩ h
  · have hlt : j < i := lt_of_le_of_ne h (fun e => hne e.symm)
    exact (List.pairwise_iff_get.mp hp ⟨j, hj⟩ ⟨i, hi⟩ hlt).symm

theorem gph_rev {h g : HandInformation} :
    g ∈ HandInformation.getPossibleHands
      ⟨h.hand_size, h.known_cards, h.possible_cards, h.constraint_list.reverse⟩ ↔
      g ∈ h.getPossibleHands := by
  have heta : (⟨h.hand_size, h.known_cards, h.possible_cards, h.constraint_list⟩ :
      HandInformation) = h := rfl
  rw [mem_getPossibleHands_congr_constraints
    (fun X => @meetsConstraints_reverse X h.constraint_list), heta]

theorem satisfyConstraints_resolved {h : HandInformation} (hwf : WFHand h) :
    ∀ o ∈ h.satisfyConstraints, ResolvedFrom h.hand_size h.known_cards h.possible_cards o :=
  fun o ho => (satisfyRev_spec h.hand_size h.constraint_list.reverse h.known_cards
    h.possible_cards hwf.1 hwf.2).1 o ho

theorem handCompletions_sc_union {h : HandInformation} (hwf : WFHand h) (H : Finset Card) :
    H ∈ handCompletions h ↔ ∃ o ∈ h.satisfyConstraints, H ∈ handCompletions o := by
  obtain ⟨A, B, C⟩ := satisfyRev_spec h.hand_size h.constraint_list.reverse h.known_cards
    h.possible_cards hwf.1 hwf.2
  constructor
  · intro hH
    simp only [handCompletions, List.mem_toFinset, List.mem_map] at hH
    obtain ⟨g, hg, rfl⟩ := hH
    obtain ⟨o, ho, hgo⟩ := (C g).mpr (gph_rev.mpr hg)
    refine ⟨o, ho, ?_⟩
    simp only [handCompletions, List.mem_toFinset, List.mem_map]
    exact ⟨g, hgo, rfl⟩
  · rintro ⟨o, ho, hH⟩
    simp only [handCompletions, List.mem_toFinset, List.mem_map] at hH
    obtain ⟨g, hg, rfl⟩ := hH
    have hgh : g ∈ h.getPossibleHands := gph_rev.mp ((C g).mp ⟨o, ho, hg⟩)
    simp only [handCompletions, List.mem_toFinset, List.mem_map]
    exact ⟨g, hgh, rfl⟩

theorem handCompletions_sc_pairwise {h : HandInformation} (hwf : WFHand h) :
    h.satisfyConstraints.Pairwise (fun o₁ o₂ =>
      Disjoint (handCompletions o₁) (handCompletions o₂)) := by
  obtain ⟨A, B, C⟩ := satisfyRev_spec h.hand_size h.constraint_list.reverse h.known_cards
    h.possible_cards hwf.1 hwf.2
  refine List.Pairwise.imp_of_mem ?_ B
  intro o₁ o₂ h₁ h₂ hdis
  rw [Finset.disjoint_left]
  intro H hH1 hH2
  simp only [handCompletions, List.mem_toFinset, List.mem_map] at hH1 hH2
  obtain ⟨g₁, hg₁, hk₁⟩ := hH1
  obtain ⟨g₂, hg₂, hk₂⟩ := hH2
  obtain ⟨S₁, hs₁, hc₁, hm₁, rfl⟩ := mem_getPossibleHands.mp hg₁
  obtain ⟨S₂, hs₂, hc₂, hm₂, rfl⟩ := mem_getPossibleHands.mp hg₂
  have hsz₁ := (A o₁ h₁).1
  have hsz₂ := (A o₂ h₂).1
  have hgeq : (⟨o₁.hand_size, o₁.known_cards ∪ S₁, ∅, []⟩ : HandInformation) =
      ⟨o₂.hand_size, o₂.known_cards ∪ S₂, ∅, []⟩ := by
    have h1 : o₁.hand_size = o₂.hand_size := hsz₁.trans hsz₂.symm
    have h2 : o₁.known_cards ∪ S₁ = o₂.known_cards ∪ S₂ := hk₁.trans hk₂.symm
    rw [h1, h2]
  rw [← hgeq] at hg₂
  exact hdis _ hg₁ hg₂

theorem cT_cons_disjoint_of_tail {x : HandInformation} {c₁ c₂ : List HandInformation}
    (hd : Disjoint (consistentTuples c₁) (consistentTuples c₂)) :
    Disjoint (consistentTuples (x :: c₁)) (consistentTuples (x :: c₂)) := by
  rw [Finset.disjoint_left]
  intro t h₁ h₂
  obtain ⟨hf₁, hp₁⟩ := (mem_consistentTuples _ t).mp h₁
  obtain ⟨hf₂, hp₂⟩ := (mem_consistentTuples _ t).mp h₂
  cases t with
  | nil => cases hf₁
  | cons H t' =>
    cases hf₁ with
    | cons hH₁ hf₁' =>
      cases hf₂ with
      | cons hH₂ hf₂' =>
        have ht₁ : t' ∈ consistentTuples c₁ :=
          (mem_consistentTuples _ t').mpr ⟨hf₁', (List.pairwise_cons.mp hp₁).2⟩
        have ht₂ : t' ∈ consistentTuples c₂ :=
          (mem_consistentTuples _ t').mpr ⟨hf₂', (List.pairwise_cons.mp hp₂).2⟩
        exact Finset.disjoint_left.mp hd ht₁ ht₂

theorem cT_cons_disjoint_of_head {x₁ x₂ : HandInformation} {c₁ c₂ : List HandInformation}
    (hd : Disjoint (handCompletions x₁) (handCompletions x₂)) :
    Disjoint (consistentTuples (x₁ :: c₁)) (consistentTuples (x₂ :: c₂)) := by
  rw [Finset.disjoint_left]
  intro t h₁ h₂
  obtain ⟨hf₁, hp₁⟩ := (mem_consistentTuples _ t).mp h₁
  obtain ⟨hf₂, hp₂⟩ := (mem_consistentTuples _ t).mp h₂
  cases t with
  | nil => cases hf₁
  | cons H t' =>
    cases hf₁ with
    | cons hH₁ hf₁' =>
      cases hf₂ with
      | cons hH₂ hf₂' => exact Finset.disjoint_left.mp hd hH₁ hH₂

theorem listProduct_cT_pairwise :
    ∀ (L : List (List HandInformation)),
      (∀ l ∈ L, l.Pairwise (fun o₁ o₂ =>
        Disjoint (handCompletions o₁) (handCompletions o₂))) →
      (listProduct L).Pairwise (fun c₁ c₂ =>
        Disjoint (consistentTuples c₁) (consistentTuples c₂)) := by
  intro L
  induction L with
  | nil =>
    intro _
    rw [listProduct]
    exact List.pairwise_singleton _ _
  | cons l ls ih =>
    intro hL
    rw [listProduct, List.pairwise_flatten]
    constructor
    · intro block hblock
      obtain ⟨x, hx, rfl⟩ := List.mem_map.mp hblock
      refine List.Pairwise.map _ ?_ (ih (fun l' hl' => hL l' (List.mem_cons_of_mem _ hl')))
      intro c₁ c₂ hd
      exact cT_cons_disjoint_of_tail hd
    · refine List.Pairwise.map _ ?_ (hL l (List.mem_cons_self _ _))
      intro x₁ x₂ hd e₁ he₁ e₂ he₂
      obtain ⟨c₁, hc₁, rfl⟩ := List.mem_map.mp he₁
      obtain ⟨c₂, hc₂, rfl⟩ := List.mem_map.mp he₂
      exact cT_cons_disjoint_of_head hd

theorem cT_cover :
    ∀ {hands : List HandInformation} {L : List (List HandInformation)},
      List.Forall₂ (fun h l => ∀ H : Finset Card,
        H ∈ handCompletions h ↔ ∃ o ∈ l, H ∈ handCompletions o) hands L →
      ∀ t, (t ∈ consistentTuples hands ↔ ∃ c ∈ listProduct L, t ∈ consistentTuples c) := by
  intro hands L hfl t
  constructor
  · intro ht
    obtain ⟨hf, hp⟩ := (mem_consistentTuples _ t).mp ht
    have hcomp := forall₂_comp hf hfl
    have hex : List.Forall₂ (fun (H : Finset Card) (l : List HandInformation) =>
        ∃ o, o ∈ l ∧ H ∈ handCompletions o) t L := by
      refine hcomp.imp ?_
      rintro H l ⟨h, hHc, hU⟩
      obtain ⟨o, hol, hHo⟩ := (hU H).mp hHc
      exact ⟨o, hol, hHo⟩
    obtain ⟨cs, hTs, hRs⟩ := forall₂_exists hex
    refine ⟨cs, mem_listProduct.mpr (forall₂_swap hTs), ?_⟩
    exact (mem_consistentTuples _ t).mpr ⟨hRs, hp⟩
  · rintro ⟨c, hcL, htc⟩
    obtain ⟨hf, hp⟩ := (mem_consistentTuples _ t).mp htc
    have hcL' : List.Forall₂ (fun (o : HandInformation) (l : List HandInformation) => o ∈ l)
        c L := mem_listProduct.mp hcL
    have hcomp := forall₂_comp hf hcL'
    have hcomp2 := forall₂_comp hcomp (forall₂_swap hfl)
    refine (mem_consistentTuples _ t).mpr ⟨?_, hp⟩
    refine hcomp2.imp ?_
    rintro H h ⟨l, ⟨o, hHo, hol⟩, hU⟩
    exact (hU H).mpr ⟨o, hol, hHo⟩

/-- Tightening a combination of resolved hands does not change its set of
consistent tuples: the cards removed from a hand's possibilities are other
hands' known cards, which a pairwise-disjoint tuple can never use anyway. -/
theorem cT_tighten {c : List HandInformation}
    (hres : ∀ o ∈ c, o.constraint_list = [] ∧ Disjoint o.known_cards o.possible_cards) :
    consistentTuples (tighten c) = consistentTuples c := by
  have htexp : tighten c = c.map (fun hand => c.foldl (fun nh other =>
      if other = hand then nh
      else { nh with possible_cards := nh.possible_cards \ other.known_cards }) hand) := rfl
  ext t
  rw [mem_consistentTuples, mem_consistentTuples, htexp, List.forall₂_map_right_iff]
  constructor
  · rintro ⟨hf, hp⟩
    refine ⟨?_, hp⟩
    refine (forall₂_and_right hf hres).imp ?_
    rintro H h ⟨hHc, hcf, hdk⟩
    obtain ⟨⟨hsz, hkn, hcl⟩, hpos⟩ := foldl_tighten_spec h c h
    have hcfF : (c.foldl (fun nh other => if other = h then nh
        else { nh with possible_cards := nh.possible_cards \ other.known_cards })
        h).constraint_list = [] := hcl.trans hcf
    obtain ⟨S, hsub, hcard, hHeq⟩ := (mem_handCompletions hcfF).mp hHc
    refine (mem_handCompletions hcf).mpr ⟨S, ?_, ?_, ?_⟩
    · intro x hx
      exact ((hpos x).mp (hsub hx)).1
    · rw [hcard]
      unfold HandInformation.num_unknown_cards
      rw [hsz, hkn]
    · rw [hHeq, hkn]
  · rintro ⟨hf, hp⟩
    refine ⟨?_, hp⟩
    rw [List.forall₂_iff_get] at hf
    rw [List.forall₂_iff_get]
    refine ⟨hf.1, ?_⟩
    intro i h₁ h₂
    have hmi : c.get ⟨i, h₂⟩ ∈ c := List.get_mem c i h₂
    obtain ⟨S, hsub, hcard, hHeq⟩ :=
      (mem_handCompletions (hres _ hmi).1).mp (hf.2 i h₁ h₂)
    obtain ⟨⟨hsz, hkn, hcl⟩, hpos⟩ := foldl_tighten_spec (c.get ⟨i, h₂⟩) c (c.get ⟨i, h₂⟩)
    have hcfF : (c.foldl (fun nh other => if other = c.get ⟨i, h₂⟩ then nh
        else { nh with possible_cards := nh.possible_cards \ other.known_cards })
        (c.get ⟨i, h₂⟩)).constraint_list = [] := hcl.trans (hres _ hmi).1
    refine (mem_handCompletions hcfF).mpr ⟨S, ?_, ?_, ?_⟩
    · intro x hx
      refine (hpos x).mpr ⟨hsub hx, ?_⟩
      intro o ho hne
      obtain ⟨⟨j, hj⟩, rfl⟩ := List.mem_iff_get.mp ho
      have hji : j ≠ i := by
        intro hji
        subst hji
        exact hne rfl
      have hj' : j < t.length := by
        rw [hf.1]
        exact hj
      obtain ⟨S', hsub', hcard', hHeq'⟩ :=
        (mem_handCompletions (hres _ (List.get_mem c j hj)).1).mp (hf.2 j hj' hj)
      intro hxk
      have hxHj : x ∈ t.get ⟨j, hj'⟩ := by
        rw [hHeq']
        exact Finset.mem_union_left _ hxk
      have hxHi : x ∈ t.get ⟨i, h₁⟩ := by
        rw [hHeq]
        exact Finset.mem_union_right _ hx
      exact absurd hxHj (Finset.disjoint_left.mp
        (pairwise_get_ne hp h₁ hj' (fun e => hji e.symm)) hxHi)
    · rw [hcard]
      unfold HandInformation.num_unknown_cards
      rw [hsz, hkn]
    · rw [hHeq, hkn]

theorem mem_sac {others : List HandInformation} {hl : List HandInformation} :
    hl ∈ satisfyAllConstraints others ↔
      ∃ c ∈ listProduct (others.map (fun h => h.satisfyConstraints)),
        validSet c = true ∧ hl = tighten c := by
  unfold satisfyAllConstraints
  rw [List.mem_filterMap]
  constructor
  · rintro ⟨c, hc, hopt⟩
    by_cases hv : validSet c = true
    · rw [if_pos hv] at hopt
      injection hopt with h
      exact ⟨c, hc, hv, h.symm⟩
    · rw [if_neg hv] at hopt
      cases hopt
  · rintro ⟨c, hc, hv, rfl⟩
    exact ⟨c, hc, by rw [if_pos hv]⟩

theorem combo_resolved {others : List HandInformation} (hwf : ∀ h ∈ others, WFHand h)
    {c : List HandInformation}
    (hc : c ∈ listProduct (others.map (fun h => h.satisfyConstraints))) :
    (∀ o ∈ c, o.constraint_list = [] ∧ Disjoint o.known_cards o.possible_cards ∧
      o.known_cards.card ≤ o.hand_size) ∧ c.length = others.length := by
  have hcf₂ : List.Forall₂ (fun o h => o ∈ h.satisfyConstraints) c others := by
    have h0 := mem_listProduct.mp hc
    rwa [List.forall₂_map_right_iff] at h0
  constructor
  · intro o ho
    obtain ⟨h, hh, hsc⟩ := forall₂_mem_left hcf₂ ho
    have hr := satisfyConstraints_resolved (hwf h hh) o hsc
    refine ⟨hr.2.1, hr.2.2.1, ?_⟩
    rw [hr.1]
    exact hr.2.2.2.1
  · exact hcf₂.length_eq

theorem sac_parts_spec {others : List HandInformation} (hwf : ∀ h ∈ others, WFHand h) :
    ∀ hl ∈ satisfyAllConstraints others,
      TightList hl ∧ hl.length = others.length ∧
        (∀ g ∈ hl, 0 ≤ g.num_unknown_cards) := by
  intro hl hmem
  obtain ⟨c, hcL, hv, rfl⟩ := mem_sac.mp hmem
  obtain ⟨hres, hclen⟩ := combo_resolved hwf hcL
  have htexp : tighten c = c.map (fun hand => c.foldl (fun nh other =>
      if other = hand then nh
      else { nh with possible_cards := nh.possible_cards \ other.known_cards }) hand) := rfl
  refine ⟨⟨?_, ?_⟩, ?_, ?_⟩
  · intro h' hh'
    rw [htexp] at hh'
    obtain ⟨h, hh, rfl⟩ := List.mem_map.mp hh'
    obtain ⟨⟨hsz, hkn, hcl⟩, hpos⟩ := foldl_tighten_spec h c h
    refine ⟨hcl.trans (hres h hh).1, ?_⟩
    rw [Finset.disjoint_left]
    intro x hxk hxp
    rw [hkn] at hxk
    exact absurd ((hpos x).mp hxp).1 (Finset.disjoint_left.mp (hres h hh).2.1 hxk)
  · rw [htexp]
    have hv'' : c.Pairwise (fun a b => Disjoint a.known_cards b.known_cards ∧
        a ∈ c ∧ b ∈ c) :=
      List.Pairwise.imp_of_mem (fun ha hb r => ⟨r, ha, hb⟩) (validSet_iff.mp hv)
    refine List.Pairwise.map _ ?_ hv''
    rintro a b ⟨hdk, ha, hb⟩
    obtain ⟨⟨hsza, hkna, hcla⟩, hposa⟩ := foldl_tighten_spec a c a
    obtain ⟨⟨hszb, hknb, hclb⟩, hposb⟩ := foldl_tighten_spec b c b
    refine ⟨?_, ?_, ?_⟩
    · rw [hkna, hknb]
      exact hdk
    · rw [hkna, Finset.disjoint_left]
      intro x hxa hxb
      by_cases hab : a = b
      · rw [← hab] at hdk
        have hKe : a.known_cards = ⊥ := disjoint_self.mp hdk
        rw [hKe] at hxa
        exact absurd hxa (Finset.not_mem_empty x)
      · exact ((hposb x).mp hxb).2 a ha hab hxa
    · rw [hknb, Finset.disjoint_left]
      intro x hxb hxa
      by_cases hab : a = b
      · rw [hab] at hdk
        have hKe : b.known_cards = ⊥ := disjoint_self.mp hdk
        rw [hKe] at hxb
        exact absurd hxb (Finset.not_mem_empty x)
      · exact ((hposa x).mp hxa).2 b hb (fun e => hab e.symm) hxb
  · rw [htexp, List.length_map, hclen]
  · intro g hg
    rw [htexp] at hg
    obtain ⟨h, hh, rfl⟩ := List.mem_map.mp hg
    obtain ⟨⟨hsz, hkn, hcl⟩, hpos⟩ := foldl_tighten_spec h c h
    unfold HandInformation.num_unknown_cards
    rw [hsz, hkn]
    have := (hres h hh).2.2
    omega

theorem sac_cover {others : List HandInformation} (hwf : ∀ h ∈ others, WFHand h)
    (t : List (Finset Card)) :
    t ∈ consistentTuples others ↔
      ∃ hl ∈ satisfyAllConstraints others, t ∈ consistentTuples hl := by
  have hfl : List.Forall₂ (fun h l => ∀ H : Finset Card,
      H ∈ handCompletions h ↔ ∃ o ∈ l, H ∈ handCompletions o) others
      (others.map (fun h => h.satisfyConstraints)) := by
    rw [List.forall₂_map_right_iff, List.forall₂_same]
    intro h hh
    exact handCompletions_sc_union (hwf h hh)
  rw [cT_cover hfl t]
  constructor
  · rintro ⟨c, hcL, htc⟩
    obtain ⟨hres, hclen⟩ := combo_resolved hwf hcL
    have hres' : ∀ o ∈ c, o.constraint_list = [] ∧ Disjoint o.known_cards o.possible_cards :=
      fun o ho => ⟨(hres o ho).1, (hres o ho).2.1⟩
    have hv : validSet c = true := by
      rw [validSet_iff]
      obtain ⟨hf, hp⟩ := (mem_consistentTuples c t).mp htc
      refine pairwise_of_forall₂ (forall₂_and_right hf hres') hp ?_
      rintro H₁ o₁ H₂ o₂ ⟨hR₁, hcf₁, hd₁⟩ ⟨hR₂, hcf₂, hd₂⟩ hd12
      obtain ⟨S₁, hs₁, hc₁, rfl⟩ := (mem_handCompletions hcf₁).mp hR₁
      obtain ⟨S₂, hs₂, hc₂, rfl⟩ := (mem_handCompletions hcf₂).mp hR₂
      exact (hd12.mono_left Finset.subset_union_left).mono_right Finset.subset_union_left
    refine ⟨tighten c, mem_sac.mpr ⟨c, hcL, hv, rfl⟩, ?_⟩
    rw [cT_tighten hres']
    exact htc
  · rintro ⟨hl, hmem, hthl⟩
    obtain ⟨c, hcL, hv, rfl⟩ := mem_sac.mp hmem
    obtain ⟨hres, -⟩ := combo_resolved hwf hcL
    rw [cT_tighten (fun o ho => ⟨(hres o ho).1, (hres o ho).2.1⟩)] at hthl
    exact ⟨c, hcL, hthl⟩

theorem sac_cT_pairwise {others : List HandInformation} (hwf : ∀ h ∈ others, WFHand h) :
    (satisfyAllConstraints others).Pairwise (fun hl₁ hl₂ =>
      Disjoint (consistentTuples hl₁) (consistentTuples hl₂)) := by
  unfold satisfyAllConstraints
  have hper : ∀ l ∈ others.map (fun h => h.satisfyConstraints),
      l.Pairwise (fun o₁ o₂ => Disjoint (handCompletions o₁) (handCompletions o₂)) := by
    intro l hl
    obtain ⟨h, hh, rfl⟩ := List.mem_map.mp hl
    exact handCompletions_sc_pairwise (hwf h hh)
  have hlp' : (listProduct (others.map (fun h => h.satisfyConstraints))).Pairwise
      (fun c₁ c₂ => Disjoint (consistentTuples c₁) (consistentTuples c₂) ∧
        c₁ ∈ listProduct (others.map (fun h => h.satisfyConstraints)) ∧
        c₂ ∈ listProduct (others.map (fun h => h.satisfyConstraints))) :=
    List.Pairwise.imp_of_mem (fun ha hb r => ⟨r, ha, hb⟩)
      (listProduct_cT_pairwise _ hper)
  refine List.Pairwise.filterMap _ ?_ hlp'
  rintro c c' ⟨hd, hcm, hcm'⟩ b hb b' hb'
  by_cases hv : validSet c = true
  · by_cases hv' : validSet c' = true
    · simp only [if_pos hv, Option.mem_def] at hb
      simp only [if_pos hv', Option.mem_def] at hb'
      injection hb with hb
      injection hb' with hb'
      subst hb
      subst hb'
      obtain ⟨hres, -⟩ := combo_resolved hwf hcm
      obtain ⟨hres', -⟩ := combo_resolved hwf hcm'
      rw [cT_tighten (fun o ho => ⟨(hres o ho).1, (hres o ho).2.1⟩),
        cT_tighten (fun o ho => ⟨(hres' o ho).1, (hres' o ho).2.1⟩)]
      exact hd
    · simp only [if_neg hv', Option.mem_def] at hb'
      exact Option.noConfusion hb'
  · simp only [if_neg hv, Option.mem_def] at hb
    exact Option.noConfusion hb

/-! ## Correctness of the counting loops of `countPlayerPossibilities` -/

theorem card_eq_sum_parts {β : Type} [DecidableEq β] :
    ∀ (parts : List (Finset β)) (T : Finset β),
      (∀ x ∈ T, ∃ p ∈ parts, x ∈ p) → (∀ p ∈ parts, p ⊆ T) →
      parts.Pairwise Disjoint →
      T.card = (parts.map Finset.card).sum := by
  intro parts
  induction parts with
  | nil =>
    intro T hcover _ _
    have hT : T = ∅ := by
      ext x
      simp only [Finset.not_mem_empty, iff_false]
      intro hx
      obtain ⟨p, hp, -⟩ := hcover x hx
      exact absurd hp (List.not_mem_nil p)
    rw [hT]
    rfl
  | cons p rest ih =>
    intro T hcover hsub hpair
    obtain ⟨hd, hp'⟩ := List.pairwise_cons.mp hpair
    have hpT : p ⊆ T := hsub p (List.mem_cons_self _ _)
    have hcov' : ∀ x ∈ T \ p, ∃ q ∈ rest, x ∈ q := by
      intro x hx
      obtain ⟨hxT, hxp⟩ := Finset.mem_sdiff.mp hx
      obtain ⟨q, hq, hxq⟩ := hcover x hxT
      rcases List.mem_cons.mp hq with rfl | hq
      · exact absurd hxq hxp
      · exact ⟨q, hq, hxq⟩
    have hsub' : ∀ q ∈ rest, q ⊆ T \ p := by
      intro q hq x hx
      exact Finset.mem_sdiff.mpr ⟨hsub q (List.mem_cons_of_mem _ hq) hx,
        Finset.disjoint_right.mp (hd q hq) hx⟩
    have hrest := ih (T \ p) hcov' hsub' hp'
    rw [List.map_cons, List.sum_cons, ← hrest]
    have := Finset.card_sdiff_add_card_eq_card hpT
    omega

theorem cppInner_correct :
    ∀ (hand_lists : List (List HandInformation)) (cache : Cache) (A : Finset Card),
      CacheSound cache →
      (∀ hl ∈ hand_lists, TightList hl ∧ hl ≠ [] ∧ (∀ g ∈ hl, 0 ≤ g.num_unknown_cards)) →
      ∃ cache', cppInner cache A hand_lists =
        some ((hand_lists.map (fun hl =>
          ((consistentTuples hl).filter (fun t => ∀ H' ∈ t, Disjoint A H')).card)).sum,
          cache') ∧
        CacheSound cache' := by
  intro hand_lists
  induction hand_lists with
  | nil =>
    intro cache A hsound _
    exact ⟨cache, rfl, hsound⟩
  | cons hl rest ih =>
    intro cache A hsound hparts
    have hhl := hparts hl (List.mem_cons_self _ _)
    rw [cppInner]
    by_cases hcol : ∃ h ∈ hl, ∃ x ∈ A, x ∈ h.known_cards
    · rw [if_pos hcol]
      obtain ⟨cache', hres, hsound'⟩ := ih cache A hsound
        (fun l hls => hparts l (List.mem_cons_of_mem _ hls))
      refine ⟨cache', ?_, hsound'⟩
      rw [hres, List.map_cons, List.sum_cons,
        consistentTuples_filter_collide hhl.1.1 hcol]
      simp
    · rw [if_neg hcol]
      have hnc : ∀ h ∈ hl, Disjoint A h.known_cards := by
        intro h hh
        rw [Finset.disjoint_left]
        intro x hxA hxk
        exact hcol ⟨h, hh, x, hxA, hxk⟩
      have htl' := tightList_map_sub hhl.1 A
      obtain ⟨cache₁, hcnt, hsound₁⟩ := countPossibleStates_trueCount
        (hl.map (fun h => { h with possible_cards := h.possible_cards \ A })).length
        (hl.map (fun h => { h with possible_cards := h.possible_cards \ A }))
        le_rfl cache hsound
        (fun hnil => hhl.2.1 (List.map_eq_nil_iff.mp hnil))
        (fun g hg => (htl'.1 g hg).1)
        (by
          intro g hg
          obtain ⟨h, hh, rfl⟩ := List.mem_map.mp hg
          exact hhl.2.2 h hh)
      obtain ⟨cache', hres, hsound'⟩ := ih cache₁ A hsound₁
        (fun l hls => hparts l (List.mem_cons_of_mem _ hls))
      simp only [hcnt, hres]
      refine ⟨cache', ?_, hsound'⟩
      rw [List.map_cons, List.sum_cons, consistentTuples_filter_disjoint hhl.1.1 hnc,
        card_consistentTuples htl']

theorem cppOuter_correct :
    ∀ (cands : List HandInformation) (cache : Cache)
      (hand_lists : List (List HandInformation)),
      CacheSound cache →
      (∀ hl ∈ hand_lists, TightList hl ∧ hl ≠ [] ∧ (∀ g ∈ hl, 0 ≤ g.num_unknown_cards)) →
      ∃ res cache', cppOuter cache hand_lists cands = some (res, cache') ∧
        CacheSound cache' ∧
        res.map (fun p => p.2) = cands.map (fun cand =>
          (hand_lists.map (fun hl => ((consistentTuples hl).filter
            (fun t => ∀ H' ∈ t, Disjoint cand.known_cards H')).card)).sum) := by
  intro cands
  induction cands with
  | nil =>
    intro cache hand_lists hsound _
    exact ⟨[], cache, rfl, hsound, rfl⟩
  | cons cand rest ih =>
    intro cache hand_lists hsound hparts
    obtain ⟨cache₁, hin, hsound₁⟩ :=
      cppInner_correct hand_lists cache cand.known_cards hsound hparts
    obtain ⟨res, cache', hout, hsound', hsnd⟩ := ih cache₁ hand_lists hsound₁ hparts
    refine ⟨(cand, (hand_lists.map (fun hl => ((consistentTuples hl).filter
        (fun t => ∀ H' ∈ t, Disjoint cand.known_cards H')).card)).sum) :: res,
      cache', ?_, hsound', ?_⟩
    · rw [cppOuter]
      simp only [hin, hout]
    · rw [List.map_cons, List.map_cons, hsnd]

theorem gph_known_nodup {h : HandInformation} (hwf : WFHand h) :
    (h.getPossibleHands.map (fun g => g.known_cards)).Nodup := by
  unfold HandInformation.getPossibleHands
  rw [List.map_map]
  refine List.Nodup.map_on ?_ ((unknownChoices_nodup h).filter _)
  intro S₁ h₁ S₂ h₂ heq
  have hS₁ : S₁ ⊆ h.possible_cards := (mem_unknownChoices.mp (List.mem_of_mem_filter h₁)).1
  have hS₂ : S₂ ⊆ h.possible_cards := (mem_unknownChoices.mp (List.mem_of_mem_filter h₂)).1
  have hd₁ : Disjoint h.known_cards S₁ := hwf.1.mono_right hS₁
  have hd₂ : Disjoint h.known_cards S₂ := hwf.1.mono_right hS₂
  have heq' : h.known_cards ∪ S₁ = h.known_cards ∪ S₂ := heq
  have hstrip := congrArg (fun X => X \ h.known_cards) heq'
  simpa [Finset.union_sdiff_cancel_left hd₁, Finset.union_sdiff_cancel_left hd₂] using hstrip

/-- The consistent assignments for envelope-and-players split by the envelope
completion: one summand per envelope candidate. -/
theorem cT_env_card (env : HandInformation) (others : List HandInformation)
    (hwfe : WFHand env) :
    (consistentTuples (env :: others)).card =
      (env.getPossibleHands.map (fun g =>
        ((consistentTuples others).filter
          (fun t => ∀ H' ∈ t, Disjoint g.known_cards H')).card)).sum := by
  classical
  have hdisj : ∀ H₁ ∈ handCompletions env, ∀ H₂ ∈ handCompletions env, H₁ ≠ H₂ →
      Disjoint (((consistentTuples others).filter
          (fun t => ∀ H' ∈ t, Disjoint H₁ H')).image (fun t => H₁ :: t))
        (((consistentTuples others).filter
          (fun t => ∀ H' ∈ t, Disjoint H₂ H')).image (fun t => H₂ :: t)) := by
    intro H₁ h₁ H₂ h₂ hne
    rw [Finset.disjoint_left]
    rintro t ht1 ht2
    obtain ⟨t₁, -, rfl⟩ := Finset.mem_image.mp ht1
    obtain ⟨t₂, -, heq⟩ := Finset.mem_image.mp ht2
    injection heq with he1 he2
    exact hne he1.symm
  rw [consistentTuples, Finset.card_biUnion hdisj]
  have himg : ∀ H ∈ handCompletions env,
      (((consistentTuples others).filter (fun t => ∀ H' ∈ t, Disjoint H H')).image
        (fun t => H :: t)).card =
      ((consistentTuples others).filter (fun t => ∀ H' ∈ t, Disjoint H H')).card := by
    intro H _
    exact Finset.card_image_of_injective _ (fun t₁ t₂ ht => by injection ht)
  rw [Finset.sum_congr rfl himg]
  have hhc : handCompletions env =
      (env.getPossibleHands.map (fun g => g.known_cards)).toFinset := rfl
  rw [hhc, List.sum_toFinset _ (gph_known_nodup hwfe), List.map_map]
  rfl

/-- C2 amended: provided the other-player list is non-empty, every hand
involved is well-formed (known and possible cards disjoint, not over-full) and
the starting cache is sound, `countPlayerPossibilities` succeeds and the sum
of the returned per-candidate counts equals the number of globally consistent
assignments of full hands to the envelope and all other players.  (For an
empty other-player list the counterexample shows the Python raises an
`IndexError` instead.) -/
theorem countPlayerPossibilities_conservation
    (cache : Cache) (env : HandInformation) (others : List HandInformation)
    (hsound : CacheSound cache) (hwfe : WFHand env)
    (hwfo : ∀ h ∈ others, WFHand h) (hne : others ≠ []) :
    ∃ res cache', countPlayerPossibilities cache env others = some (res, cache') ∧
      CacheSound cache' ∧
      (res.map (fun p => p.2)).sum = (consistentTuples (env :: others)).card := by
  classical
  have hparts : ∀ hl ∈ satisfyAllConstraints others,
      TightList hl ∧ hl ≠ [] ∧ (∀ g ∈ hl, 0 ≤ g.num_unknown_cards) := by
    intro hl hmem
    obtain ⟨htl, hlen, hnn⟩ := sac_parts_spec hwfo hl hmem
    refine ⟨htl, ?_, hnn⟩
    intro hnil
    rw [hnil] at hlen
    exact hne (List.length_eq_zero.mp hlen.symm)
  obtain ⟨res, cache', hout, hsound', hsnd⟩ :=
    cppOuter_correct env.getPossibleHands cache (satisfyAllConstraints others) hsound hparts
  refine ⟨res, cache', hout, hsound', ?_⟩
  rw [hsnd]
  have hstep1 : ∀ cand ∈ env.getPossibleHands,
      ((satisfyAllConstraints others).map (fun hl =>
        ((consistentTuples hl).filter
          (fun t => ∀ H' ∈ t, Disjoint cand.known_cards H')).card)).sum =
      ((consistentTuples others).filter
        (fun t => ∀ H' ∈ t, Disjoint cand.known_cards H')).card := by
    intro cand _
    symm
    have hcover : ∀ x ∈ (consistentTuples others).filter
        (fun t => ∀ H' ∈ t, Disjoint cand.known_cards H'),
        ∃ p ∈ (satisfyAllConstraints others).map (fun hl =>
          (consistentTuples hl).filter (fun t => ∀ H' ∈ t, Disjoint cand.known_cards H')),
          x ∈ p := by
      intro x hx
      obtain ⟨hxc, hxd⟩ := Finset.mem_filter.mp hx
      obtain ⟨hl, hmem, hxhl⟩ := (sac_cover hwfo x).mp hxc
      exact ⟨_, List.mem_map.mpr ⟨hl, hmem, rfl⟩, Finset.mem_filter.mpr ⟨hxhl, hxd⟩⟩
    have hsub : ∀ p ∈ (satisfyAllConstraints others).map (fun hl =>
        (consistentTuples hl).filter (fun t => ∀ H' ∈ t, Disjoint cand.known_cards H')),
        p ⊆ (consistentTuples others).filter
          (fun t => ∀ H' ∈ t, Disjoint cand.known_cards H') := by
      intro p hp
      obtain ⟨hl, hmem, rfl⟩ := List.mem_map.mp hp
      intro x hx
      obtain ⟨hxhl, hxd⟩ := Finset.mem_filter.mp hx
      exact Finset.mem_filter.mpr ⟨(sac_cover hwfo x).mpr ⟨hl, hmem, hxhl⟩, hxd⟩
    have hpw : ((satisfyAllConstraints others).map (fun hl =>
        (consistentTuples hl).filter
          (fun t => ∀ H' ∈ t, Disjoint cand.known_cards H'))).Pairwise Disjoint := by
      refine List.Pairwise.map _ ?_ (sac_cT_pairwise hwfo)
      intro hl₁ hl₂ hd
      exact (hd.mono_left (Finset.filter_subset _ _)).mono_right (Finset.filter_subset _ _)
    have hsum := card_eq_sum_parts _ _ hcover hsub hpw
    rw [hsum, List.map_map]
    rfl
  rw [List.map_congr_left hstep1, cT_env_card env others hwfe]

/-- C2 counterexample: with an empty other-player list the counting pipeline
raises (`hand_infos[hand_to_iterate_index]` indexes an empty list), so the
unconditional conservation statement fails. -/
theorem countPlayerPossibilities_empty_others_raises :
    countPlayerPossibilities [] ⟨1, ∅, {0}, []⟩ [] = none := by decide

theorem countPlayerPossibilities_conservation_witness :
    CacheSound [] ∧ WFHand ⟨1, ∅, {0, 1}, []⟩ ∧
    (∀ h ∈ [(⟨1, ∅, {0, 1}, []⟩ : HandInformation)], WFHand h) ∧
    ([(⟨1, ∅, {0, 1}, []⟩ : HandInformation)] ≠ []) ∧
    (∃ res cache', countPlayerPossibilities [] ⟨1, ∅, {0, 1}, []⟩
        [⟨1, ∅, {0, 1}, []⟩] = some (res, cache') ∧
      CacheSound cache' ∧
      (res.map (fun p => p.2)).sum =
        (consistentTuples ((⟨1, ∅, {0, 1}, []⟩ : HandInformation) ::
          [⟨1, ∅, {0, 1}, []⟩])).card) := by
  refine ⟨?_, ?_, ?_, ?_, ?_⟩
  · intro k v hfind l hkey
    exact Option.noConfusion hfind
  · exact ⟨by decide, by decide⟩
  · intro h hh
    rw [List.mem_singleton] at hh
    subst hh
    exact ⟨by decide, by decide⟩
  · decide
  · exact countPlayerPossibilities_conservation [] _ _
      (fun k v hfind l hkey => Option.noConfusion hfind)
      ⟨by decide, by decide⟩
      (fun h hh => by
        rw [List.mem_singleton] at hh
        subst hh
        exact ⟨by decide, by decide⟩)
      (by decide)

end ClueGuess
